import Mathlib

/-!
# grace: tracing / breakpoint engine and symbol resolution

A shallow embedding of the Go sources `dynamic.go`, `symbols.go`, `types.go`
and `tracer.go` of the `grace` package (linux/amd64, where
`unsafe.Sizeof(uintptr(0))` is 8), followed by theorems about them.

Conventions of the embedding:

* a `uint64` / `uintptr` is a `Nat`, and a sum that can leave the 64-bit range
  is reduced by `u64`;
* a `byte` is a `Nat` (the code never does arithmetic on bytes);
* a Go slice that a callee mutates in place is passed in and handed back;
* a Go `panic` (explicit or an index out of range) is the outcome
  `Run.panicked`, `os.Exit` is `Run.exited`; loops are driven by a fuel counter
  that is large enough for every input, and `Run.fuelOut` marks an exhausted
  counter;
* the traced process, reached in Go through `p.Pid` and `ptrace(2)`, is the
  field `tracee` of `Process`.
-/

namespace Grace

/-! ## Outcomes -/

/-- Outcome of running a piece of Go code: it returns a value, it panics, it
ends the whole program through `os.Exit`, or the fuel of the model ran out. -/
inductive Run (α : Type) where
  | ret (a : α) : Run α
  | panicked : Run α
  | exited (code : Int) : Run α
  | fuelOut : Run α
  deriving DecidableEq

/-- Sequencing: the continuation runs on a returned value, every other outcome
is passed on. -/
def Run.bind {α β : Type} (r : Run α) (f : α → Run β) : Run β :=
  match r with
  | Run.ret a => f a
  | Run.panicked => Run.panicked
  | Run.exited c => Run.exited c
  | Run.fuelOut => Run.fuelOut

/-- The size of `uintptr` in bytes on linux/amd64. -/
def wordSize : Nat := 8

/-- Reduction of a natural number to the range of `uint64`. -/
def u64 (n : Nat) : Nat := n % 2 ^ 64

/-! ## The traced process and the ptrace primitives -/

/-- Register snapshot, `syscall.PtraceRegs` embedded in `RegisterState`: the
program counter `Rip` and the remaining registers. -/
structure RegisterState where
  Rip : Nat
  others : List Nat

/-- Go library `(*PtraceRegs).PC`. -/
def RegisterState.PC (r : RegisterState) : Nat := r.Rip

/-- Go library `(*PtraceRegs).SetPC`. -/
def RegisterState.SetPC (r : RegisterState) (pc : Nat) : RegisterState :=
  { r with Rip := pc }

/-- The traced process as the kernel presents it to `ptrace(2)`: the byte at
every address, which words can be peeked and poked, the register file,
whether the requests to read the registers, to write them and to single-step
succeed, and the error of the request to continue (`none` when it
succeeds). -/
structure Tracee where
  mem : Nat → Nat
  canPeek : Nat → Bool
  canPoke : Nat → Bool
  regs : RegisterState
  canGetRegs : Bool
  canSetRegs : Bool
  canStep : Bool
  contErr : Option Nat

/-- The bytes of the word at `addr`. -/
def wordAt (t : Tracee) (addr : Nat) : List Nat :=
  (List.range wordSize).map (fun k => t.mem (addr + k))

/-- Kernel request `PTRACE_PEEKTEXT`: the word (eight bytes) at `addr`, or
`none` when the request fails. -/
def peekWord (t : Tracee) (addr : Nat) : Option (List Nat) :=
  if t.canPeek addr then some (wordAt t addr) else none

/-- Kernel request `PTRACE_POKETEXT`: stores the word `word` at `addr`, or
`none` (nothing stored) when the request fails. -/
def pokeWord (t : Tracee) (addr : Nat) (word : List Nat) : Option Tracee :=
  if t.canPoke addr then
    some { t with mem := fun x =>
      if addr ≤ x ∧ x < addr + wordSize then word.getD (x - addr) 0 else t.mem x }
  else none

/-- Go builtin `copy(dst[i:], src)`: the destination after the copy and the
number of bytes copied, `min (len dst - i) (len src)`. -/
def copyAt (dst : List Nat) (i : Nat) (src : List Nat) : List Nat × Nat :=
  let k := min (dst.length - i) src.length
  (dst.take i ++ src.take k ++ dst.drop (i + k), k)

/-- The remainder loop of the Go library function `ptracePeek`: word reads at
`addr + n` until `out` is full. Result: count, buffer, error flag. -/
def ptracePeekLoop (t : Tracee) (addr : Nat) :
    Nat → Nat → List Nat → Nat × List Nat × Bool
  | 0, n, out => (n, out, false)
  | fuel + 1, n, out =>
    if n < out.length then
      match peekWord t (u64 (addr + n)) with
      | none => (n, out, true)
      | some buf =>
        let c := copyAt out n buf
        ptracePeekLoop t addr fuel (n + c.2) c.1
    else (n, out, false)

/-- Go library `syscall.PtracePeekText(pid, addr, out)`: fills `out` with the
bytes at `addr`, reading aligned words; result: count, buffer, error flag. -/
def PtracePeekText (t : Tracee) (addr : Nat) (out : List Nat) :
    Nat × List Nat × Bool :=
  if addr % wordSize ≠ 0 then
    match peekWord t (addr - addr % wordSize) with
    | none => (0, out, true)
    | some buf =>
      let c := copyAt out 0 (buf.drop (addr % wordSize))
      ptracePeekLoop t addr out.length c.2 c.1
  else ptracePeekLoop t addr out.length 0 out

/-- The interior loop of the Go library function `ptracePoke`: whole words of
`data` from index `n` on, while more than a word is left. Result: tracee,
count, error flag. -/
def ptracePokeInterior (addr : Nat) (data : List Nat) :
    Nat → Tracee → Nat → Tracee × Nat × Bool
  | 0, t, n => (t, n, false)
  | fuel + 1, t, n =>
    if data.length - n > wordSize then
      match pokeWord t (u64 (addr + n)) ((data.drop n).take wordSize) with
      | none => (t, n, true)
      | some t1 => ptracePokeInterior addr data fuel t1 (n + wordSize)
    else (t, n, false)

/-- The trailing edge of `ptracePoke`: the last, possibly partial, word is
read, overlaid with the rest of `data` and written back. -/
def ptracePokeTrailing (addr : Nat) (data : List Nat) (t : Tracee) (n : Nat) :
    Tracee × Nat × Bool :=
  if data.length - n > 0 then
    match peekWord t (u64 (addr + n)) with
    | none => (t, n, true)
    | some buf =>
      match pokeWord t (u64 (addr + n)) (copyAt buf 0 (data.drop n)).1 with
      | none => (t, n, true)
      | some t1 => (t1, n + (data.length - n), false)
  else (t, n, false)

/-- Interior loop followed by the trailing edge. -/
def ptracePokeRest (addr : Nat) (data : List Nat) (t : Tracee) (n : Nat) :
    Tracee × Nat × Bool :=
  match ptracePokeInterior addr data data.length t n with
  | (t1, n1, true) => (t1, n1, true)
  | (t1, n1, false) => ptracePokeTrailing addr data t1 n1

/-- Go library `syscall.PtracePokeText(pid, addr, data)`: stores `data` at
`addr` through aligned word writes, reading the leading and the trailing word
first to keep the bytes around `data`. Result: tracee, count, error flag. -/
def PtracePokeText (t : Tracee) (addr : Nat) (data : List Nat) :
    Tracee × Nat × Bool :=
  if addr % wordSize ≠ 0 then
    match peekWord t (addr - addr % wordSize) with
    | none => (t, 0, true)
    | some buf =>
      let c := copyAt buf (addr % wordSize) data
      match pokeWord t (addr - addr % wordSize) c.1 with
      | none => (t, 0, true)
      | some t1 => ptracePokeRest addr data t1 c.2
  else ptracePokeRest addr data t 0

/-! ## Data model (`types.go`) -/

/-- Go `type Action int`. -/
abbrev Action := Int

/-- Go constant `CONTINUE = iota`. -/
def CONTINUE : Action := 0

/-- Go constant `ABORT`. -/
def ABORT : Action := 1

/-- Go `const INT3 = 0xcc`. -/
def INT3 : Nat := 0xcc

/-- Go `type BpCallback func (*RegisterState) Action`. -/
abbrev BpCallback := RegisterState → Action

/-- Go `type Breakpoint struct`. -/
structure Breakpoint where
  Address : Nat
  savedInstr : List Nat
  Active : Bool
  Callback : BpCallback
  HitCount : Nat

/-- Go `type CompiledFunction struct`. -/
structure CompiledFunction where
  Name : List Char
  Lowpc : Nat
  Highpc : Nat
  Lineno : Int
  deriving DecidableEq

/-- Go `type CompiledFile struct`; the map `Functions` is an association list
whose order is the order in which a `range` loop visits the entries. -/
structure CompiledFile where
  Filename : List Char
  Lowpc : Nat
  Highpc : Nat
  Functions : List (List Char × CompiledFunction)
  deriving DecidableEq

/-- Go `type SymbolTable map[string]CompiledFile`. -/
abbrev SymbolTable := List (List Char × CompiledFile)

/-- Go `type MemoryRegion struct`. -/
structure MemoryRegion where
  Address : Nat
  Offset : Nat
  File : List Char
  Size : Int
  Permissions : List Char
  deriving DecidableEq

/-- Go `type Process struct`. `DebugSymbols` is `none` for the nil pointer;
`Files` holds the descriptors of the open files; `tracee` is the traced
process behind `Pid`. -/
structure Process where
  Pid : Int
  Filename : List Char
  DebugSymbols : Option SymbolTable
  Memory : List (Nat × MemoryRegion)
  Files : List Nat
  Breakpoints : List Breakpoint
  Registers : Option RegisterState
  isRunning : Bool
  tracee : Tracee

/-! ## Memory access layer (`dynamic.go`) -/

/-- The loop of `writeMemoryAligned`: one `PtracePokeText` of `wordsize` bytes
per iteration; on an error it returns the count of the failing call. -/
def writeLoop (where_ : Nat) (bytes : List Nat) :
    Nat → Tracee → Nat → Nat → Run (Tracee × Nat × Bool)
  | 0, _, _, _ => Run.fuelOut
  | fuel + 1, t, offset, count =>
    if offset < bytes.length then
      if bytes.length < offset + wordSize then Run.panicked
      else
        match PtracePokeText t (u64 (where_ + offset))
            ((bytes.drop offset).take wordSize) with
        | (t1, cnt, true) => Run.ret (t1, cnt, true)
        | (t1, cnt, false) =>
          writeLoop where_ bytes fuel t1 (offset + wordSize) (count + cnt)
    else Run.ret (t, count, false)

/-- Go `func (p *Process) writeMemoryAligned(where uint64, bytes []byte)
(count int, err error)`. Result: process, count, error flag. -/
def writeMemoryAligned (p : Process) (where_ : Nat) (bytes : List Nat) :
    Run (Process × Nat × Bool) :=
  let rem := bytes.length % wordSize
  let pad := List.replicate wordSize 0
  let t0 := if rem > 0 then
      (PtracePokeText p.tracee (u64 (where_ + (bytes.length - rem))) pad).1
    else p.tracee
  let bytes1 := if rem > 0 then bytes ++ pad.drop rem else bytes
  (writeLoop where_ bytes1 (bytes1.length + 1) t0 0 0).bind fun r =>
    Run.ret ({ p with tracee := r.1 }, r.2.1, r.2.2)

/-- The loop of `readMemoryAligned`: every iteration peeks the word at
`whereAligned` into `wordRead` and copies from it into `bytes[i:lenBytes]`. -/
def readLoop (t : Tracee) (whereAligned : Nat) :
    Nat → Nat → List Nat → List Nat → Nat → Run (List Nat × Nat)
  | 0, _, _, _, _ => Run.fuelOut
  | fuel + 1, firstWordOffset, wordRead, bytes, i =>
    if i < bytes.length then
      match PtracePeekText t whereAligned wordRead with
      | (cnt, wordRead1, err) =>
        if err ∨ cnt ≠ wordSize then Run.panicked
        else
          let c := copyAt bytes i (wordRead1.drop firstWordOffset)
          readLoop t whereAligned fuel 0 wordRead1 c.1 (i + c.2)
    else Run.ret (bytes, i)

/-- Go `func (p *Process) readMemoryAligned(where uint64, bytes []byte)
(count int, err error)`. Result: the buffer and the count (the error is nil
whenever the function returns). -/
def readMemoryAligned (p : Process) (where_ : Nat) (bytes : List Nat) :
    Run (List Nat × Nat) :=
  if p.isRunning then Run.panicked
  else
    let whereAligned := where_ - where_ % wordSize
    let firstWordOffset := where_ - whereAligned
    readLoop p.tracee whereAligned (bytes.length + 1) firstWordOffset
      (List.replicate wordSize 0) bytes 0

/-- Go `func (p *Process) SwapBytesText(where uint64, what []byte) bool`.
Result: the boolean, the process and the slice `what` after the call. -/
def SwapBytesText (p : Process) (where_ : Nat) (what : List Nat) :
    Run (Bool × Process × List Nat) :=
  if p.isRunning then Run.panicked
  else
    (readMemoryAligned p where_ (List.replicate what.length 0)).bind fun r =>
      if r.2 ≠ what.length then Run.ret (false, p, what)
      else
        match PtracePokeText p.tracee where_ what with
        | (t1, cnt1, err) =>
          if cnt1 ≠ what.length ∨ err then
            Run.ret (false, { p with tracee := t1 }, what)
          else
            Run.ret (true, { p with tracee := t1 }, (copyAt what 0 r.1).1)

/-! ## Go library functions on strings (`strings`, `strconv`, `unicode`)

A Go `string` is a list of characters. -/

/-- Go library `unicode.IsSpace`. -/
def isSpace (c : Char) : Bool :=
  let n := c.toNat
  (9 ≤ n && n ≤ 13) || n == 0x20 || n == 0x85 || n == 0xA0 || n == 0x1680 ||
    (0x2000 ≤ n && n ≤ 0x200A) || n == 0x2028 || n == 0x2029 || n == 0x202F ||
    n == 0x205F || n == 0x3000

/-- Go library `strings.Contains(s, substr)`. -/
def stringsContains : List Char → List Char → Bool
  | [], substr => substr.isEmpty
  | c :: s, substr => substr.isPrefixOf (c :: s) || stringsContains s substr

/-- Go library `strings.Replace(s, old, new, -1)` for one-character `old` and
`new`. -/
def stringsReplace (s : List Char) (old new : Char) : List Char :=
  s.map (fun c => if c = old then new else c)

/-- The scan of `strings.Fields`: `cur` is the field being read, reversed. -/
def fieldsScan : List Char → List Char → List (List Char)
  | [], cur => if cur = [] then [] else [cur.reverse]
  | c :: s, cur =>
    if isSpace c then
      if cur = [] then fieldsScan s [] else cur.reverse :: fieldsScan s []
    else fieldsScan s (c :: cur)

/-- Go library `strings.Fields(s)`: the maximal runs of non-space
characters. -/
def stringsFields (s : List Char) : List (List Char) := fieldsScan s []

/-- Is `c` a decimal digit. -/
def isDigit (c : Char) : Bool := 48 ≤ c.toNat && c.toNat ≤ 57

/-- The value of a string of decimal digits. -/
def decimalValue (s : List Char) : Nat :=
  s.foldl (fun n c => n * 10 + (c.toNat - 48)) 0

/-- Go library `strconv.Atoi(s)` on a 64-bit platform: the value and whether an
error is returned. A syntax error gives 0, a range error the nearest bound. -/
def Atoi (s : List Char) : Int × Bool :=
  let neg := s.head? = some '-'
  let digits := if s.head? = some '-' ∨ s.head? = some '+' then s.drop 1 else s
  if digits = [] ∨ ¬ digits.all isDigit = true then (0, true)
  else
    let v := decimalValue digits
    if neg then
      if v > 2 ^ 63 then (-(2 ^ 63 : Int), true) else (-(v : Int), false)
    else
      if v > 2 ^ 63 - 1 then ((2 ^ 63 - 1 : Int), true) else ((v : Int), false)

/-- The errors of `strconv`: `ErrSyntax` and `ErrRange`. -/
inductive NumError where
  | ErrSyntax : NumError
  | ErrRange : NumError
  deriving DecidableEq

/-- The digit value that `strconv.ParseUint` gives a character: `some d` for
a digit or a letter, `none` for anything else. -/
def digitOf (c : Char) : Option Nat :=
  let n := c.toNat
  if 48 ≤ n ∧ n ≤ 57 then some (n - 48)
  else if 97 ≤ n ∧ n ≤ 122 then some (n - 97 + 10)
  else if 65 ≤ n ∧ n ≤ 90 then some (n - 65 + 10)
  else none

/-- The digit loop of `strconv.ParseUint` for bit size 64: `n` is the value
read so far. -/
def parseDigits (base : Nat) : List Char → Nat → Nat × Option NumError
  | [], n => (n, none)
  | c :: s, n =>
    match digitOf c with
    | none => (0, some NumError.ErrSyntax)
    | some d =>
      if d ≥ base then (0, some NumError.ErrSyntax)
      else if n ≥ (2 ^ 64 - 1) / base + 1 then (2 ^ 64 - 1, some NumError.ErrRange)
      else if n * base + d > 2 ^ 64 - 1 then (2 ^ 64 - 1, some NumError.ErrRange)
      else parseDigits base s (n * base + d)

/-- Go library `strconv.ParseUint(s, 0, 64)`: the base is taken from the
prefix (`0b`, `0o`, `0x`, a leading `0` for octal, decimal otherwise). The
underscore digit separators of base 0 are left out: an underscore is a syntax
error here, and `resolveSymbol` never passes one. -/
def ParseUint (s : List Char) : Nat × Option NumError :=
  match s with
  | [] => (0, some NumError.ErrSyntax)
  | c0 :: rest =>
    if c0 = '0' then
      match rest with
      | c1 :: c2 :: more =>
        if c1 = 'b' ∨ c1 = 'B' then parseDigits 2 (c2 :: more) 0
        else if c1 = 'o' ∨ c1 = 'O' then parseDigits 8 (c2 :: more) 0
        else if c1 = 'x' ∨ c1 = 'X' then parseDigits 16 (c2 :: more) 0
        else parseDigits 8 rest 0
      | _ => parseDigits 8 rest 0
    else parseDigits 10 s 0

/-! ## Location resolver (`symbols.go`) -/

/-- Go map index `m[key]` with the comma-ok form: `none` when the key is
absent. -/
def mapIndex {β : Type} : List (List Char × β) → List Char → Option β
  | [], _ => none
  | (k, v) :: rest, key => if k = key then some v else mapIndex rest key

/-- Go `func isAlnum(s string) bool`. -/
def isAlnum (s : List Char) : Bool :=
  if s.length = 0 then false
  else
    let s1 := if s.length > 2 ∧ s.take 2 = ['0', 'x'] then s.drop 2 else s
    s1.all (fun c =>
      !((c < '0' || c > '9') && (c < 'a' || c > 'f') && (c < 'A' || c > 'F')))

/-- Go `type symbolMode int`. -/
inductive symbolMode where
  | modeOther : symbolMode
  | modeCpp : symbolMode
  deriving DecidableEq

/-- Go `func symstringToTokens(sym string) ([]string, symbolMode)`. -/
def symstringToTokens (sym : List Char) : List (List Char) × symbolMode :=
  let mode := if stringsContains sym [':', ':'] then symbolMode.modeCpp
    else symbolMode.modeOther
  (stringsFields (stringsReplace sym ':' ' '), mode)

/-- The loop of `reverseSlice`: swaps `tokens[i]` and `tokens[tokensLen-1-i]`
while `i < tokensLen/2`. -/
def reverseLoop {α : Type} [Inhabited α] : Nat → Nat → List α → List α
  | 0, _, tokens => tokens
  | fuel + 1, i, tokens =>
    if i < tokens.length / 2 then
      reverseLoop fuel (i + 1)
        ((tokens.set i (tokens.getD (tokens.length - 1 - i) default)).set
          (tokens.length - 1 - i) (tokens.getD i default))
    else tokens

/-- Go `func reverseSlice(tokens []string)`. -/
def reverseSlice (tokens : List (List Char)) : List (List Char) :=
  reverseLoop (tokens.length / 2) 0 tokens

/-- Go `type symbolLocation struct`. -/
structure symbolLocation where
  fileName : List Char := []
  namespaceName : List Char := []
  className : List Char := []
  funcName : List Char := []
  lineNumber : Int := 0
  deriving DecidableEq

/-- Go `type locationError int`. -/
inductive locationError where
  | formatNoError : locationError
  | formatError : locationError
  | missingDWARF : locationError
  | symbolNotFound : locationError
  | unsupported : locationError
  deriving DecidableEq

/-- Go `func symstringToLoc(symstring string) (*symbolLocation, error)`; the
error is always nil. An index past the end of `tokens` panics. -/
def symstringToLoc (symstring : List Char) : Run symbolLocation :=
  let tokens := reverseSlice (symstringToTokens symstring).1
  let mode := (symstringToTokens symstring).2
  match tokens[0]? with
  | none => Run.panicked
  | some tok0 =>
    if isAlnum tok0 then
      match tokens[1]? with
      | none => Run.panicked
      | some tok1 => Run.ret { lineNumber := (Atoi tok0).1, fileName := tok1 }
    else
      let tokens1 := tokens.drop 1
      if mode = symbolMode.modeCpp then
        match tokens1[0]? with
        | none => Run.panicked
        | some cls =>
          if tokens1.length > 1 then
            Run.ret { funcName := tok0, className := cls,
                      namespaceName := tokens1.getD 1 [] }
          else Run.ret { funcName := tok0, className := cls }
      else
        match tokens1[0]? with
        | none => Run.panicked
        | some file => Run.ret { funcName := tok0, fileName := file }

/-- The error values that `resolveSymbol` can return. -/
inductive ResolveError where
  | num (e : NumError) : ResolveError
  | loc (e : locationError) : ResolveError
  deriving DecidableEq

/-- Go `func locToOffset(p *Process, loc *symbolLocation) (uint64, error)`.
The `range` over `file.Functions` visits the entries in list order. -/
def locToOffset (p : Process) (loc : symbolLocation) :
    Run (Nat × Option ResolveError) :=
  if loc.fileName ≠ [] then
    match p.DebugSymbols with
    | none => Run.panicked
    | some table =>
      match mapIndex table loc.fileName with
      | none => Run.ret (0, some (ResolveError.loc locationError.symbolNotFound))
      | some file =>
        if loc.lineNumber > 0 then
          match file.Functions.find? (fun kv => kv.2.Lineno = loc.lineNumber) with
          | some kv => Run.ret (kv.2.Lowpc, none)
          | none => Run.ret (0, some (ResolveError.loc locationError.unsupported))
        else
          match mapIndex file.Functions loc.funcName with
          | none => Run.ret (0, some (ResolveError.loc locationError.symbolNotFound))
          | some proc => Run.ret (proc.Lowpc, none)
  else Run.ret (0, some (ResolveError.loc locationError.symbolNotFound))

/-- Go `func (p *Process) resolveSymbol(sym string) (uint64, error)`. -/
def resolveSymbol (p : Process) (sym : List Char) :
    Run (Nat × Option ResolveError) :=
  if isAlnum sym then
    Run.ret ((ParseUint sym).1, (ParseUint sym).2.map ResolveError.num)
  else
    match p.DebugSymbols with
    | none => Run.ret (0, some (ResolveError.loc locationError.missingDWARF))
    | some _ => (symstringToLoc sym).bind fun loc => locToOffset p loc

/-! ## Addresses written as numbers (from the specification) -/

/-- Is `c` one of `0-9`, `a-f`, `A-F`. -/
def isHexDigit (c : Char) : Bool :=
  (48 ≤ c.toNat && c.toNat ≤ 57) || (97 ≤ c.toNat && c.toNat ≤ 102) ||
    (65 ≤ c.toNat && c.toNat ≤ 70)

/-- The value of a string of digits in `base`. -/
def digitsValue (base : Nat) (s : List Char) : Nat :=
  s.foldl (fun n c => n * base + (digitOf c).getD 0) 0

/-- The address that a location string written as a number denotes: `0x`
followed by one or more hexadecimal digits, read in base 16, or decimal digits
without a leading zero, read in base 10. -/
def addressDenoted (sym : List Char) : Option Nat :=
  if sym.take 2 = ['0', 'x'] ∧ sym.drop 2 ≠ [] ∧ (sym.drop 2).all isHexDigit = true then
    some (digitsValue 16 (sym.drop 2))
  else if sym ≠ [] ∧ sym.head? ≠ some '0' ∧ sym.all isDigit = true then
    some (digitsValue 10 sym)
  else none


/-! ## Breakpoint manager (`dynamic.go`) -/

/-- Go `func (p *Process) GetRegisters() (*RegisterState, error)`: `none` is
the error return. -/
def GetRegisters (p : Process) : Option RegisterState :=
  if p.tracee.canGetRegs then some p.tracee.regs else none

/-- Go `func (p *Process) SetRegisters(regs *RegisterState) bool`. -/
def SetRegisters (p : Process) (regs : RegisterState) : Bool × Process :=
  if p.tracee.canSetRegs then
    (true, { p with tracee := { p.tracee with regs := regs } })
  else (false, p)

/-- Go `func (p *Process) SingleStep() bool`. The traced program is not part of
the sources: `cpu` is the effect on the tracee of executing one instruction. -/
def SingleStep (cpu : Tracee → Tracee) (p : Process) : Bool × Process :=
  if p.tracee.canStep then (true, { p with tracee := cpu p.tracee })
  else (false, p)

/-- Go `func (p *Process) AddBreakpoint(where string, fun BpCallback) bool`. -/
def AddBreakpoint (p : Process) (where_ : List Char) (fn : BpCallback) :
    Run (Bool × Process) :=
  (resolveSymbol p where_).bind fun r =>
    match r.2 with
    | some _ => Run.ret (false, p)
    | none =>
      (SwapBytesText p r.1 [INT3]).bind fun s =>
        if s.1 then
          Run.ret (true, { s.2.1 with Breakpoints :=
            s.2.1.Breakpoints ++
              [{ Address := r.1, savedInstr := s.2.2, Active := true,
                 Callback := fn, HitCount := 0 }] })
        else Run.ret (false, s.2.1)

/-- Replaces the breakpoint at index `k`: the write through the pointer `bp`
that the list holds. -/
def setBreakpoint (p : Process) (k : Nat) (bp : Breakpoint) : Process :=
  { p with Breakpoints := p.Breakpoints.set k bp }

/-- Go `func (p *Process) ToggleBreakpoint(bp *Breakpoint) bool`, `bp` being
the breakpoint at index `k` of the list. -/
def ToggleBreakpoint (p : Process) (k : Nat) : Run (Bool × Process) :=
  match p.Breakpoints[k]? with
  | none => Run.panicked
  | some bp =>
    (SwapBytesText p bp.Address bp.savedInstr).bind fun s =>
      if ¬ s.1 then
        Run.ret (false, setBreakpoint s.2.1 k { bp with savedInstr := s.2.2 })
      else
        Run.ret (true, setBreakpoint s.2.1 k
          { bp with savedInstr := s.2.2, Active := !bp.Active })

/-- What `handleBreakpoint` does to the tracee and to the user, in order. -/
inductive Event where
  | swapped (addr : Nat) (ok : Bool) : Event
  | registersSet (regs : RegisterState) (ok : Bool) : Event
  | stepped (ok : Bool) : Event
  | called (regs : RegisterState) : Event

/-- The state in which `handleBreakpoint` calls `bp.Callback(regs)`: the
process, the breakpoint, the registers handed over and the events so far. -/
structure CallSite where
  proc : Process
  bp : Breakpoint
  regs : RegisterState
  log : List Event

/-- The part of `handleBreakpoint` before the callback: register read, swap of
the saved instruction, program counter reset, single step. `none` is the early
return after a failed register read. -/
def beforeCallback (cpu : Tracee → Tracee) (proc : Process) (k : Nat) :
    Run (Option CallSite) :=
  match proc.Breakpoints[k]? with
  | none => Run.panicked
  | some bp =>
    match GetRegisters proc with
    | none => Run.ret none
    | some regs =>
      (SwapBytesText proc bp.Address bp.savedInstr).bind fun s1 =>
        let regs1 := regs.SetPC bp.Address
        let r2 := SetRegisters s1.2.1 regs1
        let r3 := SingleStep cpu r2.2
        Run.ret (some
          { proc := r3.2, bp := { bp with savedInstr := s1.2.2 }, regs := regs1,
            log := [Event.swapped bp.Address s1.1, Event.registersSet regs1 r2.1,
              Event.stepped r3.1] })

/-- Go `func (proc *Process) handleBreakpoint(bp *Breakpoint)`, `bp` being the
breakpoint at index `k` of the list; `cpu` is the effect of one instruction of
the traced program. Result: the process and the log of events. -/
def handleBreakpoint (cpu : Tracee → Tracee) (proc : Process) (k : Nat) :
    Run (Process × List Event) :=
  (beforeCallback cpu proc k).bind fun site =>
    match site with
    | none => Run.ret (proc, [])
    | some cs =>
      if cs.bp.Callback cs.regs = ABORT then Run.exited 0
      else
        (SwapBytesText cs.proc cs.bp.Address cs.bp.savedInstr).bind fun s2 =>
          Run.ret (setBreakpoint s2.2.1 k
              { cs.bp with savedInstr := s2.2.2,
                           HitCount := u64 (cs.bp.HitCount + 1) },
            cs.log ++ [Event.called cs.regs, Event.swapped cs.bp.Address s2.1])

/-! ## Trace control (`tracer.go`) -/

/-- The loop of `InBreakpoint`: the index of the first breakpoint, counted from
`k`, with `bp.Address+1 == pc` in `uint64` arithmetic. -/
def findBreakpoint (pc : Nat) : List Breakpoint → Nat → Option Nat
  | [], _ => none
  | bp :: rest, k =>
    if u64 (bp.Address + 1) = pc then some k else findBreakpoint pc rest (k + 1)

/-- Go `func (p *Process) InBreakpoint() (*Breakpoint, bool)`: `some k` stands
for `(bp, true)` with `bp` the breakpoint at index `k` of the list, `none` for
`(nil, false)`. -/
def InBreakpoint (p : Process) : Option Nat :=
  match GetRegisters p with
  | none => none
  | some regs => findBreakpoint regs.PC p.Breakpoints 0

/-- Go `func (p *Process) Continue() error`: the error (`none` for nil) and
the process. -/
def Continue (p : Process) : Option Nat × Process :=
  match p.tracee.contErr with
  | none => (none, { p with isRunning := true })
  | some e => (some e, p)

/-- Go library `WaitStatus.Exited`: `w&0x7F == 0`. -/
def Exited (w : Nat) : Bool := w % 128 = 0

/-- Go library `WaitStatus.Stopped`: `w&0xFF == 0x7F`. -/
def Stopped (w : Nat) : Bool := w % 256 = 127

/-- Go library `WaitStatus.ExitStatus`: `int(w>>8) & 0xFF` for an exit, -1
otherwise. -/
def ExitStatus (w : Nat) : Int := if Exited w then ((w / 256 % 256 : Nat) : Int) else -1

/-- One return of `syscall.Wait4`: the status the kernel reports, whether the
call failed, and what the tracee did since it was last seen. -/
structure WaitEvent where
  status : Nat
  err : Bool
  run : Tracee → Tracee

/-- The status that `syscall.Wait4` stores: the library writes 0 when the call
fails. -/
def WaitEvent.stored (ev : WaitEvent) : Nat := if ev.err then 0 else ev.status

/-- The process right after `Wait4` returned with `ev` and `p.isRunning = false`
was executed. -/
def afterWait (p : Process) (ev : WaitEvent) : Process :=
  { p with isRunning := false, tracee := ev.run p.tracee }

/-- The body of the loop of `StartProcess` for an event that does not end the
loop: the breakpoint is handled when the stop is at one, then `p.Continue()`
is called. -/
def loopBody (cpu : Tracee → Tracee) (p : Process) (ev : WaitEvent) : Run Process :=
  (if Stopped ev.stored then
      match InBreakpoint (afterWait p ev) with
      | some k => (handleBreakpoint cpu (afterWait p ev) k).bind fun r => Run.ret r.1
      | none => Run.ret (afterWait p ev)
    else Run.ret (afterWait p ev)).bind fun p2 => Run.ret (Continue p2).2

/-- Go `func (p *Process) StartProcess() (ret int)`. The list holds the
returns of `Wait4`, in order; with no return left the call blocks, which is
the outcome `Run.fuelOut`. Result: the exit status and the process. -/
def StartProcess (cpu : Tracee → Tracee) : List WaitEvent → Process → Run (Int × Process)
  | [], _ => Run.fuelOut
  | ev :: rest, p =>
    if Exited ev.stored ∨ ev.stored = 0 ∨ ev.err then
      Run.ret (ExitStatus ev.stored, afterWait p ev)
    else (loopBody cpu p ev).bind fun p2 => StartProcess cpu rest p2

/-- The handling of a run of events none of which ends the loop. -/
def handleStops (cpu : Tracee → Tracee) : List WaitEvent → Process → Run Process
  | [], p => Run.ret p
  | ev :: rest, p => (loopBody cpu p ev).bind fun p2 => handleStops cpu rest p2

/-- The event is a stop of the tracee. -/
def WaitEvent.isStop (ev : WaitEvent) : Prop := ev.err = false ∧ Stopped ev.status = true

/-- The event is a normal exit of the tracee with exit code `c`. -/
def WaitEvent.isExit (ev : WaitEvent) (c : Int) : Prop :=
  ev.err = false ∧ Exited ev.status = true ∧ ExitStatus ev.status = c

/-! ## Shapes of a parsed location (from the specification) -/

/-- File + line: file name set, line number above 0, no function, class or
namespace. -/
def isFileLine (loc : symbolLocation) : Prop :=
  loc.fileName ≠ [] ∧ loc.lineNumber > 0 ∧ loc.funcName = [] ∧ loc.className = []
    ∧ loc.namespaceName = []

/-- File + line token: as `isFileLine`, but the line number may be 0. -/
def isFileLineToken (loc : symbolLocation) : Prop :=
  loc.fileName ≠ [] ∧ loc.lineNumber ≥ 0 ∧ loc.funcName = [] ∧ loc.className = []
    ∧ loc.namespaceName = []

/-- File + function: file name and function name set, no line, class or
namespace. -/
def isFileFunction (loc : symbolLocation) : Prop :=
  loc.fileName ≠ [] ∧ loc.funcName ≠ [] ∧ loc.lineNumber = 0 ∧ loc.className = []
    ∧ loc.namespaceName = []

/-- Class or namespace + function: class and function set, no file and no
line. -/
def isClassFunction (loc : symbolLocation) : Prop :=
  loc.className ≠ [] ∧ loc.funcName ≠ [] ∧ loc.fileName = [] ∧ loc.lineNumber = 0

/-! ## Symbol table builder (`symbols.go`) -/

/-- Go library `dwarf.Tag`, as far as `ExtractSymbolTable` tells tags apart. -/
inductive Tag where
  | TagCompileUnit : Tag
  | TagSubprogram : Tag
  | other : Tag
  deriving DecidableEq

/-- Go library `dwarf.Attr`, as far as the extraction tells attributes apart. -/
inductive Attr where
  | AttrName : Attr
  | AttrDeclLine : Attr
  | AttrHighpc : Attr
  | AttrLowpc : Attr
  | other : Attr
  deriving DecidableEq

/-- The dynamic value of `dwarf.Field.Val`: a `string`, a `uint64`, an `int64`
or a value of another type. -/
inductive Val where
  | str (s : List Char) : Val
  | uint (n : Nat) : Val
  | int (n : Int) : Val
  | other : Val
  deriving DecidableEq

/-- Go library `dwarf.Field`. -/
structure Field where
  Attr : Attr
  Val : Val
  deriving DecidableEq

/-- Go library `dwarf.Entry`. -/
structure Entry where
  Tag : Tag
  Field : List Field
  deriving DecidableEq

/-- Go interface `InstantiatedRange`: the values of `Low()` and `High()`. -/
structure InstantiatedRange where
  Low : Nat
  High : Nat
  deriving DecidableEq

/-- Go methods `Low` and `High` of `CompiledFile`. -/
def CompiledFile.range (c : CompiledFile) : InstantiatedRange :=
  { Low := c.Lowpc, High := c.Highpc }

/-- Go methods `Low` and `High` of `CompiledFunction`. -/
def CompiledFunction.range (c : CompiledFunction) : InstantiatedRange :=
  { Low := c.Lowpc, High := c.Highpc }

/-- Go `func contains(haystack, needle InstantiatedRange) bool`. -/
def contains (haystack needle : InstantiatedRange) : Bool :=
  haystack.Low ≤ needle.Low && haystack.High ≥ needle.High

/-- The loop of `extractFunction` over the fields of the entry; a type
assertion on a value of another type panics. -/
def extractFunctionLoop : List Field → CompiledFunction → Run CompiledFunction
  | [], fn => Run.ret fn
  | field :: rest, fn =>
    match field.Attr, field.Val with
    | Attr.AttrName, Val.str s => extractFunctionLoop rest { fn with Name := s }
    | Attr.AttrName, _ => Run.panicked
    | Attr.AttrDeclLine, Val.int n => extractFunctionLoop rest { fn with Lineno := n }
    | Attr.AttrDeclLine, _ => Run.panicked
    | Attr.AttrHighpc, Val.uint n => extractFunctionLoop rest { fn with Highpc := n }
    | Attr.AttrHighpc, _ => Run.panicked
    | Attr.AttrLowpc, Val.uint n => extractFunctionLoop rest { fn with Lowpc := n }
    | Attr.AttrLowpc, _ => Run.panicked
    | Attr.other, _ => extractFunctionLoop rest fn

/-- Go `func extractFunction(entry *dwarf.Entry) (fun CompiledFunction)`. -/
def extractFunction (entry : Entry) : Run CompiledFunction :=
  extractFunctionLoop entry.Field { Name := [], Lowpc := 0, Highpc := 0, Lineno := 0 }

/-- The loop of `extractFile` over the fields of the entry. -/
def extractFileLoop : List Field → CompiledFile → Run CompiledFile
  | [], file => Run.ret file
  | field :: rest, file =>
    match field.Attr, field.Val with
    | Attr.AttrName, Val.str s => extractFileLoop rest { file with Filename := s }
    | Attr.AttrName, _ => Run.panicked
    | Attr.AttrLowpc, Val.uint n => extractFileLoop rest { file with Lowpc := n }
    | Attr.AttrLowpc, _ => Run.panicked
    | Attr.AttrHighpc, Val.uint n => extractFileLoop rest { file with Highpc := n }
    | Attr.AttrHighpc, _ => Run.panicked
    | _, _ => extractFileLoop rest file

/-- Go `func extractFile(entry *dwarf.Entry) (file CompiledFile)`. -/
def extractFile (entry : Entry) : Run CompiledFile :=
  extractFileLoop entry.Field { Filename := [], Lowpc := 0, Highpc := 0, Functions := [] }

/-- Go map assignment `m[key] = value`. -/
def mapAssign {β : Type} : List (List Char × β) → List Char → β → List (List Char × β)
  | [], key, value => [(key, value)]
  | (k, v) :: rest, key, value =>
    if k = key then (key, value) :: rest else (k, v) :: mapAssign rest key value

/-- The inner loop of `ExtractSymbolTable` for a subprogram: the function is
assigned, under its name, in every file that contains its range. -/
def recordFunction (files : SymbolTable) (fn : CompiledFunction) : SymbolTable :=
  files.map fun kv =>
    if contains kv.2.range fn.range then
      (kv.1, { kv.2 with Functions := mapAssign kv.2.Functions fn.Name fn })
    else kv

/-- The loop of `ExtractSymbolTable` over the entries that the DWARF reader
yields. -/
def extractLoop : List Entry → SymbolTable → Run SymbolTable
  | [], files => Run.ret files
  | entry :: rest, files =>
    match entry.Tag with
    | Tag.TagCompileUnit =>
      (extractFile entry).bind fun file =>
        if file.Filename = [] then extractLoop rest files
        else extractLoop rest (mapAssign files file.Filename file)
    | Tag.TagSubprogram =>
      (extractFunction entry).bind fun fn => extractLoop rest (recordFunction files fn)
    | Tag.other => extractLoop rest files

/-- Go `func ExtractSymbolTable(binary string, offset uint64) (*SymbolTable,
error)` from the point where the DWARF reader exists: `entries` is what the
reader yields for the binary. -/
def ExtractSymbolTable (entries : List Entry) : Run SymbolTable :=
  extractLoop entries []

/-- The value of a field has the type that the extraction asserts for its
attribute. -/
def Field.wellTyped (field : Field) : Bool :=
  match field.Attr, field.Val with
  | Attr.AttrName, Val.str _ => true
  | Attr.AttrName, _ => false
  | Attr.AttrDeclLine, Val.int _ => true
  | Attr.AttrDeclLine, _ => false
  | Attr.AttrHighpc, Val.uint _ => true
  | Attr.AttrHighpc, _ => false
  | Attr.AttrLowpc, Val.uint _ => true
  | Attr.AttrLowpc, _ => false
  | Attr.other, _ => true

/-- A compile unit with name and address range. -/
def unitEntry (name : List Char) (low high : Nat) : Entry :=
  { Tag := Tag.TagCompileUnit,
    Field := [⟨Attr.AttrName, Val.str name⟩, ⟨Attr.AttrLowpc, Val.uint low⟩,
      ⟨Attr.AttrHighpc, Val.uint high⟩] }

/-- A subprogram with name, declaration line and address range. -/
def subprogramEntry (name : List Char) (line : Int) (low high : Nat) : Entry :=
  { Tag := Tag.TagSubprogram,
    Field := [⟨Attr.AttrName, Val.str name⟩, ⟨Attr.AttrDeclLine, Val.int line⟩,
      ⟨Attr.AttrLowpc, Val.uint low⟩, ⟨Attr.AttrHighpc, Val.uint high⟩] }

/-- The entry is a compile unit that the association loop stores under the file
name `F`. -/
def definesFile (e : Entry) (F : List Char) : Bool :=
  decide (e.Tag = Tag.TagCompileUnit) &&
    match extractFile e with
    | Run.ret file => decide (file.Filename = F)
    | _ => false

/-- The entry is a subprogram that the association loop records under the
function name `N`. -/
def definesFunction (e : Entry) (N : List Char) : Bool :=
  decide (e.Tag = Tag.TagSubprogram) &&
    match extractFunction e with
    | Run.ret fn => decide (fn.Name = N)
    | _ => false

/-- Every function recorded in the table lies in the address range of the file
that records it. -/
def covered (table : SymbolTable) : Prop :=
  ∀ kv ∈ table, ∀ fkv ∈ kv.2.Functions, contains kv.2.range fkv.2.range = true

/-! ## Example states -/

/-- A stopped tracee whose byte at address `a` is `(a + 1) % 256` and whose
requests all succeed. -/
def demoTracee : Tracee :=
  { mem := fun a => (a + 1) % 256, canPeek := fun _ => true,
    canPoke := fun _ => true, regs := { Rip := 0, others := [] },
    canGetRegs := true, canSetRegs := true, canStep := true, contErr := none }

/-- A stopped process without debug symbols and without breakpoints. -/
def demoProcess : Process :=
  { Pid := 1, Filename := "/home/user/foo".toList, DebugSymbols := none,
    Memory := [], Files := [], Breakpoints := [], Registers := none,
    isRunning := false, tracee := demoTracee }

/-- The function `foo` of `foo.c`, declared on line 10. -/
def fooFunction : CompiledFunction :=
  { Name := "foo".toList, Lowpc := 4096, Highpc := 4352, Lineno := 10 }

/-- The function `add` of `foo.c`, declared on line 42. -/
def addFunction : CompiledFunction :=
  { Name := "add".toList, Lowpc := 4352, Highpc := 4608, Lineno := 42 }

/-- The compile unit `foo.c` with its two functions. -/
def demoFile : CompiledFile :=
  { Filename := "foo.c".toList, Lowpc := 4096, Highpc := 8192,
    Functions := [("foo".toList, fooFunction), ("add".toList, addFunction)] }

/-- The symbol table of a binary built from `foo.c`. -/
def demoTable : SymbolTable := [("foo.c".toList, demoFile)]

/-- The stopped process with the symbol table `demoTable` loaded. -/
def symProcess : Process := { demoProcess with DebugSymbols := some demoTable }

/-- A stopped tracee like `demoTracee` whose words cannot be written. -/
def roTracee : Tracee := { demoTracee with canPoke := fun _ => false }

/-- A stopped process on `roTracee`. -/
def roProcess : Process := { demoProcess with tracee := roTracee }



/-- The breakpoint that `AddBreakpoint` installs at address 19 of
`demoProcess`: the byte there was 20. -/
def armedBreakpoint : Breakpoint :=
  { Address := 19, savedInstr := [20], Active := true,
    Callback := fun _ => CONTINUE, HitCount := 0 }

/-- The demo process with `armedBreakpoint` installed, stopped right after the
trap at address 19. -/
def armedProcess : Process :=
  { demoProcess with
    Breakpoints := [armedBreakpoint],
    tracee := { demoTracee with
      mem := Function.update demoTracee.mem 19 INT3,
      regs := { Rip := 20, others := [] } } }

/-- A traced program whose instructions only advance the program counter. -/
def demoCpu (t : Tracee) : Tracee :=
  { t with regs := { t.regs with Rip := t.regs.Rip + 1 } }

/-- The demo process with the running flag set. -/
def runningProcess : Process := { demoProcess with isRunning := true }

/-- A function without name, as `extractFunction` builds it from an entry
without name attribute, declared on the last line a Go `int` can hold. -/
def lastFunction : CompiledFunction :=
  { Name := [], Lowpc := 4608, Highpc := 4864, Lineno := 9223372036854775807 }

/-- A compile unit whose only function is `lastFunction`. -/
def edgeFile : CompiledFile :=
  { Filename := "foo.c".toList, Lowpc := 4096, Highpc := 8192,
    Functions := [([], lastFunction)] }

/-- A symbol table with `edgeFile` under the names `foo.c` and `my file.c`. -/
def edgeTable : SymbolTable := [("foo.c".toList, edgeFile), ("my file.c".toList, edgeFile)]

/-- The stopped process with the symbol table `edgeTable` loaded. -/
def edgeProcess : Process := { demoProcess with DebugSymbols := some edgeTable }

/-- A process like `demoProcess` whose tracee is gone: the request to continue
fails with `ESRCH` (3). -/
def goneProcess : Process :=
  { demoProcess with tracee := { demoTracee with contErr := some 3 } }

/-- A breakpoint like `armedBreakpoint` whose callback returns `ABORT`. -/
def abortBreakpoint : Breakpoint := { armedBreakpoint with Callback := fun _ => ABORT }

/-- The process `armedProcess` with `abortBreakpoint` in place of
`armedBreakpoint`. -/
def abortProcess : Process := { armedProcess with Breakpoints := [abortBreakpoint] }

/-- A stop of the tracee with `SIGTRAP`: wait status `0x057f`. -/
def stopEvent : WaitEvent := { status := 1407, err := false, run := fun t => t }

/-- A normal exit of the tracee with exit code 3: wait status `0x0300`. -/
def exitEvent : WaitEvent := { status := 768, err := false, run := fun t => t }

/-! ## Tables with the same contents (from the specification) -/

/-- Two association lists hold the same Go map: no key occurs twice and the
entries are the same, in whatever order. -/
def sameEntries {β : Type} (l1 l2 : List (List Char × β)) : Prop :=
  (l1.map Prod.fst).Nodup ∧ (l2.map Prod.fst).Nodup ∧ ∀ kv, kv ∈ l1 ↔ kv ∈ l2

/-- Two files with the same fields, the maps of functions compared as maps. -/
def sameFile (f g : CompiledFile) : Prop :=
  f.Filename = g.Filename ∧ f.Lowpc = g.Lowpc ∧ f.Highpc = g.Highpc
    ∧ sameEntries f.Functions g.Functions

/-- Two symbol tables with the same contents: a file name is bound in both, to
the same file, or in neither. -/
def sameTable (s t : SymbolTable) : Prop :=
  ∀ F, (mapIndex s F = none ∧ mapIndex t F = none)
    ∨ ∃ f g, mapIndex s F = some f ∧ mapIndex t F = some g ∧ sameFile f g

/-- In every file of the table, functions declared on the same line have the
same `Lowpc`. -/
def lineDeterministic (table : SymbolTable) : Prop :=
  ∀ F file, mapIndex table F = some file →
    ∀ kv1 ∈ file.Functions, ∀ kv2 ∈ file.Functions,
      kv1.2.Lineno = kv2.2.Lineno → kv1.2.Lowpc = kv2.2.Lowpc

/-- Two functions declared on line 10 of the same file. -/
def twinFunctions : List (List Char × CompiledFunction) :=
  [("f".toList, { Name := "f".toList, Lowpc := 4096, Highpc := 4352, Lineno := 10 }),
   ("g".toList, { Name := "g".toList, Lowpc := 4352, Highpc := 4608, Lineno := 10 })]

/-- The stopped process whose table has the file `foo.c` with the given map of
functions. -/
def processWith (functions : List (List Char × CompiledFunction)) : Process :=
  { demoProcess with
    DebugSymbols := some [("foo.c".toList, { demoFile with Functions := functions })] }

/-- A stopped process like `demoProcess` none of whose words can be peeked. -/
def unmappedProcess : Process :=
  { demoProcess with tracee := { demoTracee with canPeek := fun _ => false } }

/-! ## Reachable states of the breakpoint manager (from the specification) -/

/-- The states reachable from `p0` by calls of `AddBreakpoint` (a location that
resolves must resolve to a 64-bit address in `text` that holds no breakpoint
yet), of `ToggleBreakpoint`, and by completed calls of `handleBreakpoint`. -/
inductive Reachable (cpu : Tracee → Tracee) (text : Nat → Prop) (p0 : Process) :
    Process → Prop where
  | start : Reachable cpu text p0 p0
  | add (p p1 : Process) (where_ : List Char) (fn : BpCallback) (ok : Bool) :
      Reachable cpu text p0 p →
      (∀ A, resolveSymbol p where_ = Run.ret (A, none) →
        A < 2 ^ 64 ∧ text A ∧ ∀ bp ∈ p.Breakpoints, bp.Address ≠ A) →
      AddBreakpoint p where_ fn = Run.ret (ok, p1) → Reachable cpu text p0 p1
  | toggle (p p1 : Process) (k : Nat) (ok : Bool) :
      Reachable cpu text p0 p →
      ToggleBreakpoint p k = Run.ret (ok, p1) → Reachable cpu text p0 p1
  | hit (p p1 : Process) (k : Nat) (log : List Event) :
      Reachable cpu text p0 p →
      handleBreakpoint cpu p k = Run.ret (p1, log) → Reachable cpu text p0 p1

/-- The state of the breakpoints of `p` agrees with the memory of `p0`: the
process is stopped; an active breakpoint saves the byte of `p0` at its address
and has `INT3` in the target, an inactive one saves `INT3` and has the byte of
`p0` in the target; no two breakpoints share an address; and the text without
breakpoint is as in `p0`. -/
def consistent (text : Nat → Prop) (p0 p : Process) : Prop :=
  p.isRunning = false
    ∧ (∀ (k : Nat) (bp : Breakpoint), p.Breakpoints[k]? = some bp →
        bp.Address < 2 ^ 64 ∧ text bp.Address
          ∧ ((bp.Active = true ∧ bp.savedInstr = [p0.tracee.mem bp.Address]
                ∧ p.tracee.mem bp.Address = INT3)
            ∨ (bp.Active = false ∧ bp.savedInstr = [INT3]
                ∧ p.tracee.mem bp.Address = p0.tracee.mem bp.Address)))
    ∧ (∀ (i j : Nat) (bi bj : Breakpoint),
        p.Breakpoints[i]? = some bi → p.Breakpoints[j]? = some bj →
        bi.Address = bj.Address → i = j)
    ∧ (∀ x, text x →
        (∀ (k : Nat) (bp : Breakpoint), p.Breakpoints[k]? = some bp → bp.Address ≠ x) →
        p.tracee.mem x = p0.tracee.mem x)

/-! # Theorems -/

/-! ## Memory access layer -/

theorem u64_of_lt {a : Nat} (h : a < 2 ^ 64) : u64 a = a := Nat.mod_eq_of_lt h

theorem wordAt_length (t : Tracee) (a : Nat) : (wordAt t a).length = 8 := by
  simp [wordAt, wordSize]

theorem copyAt_full (dst src : List Nat) (h : dst.length = src.length) :
    copyAt dst 0 src = (src, src.length) := by
  simp [copyAt, h]

/-- An aligned peek of one word into a buffer of one word. -/
theorem PtracePeekText_aligned (t : Tracee) (a : Nat) (buf : List Nat)
    (ha : a % 8 = 0) (hlt : a < 2 ^ 64) (hbuf : buf.length = 8) :
    PtracePeekText t a buf =
      if t.canPeek a then (8, wordAt t a, false) else (0, buf, true) := by
  have h0 : ¬ (a % wordSize ≠ 0) := by simp [wordSize, ha]
  rw [PtracePeekText, if_neg h0, hbuf]
  simp only [ptracePeekLoop, hbuf, Nat.add_zero, u64_of_lt hlt, peekWord]
  by_cases hp : t.canPeek a = true
  · simp [hp, copyAt_full buf (wordAt t a) (by simp [hbuf, wordAt_length]), wordAt_length]
  · simp [hp]

theorem wordAt_drop_take (t : Tracee) (a off n : Nat) (h : off + n ≤ 8) :
    ((wordAt t a).drop off).take n = (List.range n).map (fun k => t.mem (a + off + k)) := by
  apply List.ext_getElem?
  intro i
  simp only [wordAt, wordSize, List.getElem?_take, List.getElem?_drop, List.getElem?_map,
    List.getElem?_range]
  by_cases hi : i < n
  · have h1 : off + i < 8 := by omega
    simp [hi, List.getElem?_range, h1, Nat.add_assoc]
  · have h2 : (List.range n)[i]? = none := by
      rw [List.getElem?_eq_none_iff]; simp; omega
    simp [hi, h2]

theorem aligned_facts (a : Nat) (h : a < 2 ^ 64) :
    (a - a % 8) % 8 = 0 ∧ a - a % 8 < 2 ^ 64 ∧ a - (a - a % 8) = a % 8
      ∧ a - a % 8 + a % 8 = a := by
  omega

/-- A read that stays inside one aligned word returns the bytes of the
target. -/
theorem readMemoryAligned_in_word (p : Process) (a : Nat) (bytes : List Nat)
    (hrun : p.isRunning = false) (ha : a < 2 ^ 64)
    (hpeek : p.tracee.canPeek (a - a % 8) = true)
    (hn : bytes.length ≤ 8 - a % 8) :
    readMemoryAligned p a bytes
      = Run.ret ((List.range bytes.length).map (fun k => p.tracee.mem (a + k)),
          bytes.length) := by
  obtain ⟨h1, h2, h3, h4⟩ := aligned_facts a ha
  simp only [readMemoryAligned, hrun, wordSize, h3]
  by_cases h0 : bytes.length = 0
  · have : bytes = [] := List.length_eq_zero.mp h0
    subst this
    simp [readLoop]
  · obtain ⟨m, hm⟩ : ∃ m, bytes.length = m + 1 := ⟨bytes.length - 1, by omega⟩
    rw [hm, readLoop]
    have hpos : 0 < bytes.length := by omega
    rw [if_pos hpos, PtracePeekText_aligned _ _ _ h1 h2 (by simp), hpeek]
    have hc : copyAt bytes 0 ((wordAt p.tracee (a - a % 8)).drop (a % 8))
        = ((List.range bytes.length).map (fun k => p.tracee.mem (a + k)), bytes.length) := by
      have hl : ((wordAt p.tracee (a - a % 8)).drop (a % 8)).length = 8 - a % 8 := by
        simp [wordAt_length]
      simp only [copyAt, hl, Nat.sub_zero, Nat.min_eq_left hn, List.take_zero, List.nil_append,
        Nat.zero_add, List.drop_length, List.append_nil]
      rw [wordAt_drop_take _ _ _ _ (by omega), h4]
    simp only [if_true, wordSize]
    simp only [hc]
    cases m with
    | zero => simp [readLoop, hm]
    | succ m => simp [readLoop, hm]

theorem wordAt_getElem_opt (t : Tracee) (a j : Nat) (hj : j < 8) :
    (wordAt t a)[j]? = some (t.mem (a + j)) := by
  simp [wordAt, wordSize, List.getElem?_map, List.getElem?_range, hj]

/-- Overlaying one byte on a peeked word and poking it back changes that byte
only. -/
theorem overlay_byte (t : Tracee) (w off b : Nat) (hoff : off < 8) :
    (fun x => if w ≤ x ∧ x < w + wordSize then
        ((wordAt t w).take off ++ [b] ++ (wordAt t w).drop (off + 1)).getD (x - w) 0
      else t.mem x) = Function.update t.mem (w + off) b := by
  funext x
  have hlen := wordAt_length t w
  by_cases hx : w ≤ x ∧ x < w + wordSize
  · rw [if_pos hx]
    simp only [wordSize] at hx
    obtain ⟨j, rfl⟩ : ∃ j, x = w + j := ⟨x - w, by omega⟩
    have hj : j < 8 := by omega
    have e0 : (List.take off (wordAt t w)).length = off := by
      rw [List.length_take, hlen]; omega
    simp only [Nat.add_sub_cancel_left, List.getD_eq_getElem?_getD]
    rcases Nat.lt_trichotomy j off with h | h | h
    · rw [List.append_assoc, List.getElem?_append_left (by rw [e0]; exact h)]
      rw [List.getElem?_take_of_lt h, wordAt_getElem_opt t w j hj]
      have : w + j ≠ w + off := by omega
      simp [Function.update, this]
    · subst h
      rw [List.append_assoc, List.getElem?_append_right (by rw [e0])]
      simp [e0]
    · have e1 : (List.take off (wordAt t w) ++ [b]).length = off + 1 := by
        rw [List.length_append, e0]; rfl
      rw [List.getElem?_append_right (by rw [e1]; omega)]
      rw [e1, List.getElem?_drop]
      have e2 : off + 1 + (j - (off + 1)) = j := by omega
      rw [e2, wordAt_getElem_opt t w j hj]
      have : w + j ≠ w + off := by omega
      simp [Function.update, this]
  · rw [if_neg hx]
    simp only [wordSize] at hx
    have : x ≠ w + off := by omega
    simp [Function.update, this]

/-- The poke of a peeked word with one byte replaced. -/
theorem pokeWord_overlay (t : Tracee) (w off b : Nat) (hoff : off < 8) :
    pokeWord t w ((wordAt t w).take off ++ [b] ++ (wordAt t w).drop (off + 1)) =
      if t.canPoke w = true then
        some { t with mem := Function.update t.mem (w + off) b }
      else none := by
  simp only [pokeWord, overlay_byte t w off b hoff]

/-- After the leading edge nothing is left of a one-byte poke. -/
theorem ptracePokeRest_done (t : Tracee) (a b : Nat) :
    ptracePokeRest a [b] t 1 = (t, 1, false) := by
  simp [ptracePokeRest, ptracePokeInterior, ptracePokeTrailing, wordSize]

/-- The trailing edge writes a one-byte poke at an aligned address. -/
theorem ptracePokeRest_byte (t : Tracee) (a b : Nat) (ha : a < 2 ^ 64) :
    ptracePokeRest a [b] t 0 =
      match peekWord t a with
      | none => (t, 0, true)
      | some buf =>
        match pokeWord t a ([b] ++ buf.drop 1) with
        | none => (t, 0, true)
        | some t1 => (t1, 1, false) := by
  have h1 : ptracePokeInterior a [b] 1 t 0 = (t, 0, false) := by
    simp [ptracePokeInterior, wordSize]
  simp only [ptracePokeRest, List.length_singleton, h1, ptracePokeTrailing, Nat.add_zero,
    u64_of_lt ha, Nat.sub_zero, Nat.lt_irrefl, List.drop_zero, copyAt]
  cases hp : peekWord t a with
  | none => simp
  | some buf =>
    have hb : buf.length = 8 := by
      simp only [peekWord] at hp
      split at hp
      · cases hp; exact wordAt_length t a
      · cases hp
    simp [hb]

/-- Poking one byte through the Go library: the peek and the poke of the
enclosing word must both succeed, and then exactly that byte changes;
otherwise nothing changes. -/
theorem PtracePokeText_byte (t : Tracee) (a b : Nat) (ha : a < 2 ^ 64) :
    PtracePokeText t a [b] =
      if t.canPeek (a - a % 8) = true ∧ t.canPoke (a - a % 8) = true then
        ({ t with mem := Function.update t.mem a b }, 1, false)
      else (t, 0, true) := by
  obtain ⟨h1, h2, h3, h4⟩ := aligned_facts a ha
  have hoff : a % 8 < 8 := Nat.mod_lt _ (by decide)
  have hlen := wordAt_length t (a - a % 8)
  have hov := pokeWord_overlay t (a - a % 8) (a % 8) b hoff
  rw [h4] at hov
  by_cases h0 : a % 8 = 0
  · have hw : a - a % 8 = a := by omega
    have hne : ¬ (a % wordSize ≠ 0) := by simp [wordSize, h0]
    rw [PtracePokeText, if_neg hne, ptracePokeRest_byte t a b ha]
    rw [hw, h0] at hov
    simp only [List.take_zero, List.nil_append, Nat.zero_add] at hov
    rw [hw]
    by_cases hp : t.canPeek a = true
    · simp only [peekWord, hp, if_true, hov]
      by_cases hq : t.canPoke a = true <;> simp [hq]
    · simp [peekWord, hp]
  · have hne : a % wordSize ≠ 0 := by simpa [wordSize] using h0
    rw [PtracePokeText, if_pos hne]
    have hmin : min (8 - a % 8) 1 = 1 := by omega
    by_cases hp : t.canPeek (a - a % 8) = true
    · simp only [peekWord, wordSize, hp, if_true, copyAt, hlen, List.length_singleton, hmin,
        List.take_succ_cons, List.take_zero, hov, ptracePokeRest_done]
      by_cases hq : t.canPoke (a - a % 8) = true <;> simp [hq, ptracePokeRest_done]
    · simp [peekWord, wordSize, hp]

/-- A read into a non-empty buffer panics when the word cannot be peeked. -/
theorem readMemoryAligned_peek_fails (p : Process) (a : Nat) (bytes : List Nat)
    (hrun : p.isRunning = false) (ha : a < 2 ^ 64) (hne : bytes ≠ [])
    (hpeek : p.tracee.canPeek (a - a % 8) = false) :
    readMemoryAligned p a bytes = Run.panicked := by
  obtain ⟨h1, h2, _, _⟩ := aligned_facts a ha
  have hpos : 0 < bytes.length := List.length_pos.mpr hne
  simp only [readMemoryAligned, hrun, wordSize, readLoop]
  rw [if_pos hpos, PtracePeekText_aligned _ _ _ h1 h2 (by simp), hpeek]
  simp

/-- The swap of a single byte: it panics when the word cannot be read, fails
without any effect when the word cannot be written, and otherwise stores the
byte and hands back the byte that was there. -/
theorem SwapBytesText_byte (p : Process) (a b : Nat)
    (hrun : p.isRunning = false) (ha : a < 2 ^ 64) :
    SwapBytesText p a [b] =
      if p.tracee.canPeek (a - a % 8) = true then
        if p.tracee.canPoke (a - a % 8) = true then
          Run.ret (true,
            { p with tracee := { p.tracee with mem := Function.update p.tracee.mem a b } },
            [p.tracee.mem a])
        else Run.ret (false, p, [b])
      else Run.panicked := by
  have hoff : a % 8 < 8 := Nat.mod_lt _ (by decide)
  obtain ⟨pid, fname, syms, mm, files, bps, regs, running, t⟩ := p
  simp only at hrun
  subst hrun
  by_cases hp : t.canPeek (a - a % 8) = true
  · have hr := readMemoryAligned_in_word ⟨pid, fname, syms, mm, files, bps, regs, false, t⟩
      a [0] rfl ha hp (by simp; omega)
    have e1 : List.range 1 = [0] := rfl
    simp only [List.length_singleton, e1, List.map_cons, List.map_nil,
      Nat.add_zero] at hr
    simp only [SwapBytesText, List.length_singleton, List.replicate_one, hr, Run.bind,
      PtracePokeText_byte _ a b ha, hp, if_true, true_and]
    by_cases hq : t.canPoke (a - a % 8) = true
    · simp [hq, copyAt]
    · simp [hq]
  · have hp' : t.canPeek (a - a % 8) = false := by simpa using hp
    have hr := readMemoryAligned_peek_fails ⟨pid, fname, syms, mm, files, bps, regs, false, t⟩
      a [0] rfl ha (by simp) hp'
    simp [SwapBytesText, hr, Run.bind, hp']

/-- C1 (code defect): a read of 16 bytes at address 0 returns count 16, but the
buffer holds the first word twice; the byte-by-byte reference read of the
same range is different. The loop of `readMemoryAligned` never advances
`whereAligned`. -/
theorem readMemoryAligned_repeats_first_word :
    readMemoryAligned demoProcess 0 (List.replicate 16 0)
        = Run.ret ([1, 2, 3, 4, 5, 6, 7, 8, 1, 2, 3, 4, 5, 6, 7, 8], 16)
      ∧ (List.range 16).map (fun k => demoProcess.tracee.mem (0 + k))
        = [1, 2, 3, 4, 5, 6, 7, 8, 9, 10, 11, 12, 13, 14, 15, 16] := by
  constructor <;> rfl

/-- C2 (code defect): writing the single byte 144 at address 0 succeeds and
sets the bytes at addresses 1 to 7, which lie outside the written range, to
zero: the pad word is poked into the target instead of being read from it. -/
theorem writeMemoryAligned_zeroes_tail :
    ∃ p1, writeMemoryAligned demoProcess 0 [144] = Run.ret (p1, 8, false)
      ∧ p1.tracee.mem 0 = 144
      ∧ demoProcess.tracee.mem 1 = 2 ∧ p1.tracee.mem 1 = 0
      ∧ demoProcess.tracee.mem 7 = 8 ∧ p1.tracee.mem 7 = 0 :=
  ⟨_, rfl, rfl, rfl, rfl, rfl, rfl⟩

/-- C3 (code defect): swapping in 16 bytes at address 0 and then swapping the
handed-back content in again, both calls succeeding, does not restore the
target: the byte at address 8 was 9 and ends up 1, because the first call
hands back the first word twice. -/
theorem SwapBytesText_round_trip_fails :
    ∃ p1 old p2 old2,
      SwapBytesText demoProcess 0 (List.replicate 16 144) = Run.ret (true, p1, old)
      ∧ SwapBytesText p1 0 old = Run.ret (true, p2, old2)
      ∧ old = [1, 2, 3, 4, 5, 6, 7, 8, 1, 2, 3, 4, 5, 6, 7, 8]
      ∧ demoProcess.tracee.mem 8 = 9 ∧ p2.tracee.mem 8 = 1 :=
  ⟨_, _, _, _, rfl, rfl, rfl, rfl, rfl⟩

/-! ## Location resolver -/

/-- C4 (code defect): with a symbol table loaded, `resolveSymbol` panics on the
empty string, on a single token and on a lone line number: `symstringToLoc`
indexes `tokens[0]` and `tokens[1]` without looking at the length. -/
theorem resolveSymbol_panics :
    resolveSymbol symProcess "".toList = Run.panicked
      ∧ resolveSymbol symProcess "main".toList = Run.panicked
      ∧ resolveSymbol symProcess ":12".toList = Run.panicked := by
  refine ⟨?_, ?_, ?_⟩ <;> decide


theorem isAlnum_false_of_colon (s : List Char) (h : ':' ∈ s) : isAlnum s = false := by
  have hs : s.length ≠ 0 := by
    intro h0; rw [List.length_eq_zero.mp h0] at h; simp at h
  simp only [isAlnum, if_neg hs]
  rw [← Bool.not_eq_true, List.all_eq_true]
  intro hall
  by_cases hc : s.length > 2 ∧ s.take 2 = ['0', 'x']
  · rw [if_pos hc] at hall
    have hmem : ':' ∈ s.take 2 ++ s.drop 2 := by rw [List.take_append_drop]; exact h
    rcases List.mem_append.mp hmem with h1 | h1
    · rw [hc.2] at h1; simp at h1
    · have := hall ':' h1
      revert this; decide
  · rw [if_neg hc] at hall
    have := hall ':' h
    revert this; decide

theorem stringsReplace_of_no_colon (s : List Char) (h : ∀ c ∈ s, c ≠ ':') :
    stringsReplace s ':' ' ' = s := by
  induction s with
  | nil => rfl
  | cons c s ih =>
    have hc : c ≠ ':' := h c (List.mem_cons_self _ _)
    simp only [stringsReplace, List.map_cons, if_neg hc]
    congr 1
    exact ih (fun d hd => h d (List.mem_cons_of_mem _ hd))

theorem stringsReplace_append (s r : List Char) :
    stringsReplace (s ++ r) ':' ' ' = stringsReplace s ':' ' ' ++ stringsReplace r ':' ' ' := by
  simp [stringsReplace]

theorem fieldsScan_word (w rest cur : List Char) (h : ∀ c ∈ w, isSpace c = false) :
    fieldsScan (w ++ rest) cur = fieldsScan rest (w.reverse ++ cur) := by
  induction w generalizing cur with
  | nil => rfl
  | cons c w ih =>
    have hc : isSpace c = false := h c (List.mem_cons_self _ _)
    have ih' := ih (c :: cur) (fun d hd => h d (List.mem_cons_of_mem _ hd))
    rw [List.cons_append, fieldsScan, hc]
    simp only [Bool.false_eq_true, if_false]
    rw [ih']
    simp

theorem stringsContains_of_no_colon (s : List Char) (h : ∀ c ∈ s, c ≠ ':') :
    stringsContains s [':', ':'] = false := by
  induction s with
  | nil => rfl
  | cons c s ih =>
    have hc : c ≠ ':' := h c (List.mem_cons_self _ _)
    have hc' : (':' == c) = false := by simpa using hc.symm
    simp only [stringsContains, List.isPrefixOf, hc', Bool.false_and, Bool.false_or]
    exact ih (fun d hd => h d (List.mem_cons_of_mem _ hd))

/-- The tokens of `F:G`. -/
theorem symstringToTokens_pair (F G : List Char) (hF : F ≠ []) (hG : G ≠ [])
    (hFc : ∀ c ∈ F, c ≠ ':' ∧ isSpace c = false)
    (hGc : ∀ c ∈ G, c ≠ ':' ∧ isSpace c = false) :
    symstringToTokens (F ++ ':' :: G) = ([F, G], symbolMode.modeOther) := by
  have hcont : stringsContains (F ++ ':' :: G) [':', ':'] = false := by
    induction F with
    | nil => exact absurd rfl hF
    | cons c F ih =>
      have hc : (':' == c) = false := by simpa using (hFc c (List.mem_cons_self _ _)).1.symm
      simp only [List.cons_append, stringsContains, List.isPrefixOf, hc, Bool.false_and,
        Bool.false_or]
      cases F with
      | nil =>
        cases G with
        | nil => exact absurd rfl hG
        | cons g G =>
          have hg : (':' == g) = false := by
            simpa using (hGc g (List.mem_cons_self _ _)).1.symm
          simp only [List.nil_append, stringsContains, List.isPrefixOf, hg, Bool.and_false,
            Bool.false_and, Bool.false_or, beq_self_eq_true, Bool.true_and]
          exact stringsContains_of_no_colon G
            (fun d hd => (hGc d (List.mem_cons_of_mem _ hd)).1)
      | cons c2 F2 =>
        exact ih (by simp) (fun d hd => hFc d (List.mem_cons_of_mem _ hd))
  have hrep : stringsReplace (F ++ ':' :: G) ':' ' ' = F ++ ' ' :: G := by
    rw [stringsReplace_append, stringsReplace_of_no_colon F (fun c hc => (hFc c hc).1)]
    have : stringsReplace (':' :: G) ':' ' ' = ' ' :: stringsReplace G ':' ' ' := by
      simp [stringsReplace]
    rw [this, stringsReplace_of_no_colon G (fun c hc => (hGc c hc).1)]
  have hFr : F.reverse ≠ [] := by simpa using hF
  have hGr : G.reverse ≠ [] := by simpa using hG
  have hfields : stringsFields (F ++ ' ' :: G) = [F, G] := by
    rw [stringsFields, fieldsScan_word F _ [] (fun c hc => (hFc c hc).2)]
    have hsp : isSpace ' ' = true := by decide
    simp only [List.append_nil, fieldsScan, hsp, if_true, if_neg hFr, List.reverse_reverse]
    have := fieldsScan_word G [] [] (fun c hc => (hGc c hc).2)
    rw [List.append_nil] at this
    rw [this]
    simp [fieldsScan, hGr]
  simp only [symstringToTokens, hcont, hrep, hfields, Bool.false_eq_true, if_false]

/-- C5, as amended: if the symbol table has the file `F` and `F` has the
function `G`, where `F` and `G` are non-empty and free of colons and white
space and `G` is not hex-looking (`isAlnum G` is false), then `resolveSymbol`
on `F:G` succeeds and returns the `Lowpc` of `G`. -/
theorem resolveSymbol_file_function (p : Process) (table : SymbolTable)
    (F G : List Char) (file : CompiledFile) (fn : CompiledFunction)
    (htable : p.DebugSymbols = some table)
    (hfile : mapIndex table F = some file)
    (hfn : mapIndex file.Functions G = some fn)
    (hF : F ≠ []) (hG : G ≠ [])
    (hFc : ∀ c ∈ F, c ≠ ':' ∧ isSpace c = false)
    (hGc : ∀ c ∈ G, c ≠ ':' ∧ isSpace c = false)
    (hname : isAlnum G = false) :
    resolveSymbol p (F ++ ':' :: G) = Run.ret (fn.Lowpc, none) := by
  have hal : isAlnum (F ++ ':' :: G) = false :=
    isAlnum_false_of_colon _ (by simp)
  have htok := symstringToTokens_pair F G hF hG hFc hGc
  have hrev : reverseSlice [F, G] = [G, F] := by
    simp [reverseSlice, reverseLoop]
  have hloc : symstringToLoc (F ++ ':' :: G) = Run.ret { funcName := G, fileName := F } := by
    simp [symstringToLoc, htok, hrev, hname]
  simp [resolveSymbol, hal, htable, hloc, Run.bind, locToOffset, hF, hfile, hfn]

theorem char_lt_iff (c d : Char) : c < d ↔ c.toNat < d.toNat := Iff.rfl

theorem isAlnum_rune_iff (c : Char) :
    (!((c < '0' || c > '9') && (c < 'a' || c > 'f') && (c < 'A' || c > 'F'))) = isHexDigit c := by
  have e0 : ('0' : Char).toNat = 48 := rfl
  have e9 : ('9' : Char).toNat = 57 := rfl
  have ea : ('a' : Char).toNat = 97 := rfl
  have ef : ('f' : Char).toNat = 102 := rfl
  have eA : ('A' : Char).toNat = 65 := rfl
  have eF : ('F' : Char).toNat = 70 := rfl
  simp only [isHexDigit, gt_iff_lt, char_lt_iff, e0, e9, ea, ef, eA, eF]
  rw [Bool.eq_iff_iff]
  simp only [Bool.not_eq_true', Bool.and_eq_false_imp, Bool.and_eq_true, Bool.or_eq_true,
    decide_eq_true_eq, Bool.or_eq_false_iff, decide_eq_false_iff_not]
  omega

theorem isAlnum_eq (s : List Char) :
    isAlnum s = if s.length = 0 then false
      else (if s.length > 2 ∧ s.take 2 = ['0', 'x'] then s.drop 2 else s).all isHexDigit := by
  simp only [isAlnum, isAlnum_rune_iff]

theorem digitOf_of_isHexDigit (c : Char) (h : isHexDigit c = true) :
    ∃ d, digitOf c = some d ∧ d < 16 := by
  simp only [isHexDigit, Bool.or_eq_true, Bool.and_eq_true, decide_eq_true_eq] at h
  simp only [digitOf]
  split
  · exact ⟨_, rfl, by omega⟩
  · split
    · exact ⟨_, rfl, by omega⟩
    · split
      · exact ⟨_, rfl, by omega⟩
      · omega

theorem digitOf_of_isDigit (c : Char) (h : isDigit c = true) :
    ∃ d, digitOf c = some d ∧ d < 10 := by
  simp only [isDigit, Bool.and_eq_true, decide_eq_true_eq] at h
  simp only [digitOf]
  rw [if_pos h]
  exact ⟨_, rfl, by omega⟩

theorem isHexDigit_of_isDigit (c : Char) (h : isDigit c = true) : isHexDigit c = true := by
  simp only [isDigit, Bool.and_eq_true, decide_eq_true_eq] at h
  simp only [isHexDigit, Bool.or_eq_true, Bool.and_eq_true, decide_eq_true_eq]
  omega

theorem foldl_digits_ge (base : Nat) (hb : 0 < base) (s : List Char) (n : Nat) :
    n ≤ s.foldl (fun n c => n * base + (digitOf c).getD 0) n := by
  induction s generalizing n with
  | nil => exact Nat.le_refl _
  | cons c s ih =>
    simp only [List.foldl_cons]
    refine Nat.le_trans ?_ (ih _)
    calc n = n * 1 := (Nat.mul_one n).symm
      _ ≤ n * base := Nat.mul_le_mul_left n hb
      _ ≤ n * base + (digitOf c).getD 0 := Nat.le_add_right _ _

/-- The digit loop of `ParseUint` returns the value of the digits when every
character is a digit of the base and the value fits in 64 bits. -/
theorem parseDigits_value (base : Nat) (hb : 0 < base) (s : List Char) (n : Nat)
    (hd : ∀ c ∈ s, ∃ d, digitOf c = some d ∧ d < base)
    (hv : s.foldl (fun n c => n * base + (digitOf c).getD 0) n < 2 ^ 64) :
    parseDigits base s n = (s.foldl (fun n c => n * base + (digitOf c).getD 0) n, none) := by
  induction s generalizing n with
  | nil => rfl
  | cons c s ih =>
    obtain ⟨d, hc, hlt⟩ := hd c (List.mem_cons_self _ _)
    simp only [List.foldl_cons, hc, Option.getD_some] at hv ⊢
    have hge := foldl_digits_ge base hb s (n * base + d)
    have h1 : n * base + d < 2 ^ 64 := Nat.lt_of_le_of_lt hge hv
    have h2 : ¬ n ≥ (2 ^ 64 - 1) / base + 1 := by
      intro h
      have h3 : (2 ^ 64 - 1) / base < n := h
      have := (Nat.div_lt_iff_lt_mul hb).mp h3
      omega
    have h4 : ¬ n * base + d > 2 ^ 64 - 1 := by omega
    rw [parseDigits]
    simp only [hc, if_neg (Nat.not_le.mpr hlt), if_neg h2, if_neg h4]
    exact ih _ (fun c hc => hd c (List.mem_cons_of_mem _ hc)) hv

/-- C6, as amended: for a location string that is `0x` followed by hexadecimal
digits, or decimal digits without a leading zero, and whose value is below
`2 ^ 64`, `resolveSymbol` succeeds and returns that value, for every process:
the symbol table may be absent, empty or populated. -/
theorem resolveSymbol_address (p : Process) (sym : List Char) (v : Nat)
    (hden : addressDenoted sym = some v) (hv : v < 2 ^ 64) :
    resolveSymbol p sym = Run.ret (v, none) := by
  simp only [addressDenoted] at hden
  split at hden
  next hx =>
    obtain ⟨htake, hne, hall⟩ := hx
    cases hden
    obtain ⟨c0, c1, rest, rfl⟩ : ∃ c0 c1 rest, sym = c0 :: c1 :: rest := by
      match sym, htake with
      | [], h => simp at h
      | [_], h => simp at h
      | c0 :: c1 :: rest, _ => exact ⟨c0, c1, rest, rfl⟩
    simp only [List.take_succ_cons, List.take_zero, List.cons.injEq, and_true] at htake
    obtain ⟨rfl, rfl⟩ := htake
    simp only [List.drop_succ_cons, List.drop_zero] at hne hall hv ⊢
    obtain ⟨d, ds, rfl⟩ := List.exists_cons_of_ne_nil hne
    have hal : isAlnum ('0' :: 'x' :: d :: ds) = true := by
      rw [isAlnum_eq]
      simpa using hall
    have hdig : ∀ c ∈ d :: ds, ∃ k, digitOf c = some k ∧ k < 16 :=
      fun c hc => digitOf_of_isHexDigit c (List.all_eq_true.mp hall c hc)
    have hparse : ParseUint ('0' :: 'x' :: d :: ds) = parseDigits 16 (d :: ds) 0 := by
      simp [ParseUint]
    simp only [resolveSymbol, hal, if_true, hparse,
      parseDigits_value 16 (by decide) (d :: ds) 0 hdig hv]
    rfl
  next hx =>
    split at hden
    next hy =>
      obtain ⟨hne, hhead, hall⟩ := hy
      cases hden
      obtain ⟨d, ds, rfl⟩ := List.exists_cons_of_ne_nil hne
      have hd0 : d ≠ '0' := by simpa using hhead
      have hhex : (d :: ds).all isHexDigit = true :=
        List.all_eq_true.mpr
          (fun c hc => isHexDigit_of_isDigit c (List.all_eq_true.mp hall c hc))
      have hal : isAlnum (d :: ds) = true := by
        rw [isAlnum_eq]
        have hnot : ¬ ((d :: ds).length > 2 ∧ (d :: ds).take 2 = ['0', 'x']) := by
          rintro ⟨_, h2⟩
          cases ds with
          | nil => simp at h2
          | cons e es =>
            simp only [List.take_succ_cons, List.take_zero, List.cons.injEq] at h2
            exact hd0 h2.1
        rw [if_neg (by simp), if_neg hnot]
        exact hhex
      have hdig : ∀ c ∈ d :: ds, ∃ k, digitOf c = some k ∧ k < 10 :=
        fun c hc => digitOf_of_isDigit c (List.all_eq_true.mp hall c hc)
      have hparse : ParseUint (d :: ds) = parseDigits 10 (d :: ds) 0 := by
        simp [ParseUint, hd0]
      simp only [resolveSymbol, hal, if_true, hparse,
        parseDigits_value 10 (by decide) (d :: ds) 0 hdig hv]
      rfl
    next => cases hden


/-- C5 (counterexample): `foo.c` is in the table and has the function `add`
with `Lowpc` 4352, the names are non-empty and free of colons and white space,
yet `foo.c:add` resolves to the symbol-not-found error: `add` consists of
hexadecimal digits only and is read as a line number. -/
theorem resolveSymbol_hex_named_function :
    mapIndex demoTable "foo.c".toList = some demoFile
      ∧ mapIndex demoFile.Functions "add".toList = some addFunction
      ∧ addFunction.Lowpc = 4352
      ∧ (∀ c ∈ "foo.c".toList, c ≠ ':' ∧ isSpace c = false)
      ∧ (∀ c ∈ "add".toList, c ≠ ':' ∧ isSpace c = false)
      ∧ resolveSymbol symProcess "foo.c:add".toList
          = Run.ret (0, some (ResolveError.loc locationError.symbolNotFound)) := by
  refine ⟨rfl, rfl, rfl, ?_, ?_, ?_⟩ <;> decide

/-- Witness for C5: `foo.c:foo` resolves to the `Lowpc` of `foo`. -/
theorem resolveSymbol_file_function_witness :
    resolveSymbol symProcess ("foo.c".toList ++ ':' :: "foo".toList)
      = Run.ret (4096, none) :=
  resolveSymbol_file_function symProcess demoTable "foo.c".toList "foo".toList
    demoFile fooFunction rfl rfl rfl (by decide) (by decide) (by decide)
    (by decide) (by decide)

/-- C6 (counterexample): `ff` consists of hexadecimal digits only, yet
`resolveSymbol` returns the syntax error of `strconv.ParseUint`, which reads a
string without prefix as decimal. -/
theorem resolveSymbol_bare_hex_fails :
    "ff".toList.all isHexDigit = true
      ∧ resolveSymbol demoProcess "ff".toList
          = Run.ret (0, some (ResolveError.num NumError.ErrSyntax))
      ∧ resolveSymbol symProcess "ff".toList
          = Run.ret (0, some (ResolveError.num NumError.ErrSyntax)) := by
  refine ⟨?_, ?_, ?_⟩ <;> decide

/-- Witness for C6: `0x1000` resolves to 4096. -/
theorem resolveSymbol_address_witness :
    addressDenoted "0x1000".toList = some 4096
      ∧ resolveSymbol demoProcess "0x1000".toList = Run.ret (4096, none) :=
  ⟨by decide,
    resolveSymbol_address demoProcess "0x1000".toList 4096 (by decide) (by decide)⟩

/-! ## Breakpoint manager -/

/-- A one-byte poke that does not report one byte written without error has
left the tracee as it was. -/
theorem PtracePokeText_byte_fails (t t1 : Tracee) (a b c : Nat) (e : Bool)
    (h : PtracePokeText t a [b] = (t1, c, e)) (hf : c ≠ 1 ∨ e = true) : t1 = t := by
  have hrest : ∀ t0 n r, ptracePokeRest a [b] t0 n = r → (r.2.1 ≠ 1 ∨ r.2.2 = true) → n ≤ 1 →
      r.1 = t0 := by
    intro t0 n r hr hfr hn
    have hint0 : ptracePokeInterior a [b] 1 t0 n = (t0, n, false) := by
      simp [ptracePokeInterior, wordSize]
      omega
    simp only [ptracePokeRest, List.length_singleton, hint0, ptracePokeTrailing] at hr
    split at hr
    · rename_i hpos
      split at hr
      · subst hr; rfl
      · split at hr
        · subst hr; rfl
        · subst hr
          simp only [List.length_singleton, Bool.false_eq_true, or_false] at hfr hpos
          omega
    · subst hr; rfl
  unfold PtracePokeText at h
  split at h
  · split at h
    · cases h; rfl
    · rename_i buf hbuf
      simp only at h
      split at h
      · cases h; rfl
      · rename_i t2 ht2
        have hlen : buf.length = 8 := by
          simp only [peekWord] at hbuf
          split at hbuf
          · cases hbuf; simp [wordAt, wordSize]
          · cases hbuf
        have hoff : a % 8 < 8 := Nat.mod_lt _ (by decide)
        have hc2 : (copyAt buf (a % wordSize) [b]).2 = 1 := by
          simp only [copyAt, wordSize, hlen, List.length_singleton]
          omega
        rw [hc2, ptracePokeRest_done] at h
        cases h
        simp at hf
  · have := hrest t 0 _ h (by simpa using hf) (by omega)
    exact this

/-- A failed swap of one byte leaves the process as it was. -/
theorem SwapBytesText_byte_fails (p p1 : Process) (a b : Nat) (w : List Nat)
    (h : SwapBytesText p a [b] = Run.ret (false, p1, w)) : p1 = p := by
  unfold SwapBytesText at h
  split at h
  · cases h
  · cases hr : readMemoryAligned p a (List.replicate [b].length 0) with
    | panicked => rw [hr] at h; cases h
    | exited c => rw [hr] at h; cases h
    | fuelOut => rw [hr] at h; cases h
    | ret r =>
      rw [hr] at h
      simp only [Run.bind] at h
      split at h
      · cases h; rfl
      · rcases hpoke : PtracePokeText p.tracee a [b] with ⟨t1, c, e⟩
        rw [hpoke] at h
        simp only at h
        split at h
        · rename_i hfail
          cases h
          have ht := PtracePokeText_byte_fails p.tracee t1 a b c e hpoke
            (by simpa using hfail)
          rw [ht]
        · cases h

/-- C7: whenever `AddBreakpoint` returns false, the memory of the target and
the breakpoint list are as before the call; indeed the whole process is. -/
theorem AddBreakpoint_false_unchanged (p p1 : Process) (where_ : List Char)
    (fn : BpCallback) (h : AddBreakpoint p where_ fn = Run.ret (false, p1)) :
    p1.tracee.mem = p.tracee.mem ∧ p1.Breakpoints = p.Breakpoints ∧ p1 = p := by
  have key : p1 = p := by
    unfold AddBreakpoint at h
    cases hr : resolveSymbol p where_ with
    | panicked => rw [hr] at h; cases h
    | exited c => rw [hr] at h; cases h
    | fuelOut => rw [hr] at h; cases h
    | ret r =>
      rw [hr] at h
      simp only [Run.bind] at h
      split at h
      · cases h; rfl
      · cases hs : SwapBytesText p r.1 [INT3] with
        | panicked => rw [hs] at h; cases h
        | exited c => rw [hs] at h; cases h
        | fuelOut => rw [hs] at h; cases h
        | ret s =>
          rw [hs] at h
          simp only at h
          obtain ⟨ok, p2, w⟩ := s
          cases ok with
          | true => simp at h
          | false =>
            simp only [Bool.false_eq_true, if_false] at h
            cases h
            exact SwapBytesText_byte_fails p p1 r.1 INT3 w hs
  subst key
  exact ⟨rfl, rfl, rfl⟩

theorem Run.bind_ret {α β : Type} (a : α) (f : α → Run β) : (Run.ret a).bind f = f a := rfl

/-- C8: when `AddBreakpoint` returns true for a location that resolves to the
64-bit address `A`, the byte at `A` is `INT3`, every other byte of the target
is unchanged, and the breakpoint list is the old list followed by one
breakpoint with address `A`, the old byte at `A` as saved instruction, the
active flag set, hit count 0 and the given callback. -/
theorem AddBreakpoint_true_installs (p p1 : Process) (where_ : List Char)
    (fn : BpCallback) (A : Nat)
    (hres : resolveSymbol p where_ = Run.ret (A, none)) (hA : A < 2 ^ 64)
    (h : AddBreakpoint p where_ fn = Run.ret (true, p1)) :
    p1.tracee.mem A = INT3
      ∧ (∀ x, x ≠ A → p1.tracee.mem x = p.tracee.mem x)
      ∧ p1.Breakpoints = p.Breakpoints ++
          [{ Address := A, savedInstr := [p.tracee.mem A], Active := true,
             Callback := fn, HitCount := 0 }] := by
  unfold AddBreakpoint at h
  rw [hres, Run.bind_ret] at h
  simp only at h
  cases hrun : p.isRunning with
  | true => simp [Run.bind, SwapBytesText, hrun] at h
  | false =>
    rw [SwapBytesText_byte p A INT3 hrun hA] at h
    by_cases hp : p.tracee.canPeek (A - A % 8) = true
    · by_cases hq : p.tracee.canPoke (A - A % 8) = true
      · simp only [Run.bind, hp, hq, if_true, Run.ret.injEq, Prod.mk.injEq, true_and] at h
        subst h
        refine ⟨by simp, ?_, rfl⟩
        intro x hx
        simp [Function.update, hx]
      · simp [Run.bind, hp, hq] at h
    · simp [Run.bind, hp] at h

/-- Witness for C7: the poke fails on a tracee whose text cannot be written. -/
theorem AddBreakpoint_false_unchanged_witness :
    AddBreakpoint roProcess "0x13".toList (fun _ => CONTINUE) = Run.ret (false, roProcess)
      ∧ roProcess.tracee.mem = roProcess.tracee.mem
      ∧ roProcess.Breakpoints = roProcess.Breakpoints ∧ roProcess = roProcess :=
  ⟨rfl, AddBreakpoint_false_unchanged roProcess roProcess "0x13".toList
    (fun _ => CONTINUE) rfl⟩

/-- Witness for C8: a breakpoint at address 19 (`0x13`) of the demo process. -/
theorem AddBreakpoint_true_installs_witness :
    ∃ p1, AddBreakpoint demoProcess "0x13".toList (fun _ => CONTINUE) = Run.ret (true, p1)
      ∧ p1.tracee.mem 19 = INT3
      ∧ (∀ x, x ≠ 19 → p1.tracee.mem x = demoProcess.tracee.mem x)
      ∧ p1.Breakpoints = demoProcess.Breakpoints ++
          [{ Address := 19, savedInstr := [demoProcess.tracee.mem 19], Active := true,
             Callback := fun _ => CONTINUE, HitCount := 0 }] :=
  ⟨_, rfl, AddBreakpoint_true_installs demoProcess _ "0x13".toList (fun _ => CONTINUE) 19
    (by decide) (by decide) rfl⟩


/-- The state in which the callback of a hit is called, for a breakpoint whose
word can be peeked and poked on a stopped process. -/
theorem beforeCallback_eq (cpu : Tracee → Tracee) (proc : Process) (k : Nat)
    (bp : Breakpoint) (orig : Nat)
    (hk : proc.Breakpoints[k]? = some bp) (hsaved : bp.savedInstr = [orig])
    (hA : bp.Address < 2 ^ 64) (hstop : proc.isRunning = false)
    (hregs : proc.tracee.canGetRegs = true)
    (hpeek : proc.tracee.canPeek (bp.Address - bp.Address % 8) = true)
    (hpoke : proc.tracee.canPoke (bp.Address - bp.Address % 8) = true) :
    beforeCallback cpu proc k = Run.ret (some
      { proc := (SingleStep cpu (SetRegisters
          { proc with tracee :=
              { proc.tracee with mem := Function.update proc.tracee.mem bp.Address orig } }
          (proc.tracee.regs.SetPC bp.Address)).2).2,
        bp := { bp with savedInstr := [proc.tracee.mem bp.Address] },
        regs := proc.tracee.regs.SetPC bp.Address,
        log := [Event.swapped bp.Address true,
          Event.registersSet (proc.tracee.regs.SetPC bp.Address) proc.tracee.canSetRegs,
          Event.stepped proc.tracee.canStep] }) := by
  have hswap := SwapBytesText_byte proc bp.Address orig hstop hA
  rw [hpeek, hpoke] at hswap
  simp only [if_true] at hswap
  simp only [beforeCallback, hk, GetRegisters, hregs, if_true, hsaved, hswap, Run.bind_ret]
  cases hs : proc.tracee.canSetRegs <;> cases hc : proc.tracee.canStep <;>
    simp [SetRegisters, SingleStep, hs, hc]

/-- C9: for a breakpoint at address `A` of a stopped process, with saved byte
`orig` and the word at `A` readable and writable, when the register read
succeeds and the stepped instruction does not write the byte at `A`, there is
a call site `cs`, the state in which `handleBreakpoint` calls the callback, with:
the registers handed to the callback have program counter `A`, not `A + 1`;
the byte of the target at `A` is `orig`; the tracee is the result of the single
step (if the step request succeeds) from the state with `orig` at `A` and the
program counter reset (if the register write succeeds); `handleBreakpoint`
itself ends the program when the callback, applied to these registers, returns
`ABORT`, and otherwise does nothing but patch the byte that was at `A` before
the hit into the tracee of `cs` and count the hit; so a completed call has
called the callback without `ABORT`, leaves the registers and every byte other
than the one at `A` as they are at the call site, and has done, in this order:
swap, register write, single step, callback, swap. -/
theorem handleBreakpoint_at_callback (cpu : Tracee → Tracee) (proc : Process) (k : Nat)
    (bp : Breakpoint) (orig : Nat)
    (hk : proc.Breakpoints[k]? = some bp) (hsaved : bp.savedInstr = [orig])
    (hA : bp.Address < 2 ^ 64) (hstop : proc.isRunning = false)
    (hregs : proc.tracee.canGetRegs = true)
    (hpeek : proc.tracee.canPeek (bp.Address - bp.Address % 8) = true)
    (hpoke : proc.tracee.canPoke (bp.Address - bp.Address % 8) = true)
    (hcpu : ∀ t, (cpu t).mem bp.Address = t.mem bp.Address) :
    ∃ cs, beforeCallback cpu proc k = Run.ret (some cs)
      ∧ cs.regs.PC = bp.Address
      ∧ cs.regs.PC ≠ bp.Address + 1
      ∧ cs.proc.tracee.mem bp.Address = orig
      ∧ cs.proc.tracee =
          (if proc.tracee.canStep = true then cpu else id)
            { proc.tracee with
              mem := Function.update proc.tracee.mem bp.Address orig,
              regs := if proc.tracee.canSetRegs = true then cs.regs else proc.tracee.regs }
      ∧ (∃ b1 b2, cs.log = [Event.swapped bp.Address true,
            Event.registersSet cs.regs b1, Event.stepped b2])
      ∧ handleBreakpoint cpu proc k =
          (if bp.Callback cs.regs = ABORT then Run.exited 0
           else
             (SwapBytesText cs.proc bp.Address [proc.tracee.mem bp.Address]).bind fun s2 =>
               Run.ret (setBreakpoint s2.2.1 k
                   { bp with savedInstr := s2.2.2, HitCount := u64 (bp.HitCount + 1) },
                 cs.log ++ [Event.called cs.regs, Event.swapped bp.Address s2.1]))
      ∧ ∀ p1 log, handleBreakpoint cpu proc k = Run.ret (p1, log) →
          bp.Callback cs.regs ≠ ABORT
            ∧ p1.tracee.regs = cs.proc.tracee.regs
            ∧ (∀ x, x ≠ bp.Address → p1.tracee.mem x = cs.proc.tracee.mem x)
            ∧ ∃ ok, log = cs.log ++ [Event.called cs.regs, Event.swapped bp.Address ok] := by
  have hb := beforeCallback_eq cpu proc k bp orig hk hsaved hA hstop hregs hpeek hpoke
  obtain ⟨P2, hP2⟩ : ∃ P2, P2 = (SingleStep cpu (SetRegisters
      { proc with tracee :=
          { proc.tracee with mem := Function.update proc.tracee.mem bp.Address orig } }
      (proc.tracee.regs.SetPC bp.Address)).2).2 := ⟨_, rfl⟩
  have f1 : P2.isRunning = false := by
    subst hP2
    cases hs : proc.tracee.canSetRegs <;> cases hc : proc.tracee.canStep <;>
      simp [SetRegisters, SingleStep, hs, hc, hstop]
  have heq : handleBreakpoint cpu proc k =
      (if bp.Callback (proc.tracee.regs.SetPC bp.Address) = ABORT then Run.exited 0
       else
         (SwapBytesText P2 bp.Address [proc.tracee.mem bp.Address]).bind fun s2 =>
           Run.ret (setBreakpoint s2.2.1 k
               { bp with savedInstr := s2.2.2, HitCount := u64 (bp.HitCount + 1) },
             [Event.swapped bp.Address true,
                Event.registersSet (proc.tracee.regs.SetPC bp.Address)
                  proc.tracee.canSetRegs,
                Event.stepped proc.tracee.canStep]
               ++ [Event.called (proc.tracee.regs.SetPC bp.Address),
                 Event.swapped bp.Address s2.1])) := by
    rw [handleBreakpoint, hb, Run.bind_ret, hP2]
  rw [← hP2] at hb
  refine ⟨_, hb, rfl, ?_, ?_, ?_, ⟨_, _, rfl⟩, heq, ?_⟩
  · show bp.Address ≠ bp.Address + 1
    omega
  · subst hP2
    cases hs : proc.tracee.canSetRegs <;> cases hc : proc.tracee.canStep <;>
      simp [SetRegisters, SingleStep, hs, hc, hcpu]
  · subst hP2
    cases hs : proc.tracee.canSetRegs <;> cases hc : proc.tracee.canStep <;>
      simp [SetRegisters, SingleStep, hs, hc]
  · intro p1 log h
    rw [heq] at h
    by_cases hab : bp.Callback (proc.tracee.regs.SetPC bp.Address) = ABORT
    · rw [if_pos hab] at h
      cases h
    · rw [if_neg hab, SwapBytesText_byte P2 bp.Address _ f1 hA] at h
      refine ⟨hab, ?_⟩
      by_cases hp : P2.tracee.canPeek (bp.Address - bp.Address % 8) = true
      · by_cases hq : P2.tracee.canPoke (bp.Address - bp.Address % 8) = true
        · simp only [hp, hq, if_true, Run.bind_ret, Run.ret.injEq, Prod.mk.injEq] at h
          refine ⟨?_, ?_, true, h.2.symm⟩
          · rw [← h.1]
            rfl
          · intro x hx
            rw [← h.1]
            simp [setBreakpoint, Function.update, hx]
        · simp only [hp, hq, if_true, if_false, Bool.false_eq_true, Run.bind_ret,
            Run.ret.injEq, Prod.mk.injEq] at h
          refine ⟨?_, ?_, false, h.2.symm⟩
          · rw [← h.1]
            rfl
          · intro x _
            rw [← h.1]
            rfl
      · simp [hp, Run.bind] at h

/-- C10: for an armed breakpoint at address `A` (the byte at `A` is `INT3`, the
saved byte is `orig`) of a stopped process, with the word at `A` readable and
writable before and after the step, a stepped instruction that does not write
the byte at `A`, and a callback that returns `CONTINUE`: `handleBreakpoint`
completes; afterwards the byte at `A` is `INT3` again, the saved byte is
`orig` again, the hit count is one more (it has not reached the end of its
64-bit range), and the address, the active flag, the callback and every
other breakpoint are unchanged. -/
theorem handleBreakpoint_rearms (cpu : Tracee → Tracee) (proc : Process) (k : Nat)
    (bp : Breakpoint) (orig : Nat)
    (hk : proc.Breakpoints[k]? = some bp) (hsaved : bp.savedInstr = [orig])
    (hA : bp.Address < 2 ^ 64) (hstop : proc.isRunning = false)
    (hregs : proc.tracee.canGetRegs = true)
    (hpeek : proc.tracee.canPeek (bp.Address - bp.Address % 8) = true)
    (hpoke : proc.tracee.canPoke (bp.Address - bp.Address % 8) = true)
    (harmed : proc.tracee.mem bp.Address = INT3)
    (hcont : bp.Callback (proc.tracee.regs.SetPC bp.Address) = CONTINUE)
    (hcount : bp.HitCount + 1 < 2 ^ 64)
    (hcpu : ∀ t, (cpu t).mem bp.Address = t.mem bp.Address)
    (hcpuPeek : ∀ t, (cpu t).canPeek (bp.Address - bp.Address % 8)
      = t.canPeek (bp.Address - bp.Address % 8))
    (hcpuPoke : ∀ t, (cpu t).canPoke (bp.Address - bp.Address % 8)
      = t.canPoke (bp.Address - bp.Address % 8)) :
    ∃ p1 log, handleBreakpoint cpu proc k = Run.ret (p1, log)
      ∧ p1.tracee.mem bp.Address = INT3
      ∧ p1.Breakpoints = proc.Breakpoints.set k
          { Address := bp.Address, savedInstr := [orig], Active := bp.Active,
            Callback := bp.Callback, HitCount := bp.HitCount + 1 } := by
  have hb := beforeCallback_eq cpu proc k bp orig hk hsaved hA hstop hregs hpeek hpoke
  have hne : ¬ (CONTINUE = ABORT) := by decide
  obtain ⟨P2, hP2⟩ : ∃ P2, P2 = (SingleStep cpu (SetRegisters
      { proc with tracee :=
          { proc.tracee with mem := Function.update proc.tracee.mem bp.Address orig } }
      (proc.tracee.regs.SetPC bp.Address)).2).2 := ⟨_, rfl⟩
  have f1 : P2.isRunning = false := by
    subst hP2
    cases hs : proc.tracee.canSetRegs <;> cases hc : proc.tracee.canStep <;>
      simp [SetRegisters, SingleStep, hs, hc, hstop]
  have f2 : P2.tracee.canPeek (bp.Address - bp.Address % 8) = true := by
    subst hP2
    cases hs : proc.tracee.canSetRegs <;> cases hc : proc.tracee.canStep <;>
      simp [SetRegisters, SingleStep, hs, hc, hcpuPeek, hpeek]
  have f3 : P2.tracee.canPoke (bp.Address - bp.Address % 8) = true := by
    subst hP2
    cases hs : proc.tracee.canSetRegs <;> cases hc : proc.tracee.canStep <;>
      simp [SetRegisters, SingleStep, hs, hc, hcpuPoke, hpoke]
  have f4 : P2.tracee.mem bp.Address = orig := by
    subst hP2
    cases hs : proc.tracee.canSetRegs <;> cases hc : proc.tracee.canStep <;>
      simp [SetRegisters, SingleStep, hs, hc, hcpu]
  have f5 : P2.Breakpoints = proc.Breakpoints := by
    subst hP2
    cases hs : proc.tracee.canSetRegs <;> cases hc : proc.tracee.canStep <;>
      simp [SetRegisters, SingleStep, hs, hc]
  have hswap := SwapBytesText_byte P2 bp.Address INT3 f1 hA
  rw [f2, f3, f4] at hswap
  simp only [if_true] at hswap
  rw [handleBreakpoint, hb, Run.bind_ret]
  simp only [← hP2, hcont, hne, if_false, harmed, hswap, Run.bind_ret, u64_of_lt hcount]
  refine ⟨_, _, rfl, ?_, ?_⟩
  · simp [setBreakpoint]
  · simp [setBreakpoint, f5]

/-- Witness for C9: the hit of `armedBreakpoint` on `armedProcess`, whose
callback returns `CONTINUE`: at the call site the program counter handed over
is 19, the byte at 19 is 20 again and the program has stepped to 20; a
completed call leaves the program counter at 20. -/
theorem handleBreakpoint_at_callback_witness :
    ∃ cs, beforeCallback demoCpu armedProcess 0 = Run.ret (some cs)
      ∧ cs.regs.PC = 19 ∧ cs.proc.tracee.mem 19 = 20
      ∧ cs.proc.tracee.regs.PC = 20
      ∧ ∀ p1 log, handleBreakpoint demoCpu armedProcess 0 = Run.ret (p1, log) →
          p1.tracee.regs.PC = 20 :=
  let ⟨cs, h1, h2, _, h4, h5, _, _, h8⟩ :=
    handleBreakpoint_at_callback demoCpu armedProcess 0 armedBreakpoint 20 rfl rfl
      (by decide) rfl rfl rfl rfl (fun _ => rfl)
  have hpc : cs.proc.tracee.regs.PC = 20 := by
    rw [h5]
    show (cs.regs.PC + 1 : Nat) = 20
    rw [h2]
    rfl
  ⟨cs, h1, h2, h4, hpc, fun p1 log h => by rw [(h8 p1 log h).2.1]; exact hpc⟩

/-- Witness for C10: the completed hit of `armedBreakpoint` on
`armedProcess`. -/
theorem handleBreakpoint_rearms_witness :
    ∃ p1 log, handleBreakpoint demoCpu armedProcess 0 = Run.ret (p1, log)
      ∧ p1.tracee.mem 19 = INT3
      ∧ p1.Breakpoints =
          [{ Address := 19, savedInstr := [20], Active := true,
             Callback := fun _ => CONTINUE, HitCount := 1 }] :=
  handleBreakpoint_rearms demoCpu armedProcess 0 armedBreakpoint 20 rfl rfl
    (by decide) rfl rfl rfl rfl rfl rfl (by decide) (fun _ => rfl) (fun _ => rfl)
    (fun _ => rfl)

/-! ## Location resolver: lines, missing symbols, missing debug information -/

theorem isDigit_not_colon_space (c : Char) (h : isDigit c = true) :
    c ≠ ':' ∧ isSpace c = false := by
  simp only [isDigit, Bool.and_eq_true, decide_eq_true_eq] at h
  constructor
  · intro hc
    subst hc
    revert h
    decide
  · simp only [isSpace, Bool.or_eq_false_iff, Bool.and_eq_false_imp, decide_eq_true_eq,
      decide_eq_false_iff_not, beq_eq_false_iff_ne, ne_eq]
    omega

/-- A non-empty string of decimal digits is hex-looking. -/
theorem isAlnum_of_digits (ds : List Char) (hne : ds ≠ [])
    (hd : ds.all isDigit = true) : isAlnum ds = true := by
  rw [isAlnum_eq]
  have hlen : ds.length ≠ 0 := by
    intro h; exact hne (List.length_eq_zero.mp h)
  rw [if_neg hlen]
  have hnot : ¬ (ds.length > 2 ∧ ds.take 2 = ['0', 'x']) := by
    rintro ⟨_, h2⟩
    have hx : 'x' ∈ ds := by
      have : 'x' ∈ ds.take 2 := by rw [h2]; simp
      exact List.mem_of_mem_take this
    have := List.all_eq_true.mp hd 'x' hx
    revert this; decide
  rw [if_neg hnot]
  exact List.all_eq_true.mpr
    (fun c hc => isHexDigit_of_isDigit c (List.all_eq_true.mp hd c hc))

/-- `Atoi` on decimal digits whose value is a Go `int`. -/
theorem Atoi_of_digits (ds : List Char) (hne : ds ≠ []) (hd : ds.all isDigit = true)
    (hv : decimalValue ds < 2 ^ 63) : Atoi ds = (((decimalValue ds : Nat) : Int), false) := by
  obtain ⟨d, rest, rfl⟩ := List.exists_cons_of_ne_nil hne
  have hd0 : isDigit d = true := List.all_eq_true.mp hd d (List.mem_cons_self _ _)
  have h1 : d ≠ '-' := by
    intro h; subst h; revert hd0; decide
  have h2 : d ≠ '+' := by
    intro h; subst h; revert hd0; decide
  have h3 : ¬ decimalValue (d :: rest) > 2 ^ 63 - 1 := by omega
  simp only [Atoi, List.head?_cons, Option.some.injEq, h1, h2, or_self, if_false, hd,
    not_true_eq_false, or_false, h3]
  simp

/-- The location parsed from `F:n` for a decimal line number `n`. -/
theorem symstringToLoc_file_line (F ds : List Char) (hF : F ≠ []) (hne : ds ≠ [])
    (hFc : ∀ c ∈ F, c ≠ ':' ∧ isSpace c = false) (hd : ds.all isDigit = true)
    (hv : decimalValue ds < 2 ^ 63) :
    symstringToLoc (F ++ ':' :: ds)
      = Run.ret { lineNumber := (decimalValue ds : Nat), fileName := F } := by
  have hdc : ∀ c ∈ ds, c ≠ ':' ∧ isSpace c = false :=
    fun c hc => isDigit_not_colon_space c (List.all_eq_true.mp hd c hc)
  have htok := symstringToTokens_pair F ds hF hne hFc hdc
  have hrev : reverseSlice [F, ds] = [ds, F] := by
    simp [reverseSlice, reverseLoop]
  simp [symstringToLoc, htok, hrev, isAlnum_of_digits ds hne hd, Atoi_of_digits ds hne hd hv]

/-- The resolution of `F:n`, for a file `F` of the table and a decimal line
number `n` from 1 to `2 ^ 63 - 1`, is the scan of the functions of `F` for the
declaration line `n`. -/
theorem resolveSymbol_file_line (p : Process) (table : SymbolTable) (F ds : List Char)
    (file : CompiledFile) (htable : p.DebugSymbols = some table)
    (hfile : mapIndex table F = some file) (hF : F ≠ [])
    (hFc : ∀ c ∈ F, c ≠ ':' ∧ isSpace c = false) (hne : ds ≠ [])
    (hd : ds.all isDigit = true) (h1 : 1 ≤ decimalValue ds)
    (hv : decimalValue ds < 2 ^ 63) :
    resolveSymbol p (F ++ ':' :: ds) =
      match file.Functions.find? (fun kv => kv.2.Lineno = ((decimalValue ds : Nat) : Int)) with
      | some kv => Run.ret (kv.2.Lowpc, none)
      | none => Run.ret (0, some (ResolveError.loc locationError.unsupported)) := by
  have hal : isAlnum (F ++ ':' :: ds) = false := isAlnum_false_of_colon _ (by simp)
  have hloc := symstringToLoc_file_line F ds hF hne hFc hd hv
  have hpos : ((decimalValue ds : Nat) : Int) > 0 := by omega
  simp only [resolveSymbol, hal, Bool.false_eq_true, if_false, htable, hloc, Run.bind_ret,
    locToOffset, ne_eq, hF, not_false_eq_true, if_true, hfile, hpos]

/-- C12, as amended: for a file `F` of the table (non-empty, free of colons and
white space) and a decimal line number `n` from 1 to `2 ^ 63 - 1` that is the
declaration line of no function of `F`, `resolveSymbol` on `F:n` fails with
the unsupported-location error. -/
theorem resolveSymbol_line_unsupported (p : Process) (table : SymbolTable)
    (F ds : List Char) (file : CompiledFile) (htable : p.DebugSymbols = some table)
    (hfile : mapIndex table F = some file) (hF : F ≠ [])
    (hFc : ∀ c ∈ F, c ≠ ':' ∧ isSpace c = false) (hne : ds ≠ [])
    (hd : ds.all isDigit = true) (h1 : 1 ≤ decimalValue ds)
    (hv : decimalValue ds < 2 ^ 63)
    (hnone : ∀ kv ∈ file.Functions, kv.2.Lineno ≠ ((decimalValue ds : Nat) : Int)) :
    resolveSymbol p (F ++ ':' :: ds)
      = Run.ret (0, some (ResolveError.loc locationError.unsupported)) := by
  rw [resolveSymbol_file_line p table F ds file htable hfile hF hFc hne hd h1 hv]
  have hfind : file.Functions.find?
      (fun kv => kv.2.Lineno = ((decimalValue ds : Nat) : Int)) = none := by
    rw [List.find?_eq_none]
    intro kv hkv
    simpa using hnone kv hkv
  rw [hfind]

/-- C13: for a file `F` of the table (non-empty, free of colons and white
space) and a decimal line number `n >= 1`: when exactly one function of `F`
has declaration line `n` (a Go `int`), `resolveSymbol` on `F:n` succeeds and
returns the `Lowpc` of that function; and whenever `F:m` resolves to an
address, that address is the `Lowpc` of a function of `F` whose declaration
line is `m`, so a function that merely contains line `m` is not chosen. -/
theorem resolveSymbol_line_function (p : Process) (table : SymbolTable)
    (F : List Char) (file : CompiledFile) (htable : p.DebugSymbols = some table)
    (hfile : mapIndex table F = some file) (hF : F ≠ [])
    (hFc : ∀ c ∈ F, c ≠ ':' ∧ isSpace c = false) :
    (∀ (ds name : List Char) (fn : CompiledFunction),
        ds ≠ [] → ds.all isDigit = true → 1 ≤ decimalValue ds →
        (name, fn) ∈ file.Functions → fn.Lineno = ((decimalValue ds : Nat) : Int) →
        fn.Lineno < 2 ^ 63 →
        (∀ kv ∈ file.Functions, kv.2.Lineno = fn.Lineno → kv.2 = fn) →
        resolveSymbol p (F ++ ':' :: ds) = Run.ret (fn.Lowpc, none))
      ∧ (∀ (ms : List Char) (a : Nat),
        ms ≠ [] → ms.all isDigit = true → 1 ≤ decimalValue ms → decimalValue ms < 2 ^ 63 →
        resolveSymbol p (F ++ ':' :: ms) = Run.ret (a, none) →
        ∃ kv ∈ file.Functions,
          kv.2.Lineno = ((decimalValue ms : Nat) : Int) ∧ kv.2.Lowpc = a) := by
  constructor
  · intro ds name fn hne hd h1 hmem hline hint huniq
    have hv : decimalValue ds < 2 ^ 63 := by omega
    rw [resolveSymbol_file_line p table F ds file htable hfile hF hFc hne hd h1 hv]
    cases hfind : file.Functions.find?
        (fun kv => kv.2.Lineno = ((decimalValue ds : Nat) : Int)) with
    | none =>
      rw [List.find?_eq_none] at hfind
      have := hfind (name, fn) hmem
      simp [hline] at this
    | some kv =>
      have hk1 : kv ∈ file.Functions := List.mem_of_find?_eq_some hfind
      have hk2 := List.find?_some hfind
      simp only [decide_eq_true_eq] at hk2
      have := huniq kv hk1 (by rw [hk2, hline])
      simp [this]
  · intro ms a hne hd h1 hv hres
    rw [resolveSymbol_file_line p table F ms file htable hfile hF hFc hne hd h1 hv] at hres
    cases hfind : file.Functions.find?
        (fun kv => kv.2.Lineno = ((decimalValue ms : Nat) : Int)) with
    | none => rw [hfind] at hres; simp at hres
    | some kv =>
      rw [hfind] at hres
      simp only [Run.ret.injEq, Prod.mk.injEq, and_true] at hres
      have hk2 := List.find?_some hfind
      simp only [decide_eq_true_eq] at hk2
      exact ⟨kv, List.mem_of_find?_eq_some hfind, hk2, hres⟩

/-- C14, as amended: for non-empty names `F` and `G` free of colons and white
space, `G` not hex-looking (`isAlnum G` is false): if `F` is not in the table,
or is in the table without a function named `G`, `resolveSymbol` on `F:G`
fails with the symbol-not-found error. -/
theorem resolveSymbol_not_found (p : Process) (table : SymbolTable) (F G : List Char)
    (htable : p.DebugSymbols = some table) (hF : F ≠ []) (hG : G ≠ [])
    (hFc : ∀ c ∈ F, c ≠ ':' ∧ isSpace c = false)
    (hGc : ∀ c ∈ G, c ≠ ':' ∧ isSpace c = false)
    (hname : isAlnum G = false)
    (habsent : mapIndex table F = none ∨
      ∃ file, mapIndex table F = some file ∧ mapIndex file.Functions G = none) :
    resolveSymbol p (F ++ ':' :: G)
      = Run.ret (0, some (ResolveError.loc locationError.symbolNotFound)) := by
  have hal : isAlnum (F ++ ':' :: G) = false := isAlnum_false_of_colon _ (by simp)
  have htok := symstringToTokens_pair F G hF hG hFc hGc
  have hrev : reverseSlice [F, G] = [G, F] := by
    simp [reverseSlice, reverseLoop]
  have hloc : symstringToLoc (F ++ ':' :: G) = Run.ret { funcName := G, fileName := F } := by
    simp [symstringToLoc, htok, hrev, hname]
  rcases habsent with h | ⟨file, h, hfn⟩
  · simp [resolveSymbol, hal, htable, hloc, Run.bind, locToOffset, hF, h]
  · simp [resolveSymbol, hal, htable, hloc, Run.bind, locToOffset, hF, h, hfn]

/-- C15: for a location string that is not a raw address and a process without
symbol table, `resolveSymbol` returns the missing-debug-info error; the string
is not parsed, so this holds also where `symstringToLoc` would panic. -/
theorem resolveSymbol_missing_debug_info (p : Process) (sym : List Char)
    (hsym : isAlnum sym = false) (hnil : p.DebugSymbols = none) :
    resolveSymbol p sym
      = Run.ret (0, some (ResolveError.loc locationError.missingDWARF)) := by
  simp [resolveSymbol, hsym, hnil]

/-- C11 (code defect): on a process whose running flag is set,
`readMemoryAligned` and `SwapBytesText` panic, but `writeMemoryAligned` does
not: it returns count 8 and the byte at address 0 of the target has changed
from 1 to 144. `writeMemoryAligned` lacks the call of `ensureNotRunning`. -/
theorem writeMemoryAligned_ignores_running :
    runningProcess.isRunning = true
      ∧ readMemoryAligned runningProcess 0 [0] = Run.panicked
      ∧ SwapBytesText runningProcess 0 [144] = Run.panicked
      ∧ ∃ p1, writeMemoryAligned runningProcess 0 [144, 2, 3, 4, 5, 6, 7, 8]
            = Run.ret (p1, 8, false)
          ∧ runningProcess.tracee.mem 0 = 1 ∧ p1.tracee.mem 0 = 144 :=
  ⟨rfl, rfl, rfl, _, rfl, rfl, rfl⟩

/-- C12 (counterexample): `foo.c:0` gives the symbol-not-found error although
no function of `foo.c` is declared on line 0; `my file.c:999` gives the
symbol-not-found error although `my file.c` is in the table without a function
on line 999; and `foo.c:9223372036854775808` resolves to an address although
no function is declared on that line. -/
theorem resolveSymbol_line_edge_cases :
    (∀ kv ∈ demoFile.Functions, kv.2.Lineno ≠ 0)
      ∧ resolveSymbol symProcess "foo.c:0".toList
          = Run.ret (0, some (ResolveError.loc locationError.symbolNotFound))
      ∧ mapIndex edgeTable "my file.c".toList = some edgeFile
      ∧ (∀ kv ∈ edgeFile.Functions, kv.2.Lineno ≠ 999)
      ∧ resolveSymbol edgeProcess "my file.c:999".toList
          = Run.ret (0, some (ResolveError.loc locationError.symbolNotFound))
      ∧ (∀ kv ∈ edgeFile.Functions, kv.2.Lineno ≠ 9223372036854775808)
      ∧ resolveSymbol edgeProcess "foo.c:9223372036854775808".toList
          = Run.ret (4608, none) := by
  refine ⟨?_, ?_, ?_, ?_, ?_, ?_, ?_⟩ <;> decide

/-- Witness for C12: no function of `foo.c` is declared on line 999. -/
theorem resolveSymbol_line_unsupported_witness :
    resolveSymbol symProcess ("foo.c".toList ++ ':' :: "999".toList)
      = Run.ret (0, some (ResolveError.loc locationError.unsupported)) :=
  resolveSymbol_line_unsupported symProcess demoTable "foo.c".toList "999".toList demoFile
    rfl rfl (by decide) (by decide) (by decide) (by decide) (by decide) (by decide)
    (by decide)

/-- Witness for C13: `add` is the one function of `foo.c` declared on line
42. -/
theorem resolveSymbol_line_function_witness :
    resolveSymbol symProcess ("foo.c".toList ++ ':' :: "42".toList)
      = Run.ret (4352, none) :=
  (resolveSymbol_line_function symProcess demoTable "foo.c".toList demoFile rfl rfl
    (by decide) (by decide)).1 "42".toList "add".toList addFunction (by decide)
    (by decide) (by decide) (by decide) (by decide) (by decide) (by decide)

/-- C14 (counterexample): `foo.c` is in `edgeTable` and has no function named
`add`, yet `foo.c:add` resolves to the address 4608: `add` is hex-looking and
read as line number 0, and the function without name is found under the
empty function name. -/
theorem resolveSymbol_hex_name_resolves :
    mapIndex edgeTable "foo.c".toList = some edgeFile
      ∧ mapIndex edgeFile.Functions "add".toList = none
      ∧ resolveSymbol edgeProcess "foo.c:add".toList = Run.ret (4608, none) := by
  refine ⟨?_, ?_, ?_⟩ <;> decide

/-- Witness for C14: `foo.c` has no function `bar`, and `baz.c` is not in the
table. -/
theorem resolveSymbol_not_found_witness :
    resolveSymbol symProcess ("foo.c".toList ++ ':' :: "bar".toList)
        = Run.ret (0, some (ResolveError.loc locationError.symbolNotFound))
      ∧ resolveSymbol symProcess ("baz.c".toList ++ ':' :: "foo".toList)
        = Run.ret (0, some (ResolveError.loc locationError.symbolNotFound)) :=
  ⟨resolveSymbol_not_found symProcess demoTable "foo.c".toList "bar".toList rfl
      (by decide) (by decide) (by decide) (by decide) (by decide)
      (Or.inr ⟨demoFile, rfl, rfl⟩),
    resolveSymbol_not_found symProcess demoTable "baz.c".toList "foo".toList rfl
      (by decide) (by decide) (by decide) (by decide) (by decide) (Or.inl rfl)⟩

/-- Witness for C15: the empty string and `foo.c:foo` on a process without
symbol table. -/
theorem resolveSymbol_missing_debug_info_witness :
    resolveSymbol demoProcess "".toList
        = Run.ret (0, some (ResolveError.loc locationError.missingDWARF))
      ∧ resolveSymbol demoProcess "foo.c:foo".toList
        = Run.ret (0, some (ResolveError.loc locationError.missingDWARF)) :=
  ⟨resolveSymbol_missing_debug_info demoProcess "".toList (by decide) rfl,
    resolveSymbol_missing_debug_info demoProcess "foo.c:foo".toList (by decide) rfl⟩

/-! ## Trace control and toggling -/

theorem findBreakpoint_none (pc : Nat) (l : List Breakpoint) (k : Nat) :
    findBreakpoint pc l k = none ↔ ∀ bp ∈ l, u64 (bp.Address + 1) ≠ pc := by
  induction l generalizing k with
  | nil => simp [findBreakpoint]
  | cons b rest ih =>
    by_cases hb : u64 (b.Address + 1) = pc
    · simp [findBreakpoint, hb]
    · simp [findBreakpoint, hb, ih]

theorem findBreakpoint_some (pc : Nat) (l : List Breakpoint) (k i : Nat) :
    findBreakpoint pc l k = some i ↔
      k ≤ i ∧ (∃ bp, l[i - k]? = some bp ∧ u64 (bp.Address + 1) = pc)
        ∧ ∀ j bp, j < i - k → l[j]? = some bp → u64 (bp.Address + 1) ≠ pc := by
  induction l generalizing k with
  | nil => simp [findBreakpoint]
  | cons b rest ih =>
    by_cases hb : u64 (b.Address + 1) = pc
    · simp only [findBreakpoint, hb, if_true, Option.some.injEq]
      constructor
      · intro h
        subst h
        refine ⟨Nat.le_refl _, ⟨b, by simp, hb⟩, ?_⟩
        intro j bp hj
        omega
      · rintro ⟨hki, _, hfirst⟩
        by_contra hne
        have hpos : 0 < i - k := by omega
        exact hfirst 0 b hpos (by simp) hb
    · simp only [findBreakpoint, hb, if_false, ih]
      constructor
      · rintro ⟨hki, ⟨bp, hbp, hm⟩, hfirst⟩
        have e : i - k = (i - (k + 1)) + 1 := by omega
        refine ⟨by omega, ⟨bp, ?_, hm⟩, ?_⟩
        · rw [e, List.getElem?_cons_succ]; exact hbp
        · intro j bp2 hj hbp2
          cases j with
          | zero =>
            simp only [List.getElem?_cons_zero, Option.some.injEq] at hbp2
            subst hbp2; exact hb
          | succ j =>
            rw [List.getElem?_cons_succ] at hbp2
            exact hfirst j bp2 (by omega) hbp2
      · rintro ⟨hki, ⟨bp, hbp, hm⟩, hfirst⟩
        have hne : i ≠ k := by
          intro h
          subst h
          simp only [Nat.sub_self, List.getElem?_cons_zero, Option.some.injEq] at hbp
          subst hbp
          exact hb hm
        have e : i - k = (i - (k + 1)) + 1 := by omega
        rw [e, List.getElem?_cons_succ] at hbp
        refine ⟨by omega, ⟨bp, hbp, hm⟩, ?_⟩
        intro j bp2 hj hbp2
        exact hfirst (j + 1) bp2 (by omega) (by rw [List.getElem?_cons_succ]; exact hbp2)

/-- C16: when the registers can be read and hold program counter `pc`,
`InBreakpoint` returns the breakpoint at index `k` exactly when that breakpoint
has `Address + 1 = pc` in 64-bit arithmetic and no breakpoint before it in the
list has; it reports a hit exactly when some breakpoint of the list has
`Address + 1 = pc`, and returns no breakpoint otherwise. -/
theorem InBreakpoint_first_match (p : Process) (regs : RegisterState)
    (hregs : GetRegisters p = some regs) :
    (∀ k, InBreakpoint p = some k ↔
        (∃ bp, p.Breakpoints[k]? = some bp ∧ u64 (bp.Address + 1) = regs.PC)
          ∧ ∀ j bp, j < k → p.Breakpoints[j]? = some bp → u64 (bp.Address + 1) ≠ regs.PC)
      ∧ ((InBreakpoint p).isSome = true ↔
          ∃ bp ∈ p.Breakpoints, u64 (bp.Address + 1) = regs.PC)
      ∧ (InBreakpoint p = none ↔ ∀ bp ∈ p.Breakpoints, u64 (bp.Address + 1) ≠ regs.PC) := by
  have hnone := findBreakpoint_none regs.PC p.Breakpoints 0
  refine ⟨?_, ?_, ?_⟩
  · intro k
    simp only [InBreakpoint, hregs, findBreakpoint_some, Nat.zero_le, true_and, Nat.sub_zero]
  · simp only [InBreakpoint, hregs]
    rw [← Option.ne_none_iff_isSome, Ne, hnone]
    push_neg
    rfl
  · simp only [InBreakpoint, hregs, hnone]

/-- C17: `Continue` returns the error of the continue primitive; when the
primitive succeeds the running flag is true afterwards and every other field
is as before; when it fails the process is unchanged, so the flag is set
by the call exactly when the primitive succeeds. -/
theorem Continue_running_flag (p : Process) :
    (Continue p).1 = p.tracee.contErr
      ∧ (p.tracee.contErr = none →
          (Continue p).2.isRunning = true
            ∧ (Continue p).2 = { p with isRunning := true })
      ∧ (p.tracee.contErr ≠ none → (Continue p).2 = p)
      ∧ ((Continue p).2.isRunning = true ↔ p.tracee.contErr = none ∨ p.isRunning = true) := by
  cases h : p.tracee.contErr with
  | none => simp [Continue, h]
  | some e => simp [Continue, h]

theorem set_of_getElem_opt {α : Type} (l : List α) (k : Nat) (a : α) (h : l[k]? = some a) :
    l.set k a = l := by
  induction l generalizing k with
  | nil => rfl
  | cons b rest ih =>
    cases k with
    | zero =>
      simp only [List.getElem?_cons_zero, Option.some.injEq] at h
      subst h; rfl
    | succ k =>
      simp only [List.getElem?_cons_succ] at h
      simp [List.set, ih k h]

/-- `ToggleBreakpoint` on a breakpoint with a one-byte saved instruction. -/
theorem ToggleBreakpoint_eq (p : Process) (k : Nat) (bp : Breakpoint) (s : Nat)
    (hk : p.Breakpoints[k]? = some bp) (hs : bp.savedInstr = [s])
    (hA : bp.Address < 2 ^ 64) (hstop : p.isRunning = false) :
    ToggleBreakpoint p k =
      if p.tracee.canPeek (bp.Address - bp.Address % 8) = true then
        if p.tracee.canPoke (bp.Address - bp.Address % 8) = true then
          Run.ret (true,
            { p with
              tracee := { p.tracee with mem := Function.update p.tracee.mem bp.Address s },
              Breakpoints := p.Breakpoints.set k
                { bp with savedInstr := [p.tracee.mem bp.Address], Active := !bp.Active } })
        else Run.ret (false, p)
      else Run.panicked := by
  have hswap := SwapBytesText_byte p bp.Address s hstop hA
  have hbp : { bp with savedInstr := [s] } = bp := by
    cases bp; simp only at hs; subst hs; rfl
  simp only [ToggleBreakpoint, hk, hs, hswap]
  by_cases hp : p.tracee.canPeek (bp.Address - bp.Address % 8) = true
  · by_cases hq : p.tracee.canPoke (bp.Address - bp.Address % 8) = true
    · simp [hp, hq, Run.bind, setBreakpoint]
    · simp only [hp, hq, if_true, if_false, Run.bind_ret, Bool.false_eq_true,
        not_false_eq_true, setBreakpoint, hbp, set_of_getElem_opt _ _ _ hk]
  · simp [hp, Run.bind]

/-- C18: for a breakpoint of a stopped process with a one-byte saved
instruction `s` at a 64-bit address: a successful `ToggleBreakpoint` puts `s`
at the address in the target (changing no other byte), saves the byte that was
there, and negates `Active`; a call that returns false leaves the process,
with `Active` and the saved byte, unchanged; the call succeeds when the word
at the address can be peeked and poked; and two successful toggles in a row
restore the memory of the target and the breakpoint list. -/
theorem ToggleBreakpoint_swaps (p : Process) (k : Nat) (bp : Breakpoint) (s : Nat)
    (hk : p.Breakpoints[k]? = some bp) (hs : bp.savedInstr = [s])
    (hA : bp.Address < 2 ^ 64) (hstop : p.isRunning = false) :
    (∀ p1, ToggleBreakpoint p k = Run.ret (true, p1) →
        p1.tracee.mem bp.Address = s
          ∧ (∀ x, x ≠ bp.Address → p1.tracee.mem x = p.tracee.mem x)
          ∧ p1.Breakpoints = p.Breakpoints.set k
              { Address := bp.Address, savedInstr := [p.tracee.mem bp.Address],
                Active := !bp.Active, Callback := bp.Callback, HitCount := bp.HitCount })
      ∧ (∀ p1, ToggleBreakpoint p k = Run.ret (false, p1) → p1 = p)
      ∧ (p.tracee.canPeek (bp.Address - bp.Address % 8) = true →
          p.tracee.canPoke (bp.Address - bp.Address % 8) = true →
          ∃ p1, ToggleBreakpoint p k = Run.ret (true, p1))
      ∧ (∀ p1 p2, ToggleBreakpoint p k = Run.ret (true, p1) →
          ToggleBreakpoint p1 k = Run.ret (true, p2) →
          p2.tracee.mem = p.tracee.mem ∧ p2.Breakpoints = p.Breakpoints) := by
  have heq := ToggleBreakpoint_eq p k bp s hk hs hA hstop
  have hklt : k < p.Breakpoints.length := by
    rcases Nat.lt_or_ge k p.Breakpoints.length with h | h
    · exact h
    · rw [List.getElem?_eq_none h] at hk; cases hk
  -- the process after a successful toggle
  have hsucc : ∀ p1, ToggleBreakpoint p k = Run.ret (true, p1) →
      p1 = { p with
        tracee := { p.tracee with mem := Function.update p.tracee.mem bp.Address s },
        Breakpoints := p.Breakpoints.set k
          { bp with savedInstr := [p.tracee.mem bp.Address], Active := !bp.Active } } := by
    intro p1 h
    rw [heq] at h
    by_cases hp : p.tracee.canPeek (bp.Address - bp.Address % 8) = true
    · by_cases hq : p.tracee.canPoke (bp.Address - bp.Address % 8) = true
      · simp only [hp, hq, if_true, Run.ret.injEq, Prod.mk.injEq, true_and] at h
        exact h.symm
      · simp [hp, hq] at h
    · simp [hp] at h
  refine ⟨?_, ?_, ?_, ?_⟩
  · intro p1 h
    rw [hsucc p1 h]
    refine ⟨by simp, ?_, rfl⟩
    intro x hx
    simp [Function.update, hx]
  · intro p1 h
    rw [heq] at h
    by_cases hp : p.tracee.canPeek (bp.Address - bp.Address % 8) = true
    · by_cases hq : p.tracee.canPoke (bp.Address - bp.Address % 8) = true
      · simp [hp, hq] at h
      · simp only [hp, hq, if_true, if_false, Bool.false_eq_true, Run.ret.injEq,
          Prod.mk.injEq, true_and] at h
        exact h.symm
    · simp [hp] at h
  · intro hp hq
    rw [heq, hp, hq]
    exact ⟨_, rfl⟩
  · intro p1 p2 h1 h2
    have e1 := hsucc p1 h1
    have hk1 : p1.Breakpoints[k]?
        = some { bp with savedInstr := [p.tracee.mem bp.Address], Active := !bp.Active } := by
      rw [e1]
      exact List.getElem?_set_self hklt
    have hstop1 : p1.isRunning = false := by rw [e1]; exact hstop
    have heq2 := ToggleBreakpoint_eq p1 k
      { bp with savedInstr := [p.tracee.mem bp.Address], Active := !bp.Active }
      (p.tracee.mem bp.Address) hk1 rfl hA hstop1
    rw [heq2] at h2
    have hbp : ({ bp with savedInstr := [s] } : Breakpoint) = bp := by
      cases bp; simp only at hs; subst hs; rfl
    by_cases hp : p1.tracee.canPeek (bp.Address - bp.Address % 8) = true
    · by_cases hq : p1.tracee.canPoke (bp.Address - bp.Address % 8) = true
      · simp only [hp, hq, if_true, Run.ret.injEq, Prod.mk.injEq, true_and] at h2
        subst h2
        subst e1
        refine ⟨?_, ?_⟩
        · simp
        · simp [List.set_set, hbp, set_of_getElem_opt _ _ _ hk]
      · simp [hp, hq] at h2
    · simp [hp] at h2

theorem Run.bind_eq_ret {α β : Type} (r : Run α) (f : α → Run β) (b : β)
    (h : r.bind f = Run.ret b) : ∃ a, r = Run.ret a ∧ f a = Run.ret b := by
  cases r with
  | ret a => exact ⟨a, rfl, h⟩
  | panicked => cases h
  | exited c => cases h
  | fuelOut => cases h

theorem StartProcess_stop (cpu : Tracee → Tracee) (ev : WaitEvent) (rest : List WaitEvent)
    (p : Process) (h : ev.isStop) :
    StartProcess cpu (ev :: rest) p
      = (loopBody cpu p ev).bind fun p2 => StartProcess cpu rest p2 := by
  obtain ⟨herr, hstop⟩ := h
  have hst : ev.stored = ev.status := by simp [WaitEvent.stored, herr]
  simp only [Stopped, decide_eq_true_eq] at hstop
  have h1 : ¬ (Exited ev.stored = true ∨ ev.stored = 0 ∨ ev.err = true) := by
    simp only [hst, Exited, decide_eq_true_eq, herr, Bool.false_eq_true, or_false]
    omega
  rw [StartProcess, if_neg h1]

/-- C19, as amended: when the wait results are a run of stops followed by a
normal exit with exit code `c`, and the handling of the stops returns (no
callback ends the program with `ABORT`, no memory access panics),
`StartProcess` ends at the exit, returns `c`, and the running flag is
cleared; the wait results after the exit are not consumed. -/
theorem StartProcess_returns_exit_code (cpu : Tracee → Tracee)
    (stops rest : List WaitEvent) (ev : WaitEvent) (c : Int) (p p1 : Process)
    (hstops : ∀ s ∈ stops, s.isStop) (hexit : ev.isExit c)
    (hhandled : handleStops cpu stops p = Run.ret p1) :
    StartProcess cpu (stops ++ ev :: rest) p = Run.ret (c, afterWait p1 ev)
      ∧ (afterWait p1 ev).isRunning = false := by
  refine ⟨?_, rfl⟩
  induction stops generalizing p with
  | nil =>
    simp only [handleStops, Run.ret.injEq] at hhandled
    subst hhandled
    obtain ⟨herr, hex, hc⟩ := hexit
    have hst : ev.stored = ev.status := by simp [WaitEvent.stored, herr]
    simp [StartProcess, hst, hex, hc]
  | cons s stops ih =>
    rw [List.cons_append, StartProcess_stop cpu s _ p (hstops s (List.mem_cons_self _ _))]
    rw [handleStops] at hhandled
    obtain ⟨p2, hp2, hrest⟩ := Run.bind_eq_ret _ _ _ hhandled
    rw [hp2, Run.bind_ret]
    exact ih p2 (fun x hx => hstops x (List.mem_cons_of_mem _ hx)) hrest

/-- Witness for C16: `armedProcess` is stopped with program counter 20, one
past the breakpoint at address 19. -/
theorem InBreakpoint_first_match_witness :
    GetRegisters armedProcess = some { Rip := 20, others := [] }
      ∧ InBreakpoint armedProcess = some 0 :=
  ⟨rfl, ((InBreakpoint_first_match armedProcess { Rip := 20, others := [] } rfl).1 0).mpr
    ⟨⟨armedBreakpoint, rfl, by decide⟩, fun j _ hj _ => absurd hj (Nat.not_lt_zero j)⟩⟩

/-- Witness for C17: the request succeeds on `demoProcess` and fails on
`goneProcess`. -/
theorem Continue_running_flag_witness :
    (Continue demoProcess).2.isRunning = true
      ∧ (Continue goneProcess).1 = some 3 ∧ (Continue goneProcess).2 = goneProcess :=
  ⟨((Continue_running_flag demoProcess).2.1 rfl).1,
    (Continue_running_flag goneProcess).1,
    (Continue_running_flag goneProcess).2.2.1 (by decide)⟩

/-- Witness for C18: toggling `armedBreakpoint` puts the saved byte 20 back at
address 19. -/
theorem ToggleBreakpoint_swaps_witness :
    ∃ p1, ToggleBreakpoint armedProcess 0 = Run.ret (true, p1) ∧ p1.tracee.mem 19 = 20 :=
  let h := ToggleBreakpoint_swaps armedProcess 0 armedBreakpoint 20 rfl rfl (by decide) rfl
  let ⟨p1, hp1⟩ := h.2.2.1 rfl rfl
  ⟨p1, hp1, (h.1 p1 hp1).1⟩

/-- C19 (counterexample): the wait results are a stop followed by a normal exit
with exit code 3, but the stop is at a breakpoint whose callback returns
`ABORT`: `StartProcess` does not return 3, the program ends through
`os.Exit(0)`. -/
theorem StartProcess_abort_exits :
    stopEvent.isStop ∧ exitEvent.isExit 3
      ∧ StartProcess demoCpu [stopEvent, exitEvent] abortProcess = Run.exited 0 :=
  ⟨⟨rfl, rfl⟩, ⟨rfl, rfl, rfl⟩, rfl⟩

/-- Witness for C19: the same wait results with a callback that returns
`CONTINUE`. -/
theorem StartProcess_returns_exit_code_witness :
    ∃ p1, StartProcess demoCpu ([stopEvent] ++ exitEvent :: []) armedProcess = Run.ret (3, p1)
      ∧ p1.isRunning = false :=
  ⟨_, StartProcess_returns_exit_code demoCpu [stopEvent] [] exitEvent 3 armedProcess _
    (fun s hs => by
      rw [List.mem_singleton] at hs
      subst hs
      exact ⟨rfl, rfl⟩)
    ⟨rfl, rfl, rfl⟩ rfl⟩

/-! ## Resolution and the order of the function map -/

theorem mapIndex_eq_some_iff {β : Type} (l : List (List Char × β)) (k : List Char) (v : β)
    (hnd : (l.map Prod.fst).Nodup) : mapIndex l k = some v ↔ (k, v) ∈ l := by
  induction l with
  | nil => simp [mapIndex]
  | cons kv rest ih =>
    obtain ⟨k1, v1⟩ := kv
    simp only [List.map_cons, List.nodup_cons] at hnd
    obtain ⟨hnot, hrest⟩ := hnd
    by_cases hk : k1 = k
    · subst hk
      simp only [mapIndex, if_true, Option.some.injEq, List.mem_cons, Prod.mk.injEq, true_and]
      constructor
      · intro h; exact Or.inl h.symm
      · rintro (h | h)
        · exact h.symm
        · exact absurd (List.mem_map_of_mem Prod.fst h) hnot
    · simp only [mapIndex, if_neg hk, ih hrest, List.mem_cons, Prod.mk.injEq]
      constructor
      · intro h; exact Or.inr h
      · rintro (h | h)
        · exact absurd h.1.symm hk
        · exact h

theorem mapIndex_sameEntries {β : Type} (l1 l2 : List (List Char × β)) (k : List Char)
    (h : sameEntries l1 l2) : mapIndex l1 k = mapIndex l2 k := by
  obtain ⟨h1, h2, hmem⟩ := h
  apply Option.ext
  intro v
  rw [Option.mem_def, Option.mem_def, mapIndex_eq_some_iff l1 k v h1,
    mapIndex_eq_some_iff l2 k v h2]
  exact hmem (k, v)

/-- The scan for a declaration line gives the same result on two lists with
the same entries when functions on the same line have the same `Lowpc`. -/
theorem find_line_sameEntries (l1 l2 : List (List Char × CompiledFunction)) (n : Int)
    (hmem : ∀ kv, kv ∈ l1 ↔ kv ∈ l2)
    (hdet : ∀ kv1 ∈ l1, ∀ kv2 ∈ l1, kv1.2.Lineno = kv2.2.Lineno → kv1.2.Lowpc = kv2.2.Lowpc) :
    (match l1.find? (fun kv => kv.2.Lineno = n) with
      | some kv => (Run.ret (kv.2.Lowpc, none) : Run (Nat × Option ResolveError))
      | none => Run.ret (0, some (ResolveError.loc locationError.unsupported)))
    = (match l2.find? (fun kv => kv.2.Lineno = n) with
      | some kv => Run.ret (kv.2.Lowpc, none)
      | none => Run.ret (0, some (ResolveError.loc locationError.unsupported))) := by
  cases h1 : l1.find? (fun kv => kv.2.Lineno = n) with
  | none =>
    have h2 : l2.find? (fun kv => kv.2.Lineno = n) = none := by
      rw [List.find?_eq_none] at h1 ⊢
      intro kv hkv
      exact h1 kv ((hmem kv).mpr hkv)
    rw [h2]
  | some a =>
    have ha1 : a ∈ l1 := List.mem_of_find?_eq_some h1
    have ha2 := List.find?_some h1
    simp only [decide_eq_true_eq] at ha2
    cases h2 : l2.find? (fun kv => kv.2.Lineno = n) with
    | none =>
      rw [List.find?_eq_none] at h2
      have := h2 a ((hmem a).mp ha1)
      simp [ha2] at this
    | some b =>
      have hb1 : b ∈ l1 := (hmem b).mpr (List.mem_of_find?_eq_some h2)
      have hb2 := List.find?_some h2
      simp only [decide_eq_true_eq] at hb2
      have := hdet a ha1 b hb1 (by rw [ha2, hb2])
      simp [this]

/-- C20, as amended: for two symbol tables with the same contents (the same
files, each with the same map of functions, in whatever order the entries are
visited) in which functions of one file declared on the same line have the
same `Lowpc`, `resolveSymbol` gives the same result for every location
string. -/
theorem resolveSymbol_order_independent (p q : Process) (s t : SymbolTable)
    (sym : List Char) (hp : p.DebugSymbols = some s) (hq : q.DebugSymbols = some t)
    (hsame : sameTable s t) (hdet : lineDeterministic s) :
    resolveSymbol p sym = resolveSymbol q sym := by
  simp only [resolveSymbol, hp, hq]
  split
  · rfl
  · cases hloc : symstringToLoc sym with
    | panicked => rfl
    | exited c => rfl
    | fuelOut => rfl
    | ret loc =>
      simp only [Run.bind_ret, locToOffset, hp, hq]
      split
      · rcases hsame loc.fileName with ⟨h1, h2⟩ | ⟨f, g, h1, h2, hfg⟩
        · rw [h1, h2]
        · rw [h1, h2]
          obtain ⟨_, _, _, hfun⟩ := hfg
          simp only
          split
          · exact find_line_sameEntries f.Functions g.Functions loc.lineNumber hfun.2.2
              (hdet loc.fileName f h1)
          · rw [mapIndex_sameEntries f.Functions g.Functions loc.funcName hfun]
      · rfl

/-- C20 (counterexample): the file `foo.c` has two functions declared on line
10; with the same entries visited in the two possible orders, `foo.c:10`
resolves to 4096 and to 4352. -/
theorem resolveSymbol_depends_on_order :
    sameEntries twinFunctions twinFunctions.reverse
      ∧ resolveSymbol (processWith twinFunctions) "foo.c:10".toList = Run.ret (4096, none)
      ∧ resolveSymbol (processWith twinFunctions.reverse) "foo.c:10".toList
          = Run.ret (4352, none) := by
  refine ⟨⟨by decide, by decide, ?_⟩, by decide, by decide⟩
  intro kv
  simp only [twinFunctions, List.reverse_cons, List.reverse_nil, List.nil_append,
    List.singleton_append, List.mem_cons, List.mem_singleton, List.not_mem_nil, or_false]
  exact Or.comm

theorem sameTable_single (k : List Char) (f g : CompiledFile) (h : sameFile f g) :
    sameTable [(k, f)] [(k, g)] := by
  intro F
  by_cases hk : k = F
  · exact Or.inr ⟨f, g, by simp [mapIndex, hk], by simp [mapIndex, hk], h⟩
  · exact Or.inl ⟨by simp [mapIndex, hk], by simp [mapIndex, hk]⟩

theorem lineDeterministic_single (k : List Char) (f : CompiledFile)
    (h : ∀ kv1 ∈ f.Functions, ∀ kv2 ∈ f.Functions,
      kv1.2.Lineno = kv2.2.Lineno → kv1.2.Lowpc = kv2.2.Lowpc) :
    lineDeterministic [(k, f)] := by
  intro F file hfile
  by_cases hk : k = F
  · simp only [mapIndex, hk, if_true, Option.some.injEq] at hfile
    subst hfile
    exact h
  · simp [mapIndex, hk] at hfile

/-- Witness for C20: the functions of `foo.c`, declared on different lines,
visited in the two possible orders. -/
theorem resolveSymbol_order_independent_witness :
    resolveSymbol (processWith demoFile.Functions) "foo.c:42".toList
      = resolveSymbol (processWith demoFile.Functions.reverse) "foo.c:42".toList :=
  resolveSymbol_order_independent (processWith demoFile.Functions)
    (processWith demoFile.Functions.reverse) _ _ "foo.c:42".toList rfl rfl
    (sameTable_single _ _ _
      ⟨rfl, rfl, rfl, by decide, by decide, fun kv => List.mem_reverse.symm⟩)
    (lineDeterministic_single _ _ (by decide))

/-! ## Shapes of parsed locations -/

/-- One swap of the loop of `reverseSlice`, read index by index. -/
theorem swap_getElem_opt {α : Type} [Inhabited α] (l : List α) (i j : Nat)
    (hi : i < l.length / 2) :
    ((l.set i (l.getD (l.length - 1 - i) default)).set (l.length - 1 - i)
        (l.getD i default))[j]?
      = if j = i then l[l.length - 1 - i]? else if j = l.length - 1 - i then l[i]? else l[j]? := by
  have h1 : i < l.length := by omega
  have h2 : l.length - 1 - i < l.length := by omega
  have h3 : i ≠ l.length - 1 - i := by omega
  simp only [List.getD_eq_getElem?_getD, List.getElem?_set, List.length_set]
  by_cases hji : j = i
  · subst hji
    simp [h1, h2, h3, Ne.symm h3, List.getElem?_eq_getElem]
  · by_cases hjn : j = l.length - 1 - i
    · subst hjn
      simp [h1, h2, hji, List.getElem?_eq_getElem]
    · simp [hji, hjn, Ne.symm hji, Ne.symm hjn]

theorem reverseLoop_spec {α : Type} [Inhabited α] (L : List α) :
    ∀ (fuel i : Nat) (l : List α), l.length = L.length → i + fuel = L.length / 2 →
      (∀ j, j < L.length →
        l[j]? = if j < i ∨ L.length - i ≤ j then L[L.length - 1 - j]? else L[j]?) →
      reverseLoop fuel i l = L.reverse := by
  intro fuel
  induction fuel with
  | zero =>
    intro i l hlen hi hinv
    simp only [reverseLoop]
    apply List.ext_getElem?
    intro j
    by_cases hj : j < L.length
    · rw [hinv j hj, List.getElem?_reverse hj]
      split
      · rfl
      · rename_i hn
        have : j = L.length - 1 - j := by omega
        rw [← this]
    · rw [List.getElem?_eq_none (by omega), List.getElem?_eq_none (by simp; omega)]
  | succ fuel ih =>
    intro i l hlen hi hinv
    have hlt : i < l.length / 2 := by omega
    rw [reverseLoop, if_pos hlt]
    apply ih (i + 1)
    · simp [hlen]
    · omega
    · intro j hj
      rw [swap_getElem_opt l i j hlt, hlen]
      by_cases hji : j = i
      · subst hji
        rw [if_pos rfl, hinv (L.length - 1 - j) (by omega)]
        have h1 : ¬ (L.length - 1 - j < j ∨ L.length - j ≤ L.length - 1 - j) := by omega
        rw [if_neg h1, if_pos (by omega)]
      · rw [if_neg hji]
        by_cases hjn : j = L.length - 1 - i
        · rw [if_pos hjn, hinv i (by omega)]
          have h1 : ¬ (i < i ∨ L.length - i ≤ i) := by omega
          rw [if_neg h1, if_pos (by omega)]
          have : L.length - 1 - j = i := by omega
          rw [this]
        · rw [if_neg hjn, hinv j hj]
          by_cases hc : j < i ∨ L.length - i ≤ j
          · rw [if_pos hc, if_pos (by omega)]
          · rw [if_neg hc, if_neg (by omega)]

/-- `reverseSlice` reverses the list of tokens. -/
theorem reverseSlice_eq_reverse (tokens : List (List Char)) :
    reverseSlice tokens = tokens.reverse := by
  apply reverseLoop_spec tokens (tokens.length / 2) 0 tokens rfl (by omega)
  intro j _
  have h : ¬ (j < 0 ∨ tokens.length - 0 ≤ j) := by omega
  rw [if_neg h]

theorem fieldsScan_nonempty (s cur : List Char) :
    ∀ tok ∈ fieldsScan s cur, tok ≠ [] := by
  induction s generalizing cur with
  | nil =>
    intro tok htok
    simp only [fieldsScan] at htok
    split at htok
    · simp at htok
    · rename_i hcur
      simp only [List.mem_singleton] at htok
      subst htok
      simpa using hcur
  | cons c s ih =>
    intro tok htok
    simp only [fieldsScan] at htok
    split at htok
    · split at htok
      · exact ih [] tok htok
      · rename_i hcur
        rcases List.mem_cons.mp htok with h | h
        · subst h; simpa using hcur
        · exact ih [] tok h
    · exact ih (c :: cur) tok htok

/-- The tokens of a location string are non-empty. -/
theorem symstringToTokens_nonempty (sym : List Char) :
    ∀ tok ∈ (symstringToTokens sym).1, tok ≠ [] := by
  intro tok htok
  exact fieldsScan_nonempty _ [] tok htok

theorem mem_of_stringsContains (s : List Char)
    (h : stringsContains s [':', ':'] = true) : ':' ∈ s := by
  induction s with
  | nil => simp [stringsContains] at h
  | cons c s ih =>
    simp only [stringsContains, Bool.or_eq_true] at h
    rcases h with h | h
    · simp only [List.isPrefixOf, Bool.and_eq_true, beq_iff_eq] at h
      rw [← h.1]
      exact List.mem_cons_self _ _
    · exact List.mem_cons_of_mem _ (ih h)

theorem head_of_isAlnum (s : List Char) (h : isAlnum s = true) : s.head? ≠ some '-' := by
  rw [isAlnum_eq] at h
  split at h
  · cases h
  · split at h
    · rename_i hx
      intro hhead
      have h2 := hx.2
      cases s with
      | nil => simp at hhead
      | cons c rest =>
        simp only [List.head?_cons, Option.some.injEq] at hhead
        subst hhead
        cases rest with
        | nil => simp at h2
        | cons d rest2 =>
          simp only [List.take_succ_cons, List.take_zero, List.cons.injEq] at h2
          exact absurd h2.1 (by decide)
    · intro hhead
      cases s with
      | nil => simp at hhead
      | cons c rest =>
        simp only [List.head?_cons, Option.some.injEq] at hhead
        subst hhead
        have := List.all_eq_true.mp h '-' (List.mem_cons_self _ _)
        revert this; decide

theorem Atoi_nonneg (s : List Char) (h : s.head? ≠ some '-') : 0 ≤ (Atoi s).1 := by
  simp only [Atoi, h, if_false]
  split_ifs <;> simp

/-- C22, as amended: a location that `symstringToLoc` returns has exactly one
of three shapes: file + line token (file name set, line number 0 or more, no
function, class or namespace), file + function, or class + function. -/
theorem symstringToLoc_shape (sym : List Char) (loc : symbolLocation)
    (h : symstringToLoc sym = Run.ret loc) :
    (isFileLineToken loc ∨ isFileFunction loc ∨ isClassFunction loc)
      ∧ ¬ (isFileLineToken loc ∧ isFileFunction loc)
      ∧ ¬ (isFileLineToken loc ∧ isClassFunction loc)
      ∧ ¬ (isFileFunction loc ∧ isClassFunction loc) := by
  refine ⟨?_, ?_, ?_, ?_⟩
  · have hne : ∀ tok ∈ reverseSlice (symstringToTokens sym).1, tok ≠ [] := by
      intro tok htok
      rw [reverseSlice_eq_reverse, List.mem_reverse] at htok
      exact symstringToTokens_nonempty sym tok htok
    simp only [symstringToLoc] at h
    generalize reverseSlice (symstringToTokens sym).1 = tokens at h hne
    cases h0 : tokens[0]? with
    | none => rw [h0] at h; cases h
    | some tok0 =>
      rw [h0] at h
      simp only at h
      have htok0 : tok0 ≠ [] := hne tok0 (List.getElem?_mem h0)
      by_cases hal : isAlnum tok0 = true
      · rw [if_pos hal] at h
        cases h1 : tokens[1]? with
        | none => rw [h1] at h; cases h
        | some tok1 =>
          rw [h1] at h
          simp only [Run.ret.injEq] at h
          subst h
          exact Or.inl ⟨hne tok1 (List.getElem?_mem h1),
            Atoi_nonneg tok0 (head_of_isAlnum tok0 hal), rfl, rfl, rfl⟩
      · rw [if_neg hal] at h
        have hne1 : ∀ tok ∈ tokens.drop 1, tok ≠ [] :=
          fun tok htok => hne tok (List.mem_of_mem_drop htok)
        by_cases hm : (symstringToTokens sym).2 = symbolMode.modeCpp
        · rw [if_pos hm] at h
          cases hc : (tokens.drop 1)[0]? with
          | none => rw [hc] at h; cases h
          | some cls =>
            rw [hc] at h
            simp only at h
            have hcls : cls ≠ [] := hne1 cls (List.getElem?_mem hc)
            split at h
            · simp only [Run.ret.injEq] at h
              subst h
              exact Or.inr (Or.inr ⟨hcls, htok0, rfl, rfl⟩)
            · simp only [Run.ret.injEq] at h
              subst h
              exact Or.inr (Or.inr ⟨hcls, htok0, rfl, rfl⟩)
        · rw [if_neg hm] at h
          cases hc : (tokens.drop 1)[0]? with
          | none => rw [hc] at h; cases h
          | some file =>
            rw [hc] at h
            simp only [Run.ret.injEq] at h
            subst h
            exact Or.inr (Or.inl ⟨hne1 file (List.getElem?_mem hc), htok0, rfl, rfl, rfl⟩)
  · rintro ⟨ha, hb⟩
    exact hb.2.1 ha.2.2.1
  · rintro ⟨ha, hc⟩
    exact hc.2.1 ha.2.2.1
  · rintro ⟨hb, hc⟩
    exact hb.1 hc.2.2.1

/-- C22 (counterexample): `foo.c:add` is parsed to the file name `foo.c` with
line number 0 and no function, which is none of file + line, file + function
and class + function; so is `foo.c:0`. -/
theorem symstringToLoc_no_shape :
    symstringToLoc "foo.c:add".toList
        = Run.ret { fileName := "foo.c".toList, lineNumber := 0 }
      ∧ symstringToLoc "foo.c:0".toList
        = Run.ret { fileName := "foo.c".toList, lineNumber := 0 }
      ∧ ¬ isFileLine { fileName := "foo.c".toList, lineNumber := 0 }
      ∧ ¬ isFileFunction { fileName := "foo.c".toList, lineNumber := 0 }
      ∧ ¬ isClassFunction { fileName := "foo.c".toList, lineNumber := 0 } := by
  refine ⟨by decide, by decide, ?_, ?_, ?_⟩
  · intro h; exact absurd h.2.1 (by decide)
  · intro h; exact h.2.1 rfl
  · intro h; exact h.1 rfl

/-- Witness for C22: `foo.c:foo` is file + function. -/
theorem symstringToLoc_shape_witness :
    isFileLineToken { funcName := "foo".toList, fileName := "foo.c".toList }
      ∨ isFileFunction { funcName := "foo".toList, fileName := "foo.c".toList }
      ∨ isClassFunction { funcName := "foo".toList, fileName := "foo.c".toList } :=
  (symstringToLoc_shape "foo.c:foo".toList
    { funcName := "foo".toList, fileName := "foo.c".toList } (by decide)).1

/-- C24: for a location string that contains `::`, whose tokens end with `cls`
and `fn`, `fn` not hex-looking: `symstringToLoc` yields `fn` as function name,
`cls` as class name, the token before `cls` (if any) as namespace name, an
empty file name and no line; and `resolveSymbol` with any symbol table loaded
fails with the symbol-not-found error. -/
theorem symstringToLoc_cpp (p : Process) (table : SymbolTable) (sym : List Char)
    (front : List (List Char)) (cls fn : List Char)
    (hcpp : stringsContains sym [':', ':'] = true)
    (htok : (symstringToTokens sym).1 = front ++ [cls, fn])
    (hfn : isAlnum fn = false) (htable : p.DebugSymbols = some table) :
    symstringToLoc sym
        = Run.ret { funcName := fn, className := cls,
                    namespaceName := front.getLast?.getD [], fileName := [],
                    lineNumber := 0 }
      ∧ resolveSymbol p sym
        = Run.ret (0, some (ResolveError.loc locationError.symbolNotFound)) := by
  have hmode : (symstringToTokens sym).2 = symbolMode.modeCpp := by
    simp [symstringToTokens, hcpp]
  have hrev : reverseSlice (symstringToTokens sym).1 = fn :: cls :: front.reverse := by
    rw [reverseSlice_eq_reverse, htok]
    simp
  have hloc : symstringToLoc sym
      = Run.ret { funcName := fn, className := cls,
                  namespaceName := front.getLast?.getD [], fileName := [],
                  lineNumber := 0 } := by
    simp only [symstringToLoc, hrev, hmode, List.getElem?_cons_zero, hfn,
      Bool.false_eq_true, if_false, if_true, List.drop_succ_cons, List.drop_zero,
      List.length_cons, List.length_reverse]
    cases hfront : front.reverse with
    | nil =>
      have : front = [] := by simpa using hfront
      subst this
      simp
    | cons ns rest =>
      have hlast : front.getLast? = some ns := by
        rw [List.getLast?_eq_head?_reverse, hfront]
        rfl
      have hlen : front.length = rest.length + 1 := by
        rw [← List.length_reverse, hfront]
        rfl
      simp [hlast, hlen]
  refine ⟨hloc, ?_⟩
  have hal : isAlnum sym = false :=
    isAlnum_false_of_colon sym (mem_of_stringsContains sym hcpp)
  simp [resolveSymbol, hal, htable, hloc, Run.bind, locToOffset]

/-- Witness for C24: `WebCore::ScrollView::printFoo` against `demoTable`. -/
theorem symstringToLoc_cpp_witness :
    symstringToLoc "WebCore::ScrollView::printFoo".toList
        = Run.ret { funcName := "printFoo".toList, className := "ScrollView".toList,
                    namespaceName := "WebCore".toList, fileName := [], lineNumber := 0 }
      ∧ resolveSymbol symProcess "WebCore::ScrollView::printFoo".toList
        = Run.ret (0, some (ResolveError.loc locationError.symbolNotFound)) :=
  symstringToLoc_cpp symProcess demoTable "WebCore::ScrollView::printFoo".toList
    ["WebCore".toList] "ScrollView".toList "printFoo".toList (by decide) (by decide)
    (by decide) rfl

/-! ## Reads inside one word -/

/-- One iteration of the read loop copies at least one byte. -/
theorem copyAt_progress (bytes word : List Nat) (i off : Nat) (hi : i < bytes.length)
    (hw : word.length = 8) (hoff : off < 8) :
    1 ≤ (copyAt bytes i (word.drop off)).2
      ∧ i + (copyAt bytes i (word.drop off)).2 ≤ bytes.length
      ∧ (copyAt bytes i (word.drop off)).1.length = bytes.length := by
  simp only [copyAt, List.length_drop, hw, List.length_append, List.length_take]
  omega

/-- With the word readable the read loop returns count `len(bytes)` once the
fuel exceeds the number of bytes still to copy. -/
theorem readLoop_terminates (t : Tracee) (wa : Nat) (hwa : wa % 8 = 0) (hlt : wa < 2 ^ 64)
    (hpeek : t.canPeek wa = true) :
    ∀ (fuel off : Nat) (word bytes : List Nat) (i : Nat),
      off < 8 → word.length = 8 → i ≤ bytes.length → bytes.length - i < fuel →
      ∃ buf, readLoop t wa fuel off word bytes i = Run.ret (buf, bytes.length) := by
  intro fuel
  induction fuel with
  | zero => intro off word bytes i _ _ _ h; omega
  | succ fuel ih =>
    intro off word bytes i hoff hw hi hfuel
    rw [readLoop]
    by_cases hlt2 : i < bytes.length
    · rw [if_pos hlt2, PtracePeekText_aligned t wa word hwa hlt hw, hpeek]
      simp only [if_true, wordSize]
      have hp := copyAt_progress bytes (wordAt t wa) i off hlt2 (wordAt_length t wa) hoff
      have hrec := ih 0 (wordAt t wa) (copyAt bytes i ((wordAt t wa).drop off)).1
        (i + (copyAt bytes i ((wordAt t wa).drop off)).2) (by decide) (wordAt_length t wa)
        (by rw [hp.2.2]; exact hp.2.1) (by rw [hp.2.2]; omega)
      rw [hp.2.2] at hrec
      simpa using hrec
    · rw [if_neg hlt2]
      have : i = bytes.length := by omega
      subst this
      exact ⟨bytes, rfl⟩

/-- C25, as amended: on a stopped process, for a 64-bit address `a` whose
aligned word can be peeked: a read of `n <= 8 - a % 8` bytes returns count `n`
and the `n` bytes of the target from `a` on, and does so within one iteration
of the loop, that is after at most one word peek; for every length the call
returns with the count equal to the length, and every iteration copies at
least one byte. -/
theorem readMemoryAligned_single_word (p : Process) (a : Nat) (bytes : List Nat)
    (hrun : p.isRunning = false) (ha : a < 2 ^ 64)
    (hpeek : p.tracee.canPeek (a - a % 8) = true)
    (hn : bytes.length ≤ 8 - a % 8) :
    readMemoryAligned p a bytes
        = Run.ret ((List.range bytes.length).map (fun k => p.tracee.mem (a + k)),
            bytes.length)
      ∧ readLoop p.tracee (a - a % 8) 2 (a % 8) (List.replicate 8 0) bytes 0
        = Run.ret ((List.range bytes.length).map (fun k => p.tracee.mem (a + k)),
            bytes.length)
      ∧ (∀ other : List Nat, ∃ buf,
          readMemoryAligned p a other = Run.ret (buf, other.length))
      ∧ (∀ (other word : List Nat) (i off : Nat), i < other.length → word.length = 8 →
          off < 8 → 1 ≤ (copyAt other i (word.drop off)).2) := by
  obtain ⟨h1, h2, h3, h4⟩ := aligned_facts a ha
  have hoff : a % 8 < 8 := Nat.mod_lt _ (by decide)
  have hmain := readMemoryAligned_in_word p a bytes hrun ha hpeek hn
  refine ⟨hmain, ?_, ?_, ?_⟩
  · -- the same result with fuel for one iteration only
    by_cases h0 : bytes.length = 0
    · have : bytes = [] := List.length_eq_zero.mp h0
      subst this
      simp [readLoop]
    · have hpos : 0 < bytes.length := by omega
      rw [readLoop, if_pos hpos, PtracePeekText_aligned _ _ _ h1 h2 (by simp), hpeek]
      have hc : copyAt bytes 0 ((wordAt p.tracee (a - a % 8)).drop (a % 8))
          = ((List.range bytes.length).map (fun k => p.tracee.mem (a + k)), bytes.length) := by
        have hl : ((wordAt p.tracee (a - a % 8)).drop (a % 8)).length = 8 - a % 8 := by
          simp [wordAt_length]
        simp only [copyAt, hl, Nat.sub_zero, Nat.min_eq_left hn, List.take_zero,
          List.nil_append, Nat.zero_add, List.drop_length, List.append_nil]
        rw [wordAt_drop_take _ _ _ _ (by omega), h4]
      simp only [if_true, wordSize, hc]
      simp [readLoop]
  · intro other
    simp only [readMemoryAligned, hrun, wordSize, h3]
    exact readLoop_terminates p.tracee (a - a % 8) h1 h2 hpeek (other.length + 1) (a % 8)
      (List.replicate 8 0) other 0 hoff (by simp) (Nat.zero_le _) (by omega)
  · intro other word i off hi hw hoff2
    exact (copyAt_progress other word i off hi hw hoff2).1

/-- C25 (counterexample): on a stopped process whose words cannot be peeked, a
read of one byte does not return count 1: it panics. -/
theorem readMemoryAligned_unmapped_panics :
    unmappedProcess.isRunning = false
      ∧ readMemoryAligned unmappedProcess 19 [0] = Run.panicked := by
  constructor <;> decide

/-- Witness for C25: a read of 5 bytes at address 19, inside the word at 16. -/
theorem readMemoryAligned_single_word_witness :
    readMemoryAligned demoProcess 19 [0, 0, 0, 0, 0] = Run.ret ([20, 21, 22, 23, 24], 5) :=
  (readMemoryAligned_single_word demoProcess 19 [0, 0, 0, 0, 0] rfl (by decide) rfl
    (by decide)).1

/-! ## Symbol table builder -/

theorem mem_mapAssign {β : Type} (l : List (List Char × β)) (k : List Char) (v : β)
    (x : List Char × β) (h : x ∈ mapAssign l k v) : x = (k, v) ∨ x ∈ l := by
  induction l with
  | nil =>
    simp only [mapAssign, List.mem_singleton] at h
    exact Or.inl h
  | cons kv rest ih =>
    obtain ⟨k1, v1⟩ := kv
    simp only [mapAssign] at h
    split at h
    · rcases List.mem_cons.mp h with h | h
      · exact Or.inl h
      · exact Or.inr (List.mem_cons_of_mem _ h)
    · rcases List.mem_cons.mp h with h | h
      · exact Or.inr (by rw [h]; exact List.mem_cons_self _ _)
      · rcases ih h with h | h
        · exact Or.inl h
        · exact Or.inr (List.mem_cons_of_mem _ h)

theorem mem_of_mapIndex {β : Type} (l : List (List Char × β)) (k : List Char) (v : β)
    (h : mapIndex l k = some v) : (k, v) ∈ l := by
  induction l with
  | nil => simp [mapIndex] at h
  | cons kv rest ih =>
    obtain ⟨k1, v1⟩ := kv
    simp only [mapIndex] at h
    split at h
    · rename_i hk
      simp only [Option.some.injEq] at h
      rw [hk, h]
      exact List.mem_cons_self _ _
    · exact List.mem_cons_of_mem _ (ih h)

theorem extractFileLoop_functions (fields : List Field) (file out : CompiledFile)
    (h : extractFileLoop fields file = Run.ret out) : out.Functions = file.Functions := by
  induction fields generalizing file with
  | nil =>
    simp only [extractFileLoop, Run.ret.injEq] at h
    rw [h]
  | cons field rest ih =>
    rw [extractFileLoop] at h
    split at h
    all_goals first
      | cases h
      | (have h2 := ih _ h; exact h2)

theorem covered_recordFunction (files : SymbolTable) (fn : CompiledFunction)
    (h : covered files) : covered (recordFunction files fn) := by
  intro kv hkv fkv hfkv
  simp only [recordFunction, List.mem_map] at hkv
  obtain ⟨old, hold, rfl⟩ := hkv
  by_cases hc : contains old.2.range fn.range = true
  · simp only [hc, if_true] at hfkv ⊢
    rcases mem_mapAssign _ _ _ _ hfkv with hx | hx
    · rw [hx]
      exact hc
    · exact h old hold fkv hx
  · simp only [hc, Bool.false_eq_true, if_false] at hfkv ⊢
    exact h old hold fkv hfkv

theorem covered_mapAssign (files : SymbolTable) (file : CompiledFile)
    (hfile : file.Functions = []) (h : covered files) :
    covered (mapAssign files file.Filename file) := by
  intro kv hkv fkv hfkv
  rcases mem_mapAssign _ _ _ _ hkv with hx | hx
  · subst hx
    simp only [hfile, List.not_mem_nil] at hfkv
  · exact h kv hx fkv hfkv

theorem covered_extractLoop (entries : List Entry) (files table : SymbolTable)
    (hfiles : covered files) (h : extractLoop entries files = Run.ret table) :
    covered table := by
  induction entries generalizing files with
  | nil =>
    simp only [extractLoop, Run.ret.injEq] at h
    rw [← h]
    exact hfiles
  | cons entry rest ih =>
    rw [extractLoop] at h
    split at h
    · obtain ⟨file, hfile, hrest⟩ := Run.bind_eq_ret _ _ _ h
      have hfun : file.Functions = [] := extractFileLoop_functions _ _ _ hfile
      split at hrest
      · exact ih files hfiles hrest
      · exact ih _ (covered_mapAssign files file hfun hfiles) hrest
    · obtain ⟨fn, _, hrest⟩ := Run.bind_eq_ret _ _ _ h
      exact ih _ (covered_recordFunction files fn hfiles) hrest
    · exact ih files hfiles h

theorem extractFunctionLoop_returns (fields : List Field) (fn : CompiledFunction)
    (h : ∀ f ∈ fields, f.wellTyped = true) :
    ∃ out, extractFunctionLoop fields fn = Run.ret out := by
  induction fields generalizing fn with
  | nil => exact ⟨fn, rfl⟩
  | cons field rest ih =>
    have hf := h field (List.mem_cons_self _ _)
    have hrest : ∀ f ∈ rest, f.wellTyped = true :=
      fun f hf => h f (List.mem_cons_of_mem _ hf)
    obtain ⟨a, v⟩ := field
    cases a <;> cases v <;> simp only [Field.wellTyped, Bool.false_eq_true] at hf <;>
      simp only [extractFunctionLoop] <;> exact ih _ hrest

theorem extractFileLoop_returns (fields : List Field) (file : CompiledFile)
    (h : ∀ f ∈ fields, f.wellTyped = true) :
    ∃ out, extractFileLoop fields file = Run.ret out := by
  induction fields generalizing file with
  | nil => exact ⟨file, rfl⟩
  | cons field rest ih =>
    have hf := h field (List.mem_cons_self _ _)
    have hrest : ∀ f ∈ rest, f.wellTyped = true :=
      fun f hf => h f (List.mem_cons_of_mem _ hf)
    obtain ⟨a, v⟩ := field
    cases a <;> cases v <;> simp only [Field.wellTyped, Bool.false_eq_true] at hf <;>
      simp only [extractFileLoop] <;> exact ih _ hrest

theorem extractLoop_returns (entries : List Entry) (files : SymbolTable)
    (h : ∀ e ∈ entries, ∀ f ∈ e.Field, f.wellTyped = true) :
    ∃ table, extractLoop entries files = Run.ret table := by
  induction entries generalizing files with
  | nil => exact ⟨files, rfl⟩
  | cons entry rest ih =>
    have he := h entry (List.mem_cons_self _ _)
    have hrest : ∀ e ∈ rest, ∀ f ∈ e.Field, f.wellTyped = true :=
      fun e hm => h e (List.mem_cons_of_mem _ hm)
    rw [extractLoop]
    split
    · obtain ⟨file, hfile⟩ := extractFileLoop_returns entry.Field
        { Filename := [], Lowpc := 0, Highpc := 0, Functions := [] } he
      rw [extractFile, hfile, Run.bind_ret]
      split
      · exact ih files hrest
      · exact ih _ hrest
    · obtain ⟨fn, hfn⟩ := extractFunctionLoop_returns entry.Field
        { Name := [], Lowpc := 0, Highpc := 0, Lineno := 0 } he
      rw [extractFunction, hfn, Run.bind_ret]
      exact ih _ hrest
    · exact ih files hrest

theorem mapIndex_mapAssign_self {β : Type} (l : List (List Char × β)) (k : List Char)
    (v : β) : mapIndex (mapAssign l k v) k = some v := by
  induction l with
  | nil => simp [mapAssign, mapIndex]
  | cons kv rest ih =>
    obtain ⟨k1, v1⟩ := kv
    by_cases hk : k1 = k
    · simp [mapAssign, mapIndex, hk]
    · simp [mapAssign, mapIndex, hk, ih]

theorem mapIndex_mapAssign_ne {β : Type} (l : List (List Char × β)) (k k2 : List Char)
    (v : β) (hne : k ≠ k2) : mapIndex (mapAssign l k v) k2 = mapIndex l k2 := by
  induction l with
  | nil => simp [mapAssign, mapIndex, hne]
  | cons kv rest ih =>
    obtain ⟨k1, v1⟩ := kv
    by_cases hk : k1 = k
    · subst hk
      simp [mapAssign, mapIndex, hne]
    · by_cases hk2 : k1 = k2
      · subst hk2
        simp [mapAssign, mapIndex, hk]
      · simp [mapAssign, mapIndex, hk, hk2, ih]

/-- The file found under a name after the inner loop for a subprogram: the file
found before, with the function assigned if its range contains the function. -/
theorem mapIndex_recordFunction (files : SymbolTable) (fn : CompiledFunction)
    (F : List Char) :
    mapIndex (recordFunction files fn) F =
      (mapIndex files F).map fun file =>
        if contains file.range fn.range = true then
          { file with Functions := mapAssign file.Functions fn.Name fn }
        else file := by
  induction files with
  | nil => rfl
  | cons kv rest ih =>
    obtain ⟨k1, v1⟩ := kv
    by_cases hc : contains v1.range fn.range = true
    · show mapIndex ((if contains v1.range fn.range = true then
          (k1, { v1 with Functions := mapAssign v1.Functions fn.Name fn })
        else (k1, v1)) :: recordFunction rest fn) F = _
      rw [if_pos hc]
      simp only [mapIndex]
      rw [ih]
      by_cases hk : k1 = F
      · simp [hk, hc]
      · simp [hk]
    · show mapIndex ((if contains v1.range fn.range = true then
          (k1, { v1 with Functions := mapAssign v1.Functions fn.Name fn })
        else (k1, v1)) :: recordFunction rest fn) F = _
      rw [if_neg hc]
      simp only [mapIndex]
      rw [ih]
      by_cases hk : k1 = F
      · simp [hk, hc]
      · simp [hk]

theorem extractLoop_append (pre rest : List Entry) (files : SymbolTable) :
    extractLoop (pre ++ rest) files
      = (extractLoop pre files).bind fun mid => extractLoop rest mid := by
  induction pre generalizing files with
  | nil => rfl
  | cons entry more ih =>
    rw [List.cons_append, extractLoop, extractLoop]
    split
    · cases hf : extractFile entry with
      | ret file =>
        simp only [Run.bind_ret]
        split
        · exact ih files
        · exact ih _
      | panicked => rfl
      | exited c => rfl
      | fuelOut => rfl
    · cases hf : extractFunction entry with
      | ret fn =>
        simp only [Run.bind_ret]
        exact ih _
      | panicked => rfl
      | exited c => rfl
      | fuelOut => rfl
    · exact ih files

/-- A function recorded under the file name `F` stays recorded through the
entries that define neither a file named `F` nor a function of its name. -/
theorem extractLoop_keeps (post : List Entry) (files table : SymbolTable) (F : List Char)
    (fn : CompiledFunction) (r : InstantiatedRange)
    (hpost : ∀ e ∈ post, definesFile e F = false ∧ definesFunction e fn.Name = false)
    (hfiles : ∃ file, mapIndex files F = some file ∧ file.range = r
      ∧ mapIndex file.Functions fn.Name = some fn)
    (h : extractLoop post files = Run.ret table) :
    ∃ file, mapIndex table F = some file ∧ file.range = r
      ∧ mapIndex file.Functions fn.Name = some fn := by
  induction post generalizing files with
  | nil =>
    simp only [extractLoop, Run.ret.injEq] at h
    rw [← h]
    exact hfiles
  | cons entry rest ih =>
    obtain ⟨hfileEntry, hfunEntry⟩ := hpost entry (List.mem_cons_self _ _)
    have hrestPost : ∀ e ∈ rest, definesFile e F = false ∧ definesFunction e fn.Name = false :=
      fun e he => hpost e (List.mem_cons_of_mem _ he)
    obtain ⟨file, hfile, hrange, hrec⟩ := hfiles
    rw [extractLoop] at h
    split at h
    · rename_i htag
      obtain ⟨file2, hfile2, hrest⟩ := Run.bind_eq_ret _ _ _ h
      split at hrest
      · exact ih files hrestPost ⟨file, hfile, hrange, hrec⟩ hrest
      · have hne : file2.Filename ≠ F := by
          intro he
          simp [definesFile, htag, hfile2, he] at hfileEntry
        refine ih _ hrestPost ⟨file, ?_, hrange, hrec⟩ hrest
        rw [mapIndex_mapAssign_ne _ _ _ _ hne]
        exact hfile
    · rename_i htag
      obtain ⟨fn2, hfn2, hrest⟩ := Run.bind_eq_ret _ _ _ h
      have hne : fn2.Name ≠ fn.Name := by
        intro he
        simp [definesFunction, htag, hfn2, he] at hfunEntry
      refine ih _ hrestPost ?_ hrest
      rw [mapIndex_recordFunction, hfile]
      by_cases hc : contains file.range fn2.range = true
      · refine ⟨{ file with Functions := mapAssign file.Functions fn2.Name fn2 }, ?_,
          hrange, ?_⟩
        · simp only [Option.map_some', hc, if_true]
        · show mapIndex (mapAssign file.Functions fn2.Name fn2) fn.Name = some fn
          rw [mapIndex_mapAssign_ne _ _ _ _ hne]
          exact hrec
      · refine ⟨file, ?_, hrange, hrec⟩
        simp only [Option.map_some', hc, Bool.false_eq_true, if_false]
    · exact ih files hrestPost ⟨file, hfile, hrange, hrec⟩ h

/-- C23, as amended: the association loop returns a table when the fields of
the entries have the asserted types. In every table it returns, a function
recorded under a file lies in the address range of that file
(`file.Low <= fun.Low` and `file.High >= fun.High`), and a function whose
range is covered by no file of the table is recorded under no file. And a
subprogram entry is recorded under every file seen so far (the table after the
entries `pre` before it) whose range covers it: the returned table holds it
under the name of each such file, whose range is as seen, provided no later
entry defines a file of that name or a function of the same name. -/
theorem ExtractSymbolTable_covers (entries : List Entry) :
    ((∀ e ∈ entries, ∀ f ∈ e.Field, f.wellTyped = true) →
        ∃ table, ExtractSymbolTable entries = Run.ret table)
      ∧ (∀ table, ExtractSymbolTable entries = Run.ret table →
          (∀ F file name fn, mapIndex table F = some file →
            mapIndex file.Functions name = some fn →
            file.Lowpc ≤ fn.Lowpc ∧ file.Highpc ≥ fn.Highpc)
          ∧ (∀ fn : CompiledFunction,
              (∀ kv ∈ table, contains kv.2.range fn.range = false) →
              ∀ kv ∈ table, ∀ fkv ∈ kv.2.Functions, fkv.2 ≠ fn))
      ∧ (∀ (pre post : List Entry) (e : Entry) (fn : CompiledFunction)
          (seen table : SymbolTable) (F : List Char) (file0 : CompiledFile),
          entries = pre ++ e :: post →
          e.Tag = Tag.TagSubprogram → extractFunction e = Run.ret fn →
          ExtractSymbolTable pre = Run.ret seen →
          mapIndex seen F = some file0 → contains file0.range fn.range = true →
          (∀ e2 ∈ post, definesFile e2 F = false ∧ definesFunction e2 fn.Name = false) →
          ExtractSymbolTable entries = Run.ret table →
          ∃ file, mapIndex table F = some file ∧ file.range = file0.range
            ∧ mapIndex file.Functions fn.Name = some fn) := by
  refine ⟨fun h => extractLoop_returns entries [] h, ?_, ?_⟩
  · intro table htable
    have hcov : covered table :=
      covered_extractLoop entries [] table (fun kv hkv => absurd hkv (List.not_mem_nil _))
        htable
    constructor
    · intro F file name fn hfile hfn
      have h1 := hcov (F, file) (mem_of_mapIndex _ _ _ hfile) (name, fn)
        (mem_of_mapIndex _ _ _ hfn)
      simpa [contains, CompiledFile.range, CompiledFunction.range] using h1
    · intro fn hnone kv hkv fkv hfkv heq
      have h1 := hcov kv hkv fkv hfkv
      rw [heq, hnone kv hkv] at h1
      cases h1
  · intro pre post e fn seen table F file0 hsplit htag hfn hseen hfile hcov hpost htable
    rw [hsplit, ExtractSymbolTable, extractLoop_append] at htable
    rw [ExtractSymbolTable] at hseen
    rw [hseen, Run.bind_ret, extractLoop] at htable
    simp only [htag, hfn, Run.bind_ret] at htable
    refine extractLoop_keeps post _ table F fn file0.range hpost ?_ htable
    rw [mapIndex_recordFunction, hfile]
    refine ⟨{ file0 with Functions := mapAssign file0.Functions fn.Name fn }, ?_, rfl, ?_⟩
    · simp only [Option.map_some', hcov, if_true]
    · exact mapIndex_mapAssign_self _ _ _

/-- C23 (counterexample): the compile units `a.c` and `b.c` both have the range
from 0 to 100, and the function `f`, from 10 to 20, is recorded under both. -/
theorem ExtractSymbolTable_records_twice :
    ∃ table fa fb,
      ExtractSymbolTable [unitEntry "a.c".toList 0 100, unitEntry "b.c".toList 0 100,
          subprogramEntry "f".toList 3 10 20] = Run.ret table
        ∧ mapIndex table "a.c".toList = some fa ∧ mapIndex table "b.c".toList = some fb
        ∧ mapIndex fa.Functions "f".toList
            = some { Name := "f".toList, Lowpc := 10, Highpc := 20, Lineno := 3 }
        ∧ mapIndex fb.Functions "f".toList
            = some { Name := "f".toList, Lowpc := 10, Highpc := 20, Lineno := 3 } :=
  ⟨_, _, _, rfl, rfl, rfl, by decide, by decide⟩

/-- Witness for C23: the compile units `a.c` and `b.c`, both from 0 to 100, a
function `f` inside their range and a function `g` outside: the loop returns a
table, and the table holds `f` under `b.c`. -/
theorem ExtractSymbolTable_covers_witness :
    (∃ table, ExtractSymbolTable [unitEntry "a.c".toList 0 100, unitEntry "b.c".toList 0 100,
        subprogramEntry "f".toList 3 10 20, subprogramEntry "g".toList 7 200 300]
      = Run.ret table)
      ∧ ∀ table, ExtractSymbolTable [unitEntry "a.c".toList 0 100,
          unitEntry "b.c".toList 0 100, subprogramEntry "f".toList 3 10 20,
          subprogramEntry "g".toList 7 200 300] = Run.ret table →
        ∃ file, mapIndex table "b.c".toList = some file
          ∧ file.range = { Low := 0, High := 100 }
          ∧ mapIndex file.Functions "f".toList
              = some { Name := "f".toList, Lowpc := 10, Highpc := 20, Lineno := 3 } :=
  ⟨(ExtractSymbolTable_covers [unitEntry "a.c".toList 0 100, unitEntry "b.c".toList 0 100,
      subprogramEntry "f".toList 3 10 20, subprogramEntry "g".toList 7 200 300]).1
      (by decide),
    fun table h =>
      (ExtractSymbolTable_covers [unitEntry "a.c".toList 0 100, unitEntry "b.c".toList 0 100,
        subprogramEntry "f".toList 3 10 20, subprogramEntry "g".toList 7 200 300]).2.2
        [unitEntry "a.c".toList 0 100, unitEntry "b.c".toList 0 100]
        [subprogramEntry "g".toList 7 200 300] (subprogramEntry "f".toList 3 10 20)
        { Name := "f".toList, Lowpc := 10, Highpc := 20, Lineno := 3 }
        [("a.c".toList, { Filename := "a.c".toList, Lowpc := 0, Highpc := 100, Functions := [] }),
         ("b.c".toList, { Filename := "b.c".toList, Lowpc := 0, Highpc := 100, Functions := [] })]
        table "b.c".toList
        { Filename := "b.c".toList, Lowpc := 0, Highpc := 100, Functions := [] }
        rfl rfl (by decide) (by decide) (by decide) (by decide) (by decide) h⟩

/-! ## Consistency of the breakpoint list -/

/-- `AddBreakpoint` for a location that resolves to a 64-bit address, on a
stopped process. -/
theorem AddBreakpoint_eq (p : Process) (where_ : List Char) (fn : BpCallback) (A : Nat)
    (hres : resolveSymbol p where_ = Run.ret (A, none)) (hA : A < 2 ^ 64)
    (hstop : p.isRunning = false) :
    AddBreakpoint p where_ fn =
      if p.tracee.canPeek (A - A % 8) = true then
        if p.tracee.canPoke (A - A % 8) = true then
          Run.ret (true,
            { p with
              tracee := { p.tracee with mem := Function.update p.tracee.mem A INT3 },
              Breakpoints := p.Breakpoints ++
                [{ Address := A, savedInstr := [p.tracee.mem A], Active := true,
                   Callback := fn, HitCount := 0 }] })
        else Run.ret (false, p)
      else Run.panicked := by
  unfold AddBreakpoint
  rw [hres, Run.bind_ret]
  simp only
  rw [SwapBytesText_byte p A INT3 hstop hA]
  by_cases hp : p.tracee.canPeek (A - A % 8) = true
  · by_cases hq : p.tracee.canPoke (A - A % 8) = true
    · simp [hp, hq, Run.bind]
    · simp [hp, hq, Run.bind]
  · simp [hp, Run.bind]

/-- `AddBreakpoint` for a location that does not resolve. -/
theorem AddBreakpoint_unresolved (p : Process) (where_ : List Char) (fn : BpCallback)
    (A : Nat) (e : ResolveError) (hres : resolveSymbol p where_ = Run.ret (A, some e)) :
    AddBreakpoint p where_ fn = Run.ret (false, p) := by
  unfold AddBreakpoint
  rw [hres, Run.bind_ret]

theorem getElem_opt_append_single {α : Type} (l : List α) (b a : α) (k : Nat)
    (h : (l ++ [b])[k]? = some a) :
    (k < l.length ∧ l[k]? = some a) ∨ (k = l.length ∧ a = b) := by
  rcases Nat.lt_or_ge k l.length with hk | hk
  · rw [List.getElem?_append_left hk] at h
    exact Or.inl ⟨hk, h⟩
  · rw [List.getElem?_append_right hk] at h
    rcases Nat.eq_or_lt_of_le hk with he | hlt
    · rw [← he] at h
      simp only [Nat.sub_self, List.getElem?_cons_zero, Option.some.injEq] at h
      exact Or.inr ⟨he.symm, h.symm⟩
    · obtain ⟨m, hm⟩ : ∃ m, k - l.length = m + 1 := ⟨k - l.length - 1, by omega⟩
      rw [hm] at h
      simp at h

theorem getElem_opt_set {α : Type} (l : List α) (b a : α) (k j : Nat)
    (h : (l.set k b)[j]? = some a) :
    (j = k ∧ a = b) ∨ (j ≠ k ∧ l[j]? = some a) := by
  by_cases hjk : k = j
  · subst hjk
    rw [List.getElem?_set_self'] at h
    cases hl : l[k]? with
    | none => rw [hl] at h; simp at h
    | some c =>
      rw [hl] at h
      simp at h
      exact Or.inl ⟨rfl, h.symm⟩
  · rw [List.getElem?_set_ne hjk] at h
    exact Or.inr ⟨fun e => hjk e.symm, h⟩

/-- `AddBreakpoint` at a fresh text address keeps the breakpoints
consistent. -/
theorem consistent_add (text : Nat → Prop) (p0 p p1 : Process) (where_ : List Char)
    (fn : BpCallback) (ok : Bool) (hinv : consistent text p0 p)
    (hside : ∀ A, resolveSymbol p where_ = Run.ret (A, none) →
      A < 2 ^ 64 ∧ text A ∧ ∀ bp ∈ p.Breakpoints, bp.Address ≠ A)
    (h : AddBreakpoint p where_ fn = Run.ret (ok, p1)) : consistent text p0 p1 := by
  obtain ⟨hstop, hbps, hnodup, hrest⟩ := hinv
  cases hr : resolveSymbol p where_ with
  | panicked => simp [AddBreakpoint, hr, Run.bind] at h
  | exited c => simp [AddBreakpoint, hr, Run.bind] at h
  | fuelOut => simp [AddBreakpoint, hr, Run.bind] at h
  | ret r =>
    obtain ⟨A, e⟩ := r
    cases e with
    | some e =>
      rw [AddBreakpoint_unresolved p where_ fn A e hr] at h
      simp only [Run.ret.injEq, Prod.mk.injEq] at h
      rw [← h.2]
      exact ⟨hstop, hbps, hnodup, hrest⟩
    | none =>
      obtain ⟨hA, htext, hfresh⟩ := hside A hr
      have hfresh' : ∀ (k : Nat) (bp : Breakpoint), p.Breakpoints[k]? = some bp →
          bp.Address ≠ A := fun k bp hk => hfresh bp (List.getElem?_mem hk)
      rw [AddBreakpoint_eq p where_ fn A hr hA hstop] at h
      by_cases hp : p.tracee.canPeek (A - A % 8) = true
      · by_cases hq : p.tracee.canPoke (A - A % 8) = true
        · simp only [hp, hq, if_true, Run.ret.injEq, Prod.mk.injEq] at h
          rw [← h.2]
          refine ⟨hstop, ?_, ?_, ?_⟩
          · intro k bp hk
            rcases getElem_opt_append_single _ _ _ _ hk with ⟨_, hold⟩ | ⟨_, hnew⟩
            · obtain ⟨h1, h2, h3⟩ := hbps k bp hold
              have hne : bp.Address ≠ A := hfresh' k bp hold
              refine ⟨h1, h2, ?_⟩
              simpa [Function.update, hne] using h3
            · subst hnew
              refine ⟨hA, htext, Or.inl ⟨rfl, ?_, ?_⟩⟩
              · simp only
                rw [hrest A htext hfresh']
              · simp
          · intro i j bi bj hi hj hadr
            rcases getElem_opt_append_single _ _ _ _ hi with ⟨_, hio⟩ | ⟨hil, hin⟩
            · rcases getElem_opt_append_single _ _ _ _ hj with ⟨_, hjo⟩ | ⟨_, hjn⟩
              · exact hnodup i j bi bj hio hjo hadr
              · subst hjn
                exact absurd hadr (hfresh' i bi hio)
            · rcases getElem_opt_append_single _ _ _ _ hj with ⟨_, hjo⟩ | ⟨hjl, _⟩
              · subst hin
                exact absurd hadr.symm (hfresh' j bj hjo)
              · rw [hil, hjl]
          · intro x hx hnot
            have hxA : x ≠ A := by
              intro hxa
              have := hnot p.Breakpoints.length
                { Address := A, savedInstr := [p.tracee.mem A], Active := true,
                  Callback := fn, HitCount := 0 }
                (by simp)
              exact this hxa.symm
            have hold : ∀ (k : Nat) (bp : Breakpoint), p.Breakpoints[k]? = some bp →
                bp.Address ≠ x := by
              intro k bp hk
              have hlt : k < p.Breakpoints.length := by
                rcases Nat.lt_or_ge k p.Breakpoints.length with hl | hl
                · exact hl
                · rw [List.getElem?_eq_none hl] at hk; cases hk
              exact hnot k bp (by simp only; rw [List.getElem?_append_left hlt]; exact hk)
            simp only [Function.update, hxA, dite_false]
            exact hrest x hx hold
        · simp only [hp, hq, if_true, if_false, Bool.false_eq_true, Run.ret.injEq,
            Prod.mk.injEq] at h
          rw [← h.2]
          exact ⟨hstop, hbps, hnodup, hrest⟩
      · simp [hp] at h

/-- Replacing the breakpoint at index `k` by one with the same address that is
itself in a consistent state, without touching the rest of the text, keeps the
breakpoints consistent. -/
theorem consistent_update (text : Nat → Prop) (p0 p p1 : Process) (k : Nat)
    (bp nb : Breakpoint) (hinv : consistent text p0 p)
    (hk : p.Breakpoints[k]? = some bp) (hstop1 : p1.isRunning = false)
    (hlist : p1.Breakpoints = p.Breakpoints.set k nb) (hadr : nb.Address = bp.Address)
    (hnb : (nb.Active = true ∧ nb.savedInstr = [p0.tracee.mem nb.Address]
              ∧ p1.tracee.mem nb.Address = INT3)
          ∨ (nb.Active = false ∧ nb.savedInstr = [INT3]
              ∧ p1.tracee.mem nb.Address = p0.tracee.mem nb.Address))
    (hmem : ∀ x, text x → x ≠ bp.Address → p1.tracee.mem x = p.tracee.mem x) :
    consistent text p0 p1 := by
  obtain ⟨_, hbps, hnodup, hrest⟩ := hinv
  obtain ⟨hA, htext, _⟩ := hbps k bp hk
  -- every new entry sits over an old entry with the same address
  have hover : ∀ (j : Nat) (b : Breakpoint), p1.Breakpoints[j]? = some b →
      (j = k ∧ b = nb) ∨ (j ≠ k ∧ p.Breakpoints[j]? = some b) := by
    intro j b hj
    rw [hlist] at hj
    exact getElem_opt_set _ _ _ _ _ hj
  have hold : ∀ (j : Nat) (b : Breakpoint), p1.Breakpoints[j]? = some b →
      ∃ o, p.Breakpoints[j]? = some o ∧ o.Address = b.Address := by
    intro j b hj
    rcases hover j b hj with ⟨hjk, hb⟩ | ⟨_, ho⟩
    · exact ⟨bp, by rw [hjk]; exact hk, by rw [hb, hadr]⟩
    · exact ⟨b, ho, rfl⟩
  have hnew : ∀ (j : Nat) (o : Breakpoint), p.Breakpoints[j]? = some o →
      ∃ b, p1.Breakpoints[j]? = some b ∧ b.Address = o.Address := by
    intro j o hj
    have hjlt : j < p.Breakpoints.length := by
      rcases Nat.lt_or_ge j p.Breakpoints.length with hl | hl
      · exact hl
      · rw [List.getElem?_eq_none hl] at hj; cases hj
    by_cases hjk : j = k
    · subst hjk
      rw [hk] at hj
      cases hj
      exact ⟨nb, by rw [hlist, List.getElem?_set_self hjlt], hadr⟩
    · exact ⟨o, by rw [hlist, List.getElem?_set_ne (fun e => hjk e.symm)]; exact hj, rfl⟩
  refine ⟨hstop1, ?_, ?_, ?_⟩
  · intro j b hj
    rcases hover j b hj with ⟨_, hb⟩ | ⟨hjk, ho⟩
    · subst hb
      exact ⟨by rw [hadr]; exact hA, by rw [hadr]; exact htext, hnb⟩
    · obtain ⟨h1, h2, h3⟩ := hbps j b ho
      have hne : b.Address ≠ bp.Address := by
        intro he
        exact hjk (hnodup j k b bp ho hk he)
      refine ⟨h1, h2, ?_⟩
      rw [hmem b.Address h2 hne]
      exact h3
  · intro i j bi bj hi hj he
    obtain ⟨oi, hoi, hai⟩ := hold i bi hi
    obtain ⟨oj, hoj, haj⟩ := hold j bj hj
    exact hnodup i j oi oj hoi hoj (by rw [hai, haj, he])
  · intro x hx hnot
    have hxo : ∀ (j : Nat) (o : Breakpoint), p.Breakpoints[j]? = some o → o.Address ≠ x := by
      intro j o hj
      obtain ⟨b, hb, hab⟩ := hnew j o hj
      rw [← hab]
      exact hnot j b hb
    have hxA : x ≠ bp.Address := fun e => hxo k bp hk e.symm
    rw [hmem x hx hxA]
    exact hrest x hx hxo

/-- `ToggleBreakpoint` keeps the breakpoints consistent. -/
theorem consistent_toggle (text : Nat → Prop) (p0 p p1 : Process) (k : Nat) (ok : Bool)
    (hinv : consistent text p0 p) (h : ToggleBreakpoint p k = Run.ret (ok, p1)) :
    consistent text p0 p1 := by
  have hinv' := hinv
  obtain ⟨hstop, hbps, _, _⟩ := hinv'
  cases hk : p.Breakpoints[k]? with
  | none => simp [ToggleBreakpoint, hk] at h
  | some bp =>
    obtain ⟨hA, _, hstate⟩ := hbps k bp hk
    obtain ⟨s, hs⟩ : ∃ s, bp.savedInstr = [s] := by
      rcases hstate with ⟨_, h2, _⟩ | ⟨_, h2, _⟩
      · exact ⟨_, h2⟩
      · exact ⟨_, h2⟩
    rw [ToggleBreakpoint_eq p k bp s hk hs hA hstop] at h
    by_cases hp : p.tracee.canPeek (bp.Address - bp.Address % 8) = true
    · by_cases hq : p.tracee.canPoke (bp.Address - bp.Address % 8) = true
      · simp only [hp, hq, if_true, Run.ret.injEq, Prod.mk.injEq] at h
        apply consistent_update text p0 p p1 k bp
          { bp with savedInstr := [p.tracee.mem bp.Address], Active := !bp.Active }
          hinv hk
        · rw [← h.2]; exact hstop
        · rw [← h.2]
        · rfl
        · rw [← h.2]
          simp only [Function.update_same]
          rcases hstate with ⟨ha, hsv, hm⟩ | ⟨ha, hsv, hm⟩
          · right
            rw [hs] at hsv
            simp only [List.cons.injEq, and_true] at hsv
            exact ⟨by simp [ha], by rw [hm], hsv⟩
          · left
            rw [hs] at hsv
            simp only [List.cons.injEq, and_true] at hsv
            exact ⟨by simp [ha], by rw [hm], hsv⟩
        · intro x _ hx
          rw [← h.2]
          simp [Function.update, hx]
      · simp only [hp, hq, if_true, if_false, Bool.false_eq_true, Run.ret.injEq,
          Prod.mk.injEq] at h
        rw [← h.2]
        exact hinv
    · simp [hp] at h

/-- Resetting the program counter and stepping one instruction of a traced
program that neither writes the text nor changes what can be read and written:
the running flag, the breakpoint list, the access rights and the text are as
before. -/
theorem stepped_facts (cpu : Tracee → Tracee) (text : Nat → Prop) (q : Process)
    (r : RegisterState)
    (hcpuText : ∀ t x, text x → (cpu t).mem x = t.mem x)
    (hcpuAccess : ∀ t a, (cpu t).canPeek a = t.canPeek a ∧ (cpu t).canPoke a = t.canPoke a) :
    (SingleStep cpu (SetRegisters q r).2).2.isRunning = q.isRunning
      ∧ (SingleStep cpu (SetRegisters q r).2).2.Breakpoints = q.Breakpoints
      ∧ (∀ a, (SingleStep cpu (SetRegisters q r).2).2.tracee.canPeek a = q.tracee.canPeek a)
      ∧ (∀ a, (SingleStep cpu (SetRegisters q r).2).2.tracee.canPoke a = q.tracee.canPoke a)
      ∧ ∀ x, text x → (SingleStep cpu (SetRegisters q r).2).2.tracee.mem x = q.tracee.mem x := by
  cases hs : q.tracee.canSetRegs <;> cases hc : q.tracee.canStep <;>
    simp [SetRegisters, SingleStep, hs, hc, hcpuAccess] <;>
    (intro x hx; exact hcpuText _ x hx)

/-- A completed call of `handleBreakpoint` keeps the breakpoints consistent. -/
theorem consistent_hit (cpu : Tracee → Tracee) (text : Nat → Prop) (p0 p p1 : Process)
    (k : Nat) (log : List Event)
    (hcpuText : ∀ t x, text x → (cpu t).mem x = t.mem x)
    (hcpuAccess : ∀ t a, (cpu t).canPeek a = t.canPeek a ∧ (cpu t).canPoke a = t.canPoke a)
    (hinv : consistent text p0 p) (h : handleBreakpoint cpu p k = Run.ret (p1, log)) :
    consistent text p0 p1 := by
  have hinv' := hinv
  obtain ⟨hstop, hbps, _, _⟩ := hinv'
  cases hk : p.Breakpoints[k]? with
  | none => simp [handleBreakpoint, beforeCallback, hk, Run.bind] at h
  | some bp =>
    obtain ⟨hA, htext, hstate⟩ := hbps k bp hk
    obtain ⟨s, hs⟩ : ∃ s, bp.savedInstr = [s] := by
      rcases hstate with ⟨_, h2, _⟩ | ⟨_, h2, _⟩
      · exact ⟨_, h2⟩
      · exact ⟨_, h2⟩
    cases hg : p.tracee.canGetRegs with
    | false =>
      simp only [handleBreakpoint, beforeCallback, hk, GetRegisters, hg, Bool.false_eq_true,
        if_false, Run.bind_ret, Run.ret.injEq, Prod.mk.injEq] at h
      rw [← h.1]
      exact hinv
    | true =>
      have hswap := SwapBytesText_byte p bp.Address s hstop hA
      by_cases hp : p.tracee.canPeek (bp.Address - bp.Address % 8) = true
      · by_cases hq : p.tracee.canPoke (bp.Address - bp.Address % 8) = true
        · -- both swaps succeed
          rw [hp, hq] at hswap
          simp only [if_true] at hswap
          obtain ⟨f1, f2, f3, f4, f5⟩ := stepped_facts cpu text
            { p with tracee :=
                { p.tracee with mem := Function.update p.tracee.mem bp.Address s } }
            (p.tracee.regs.SetPC bp.Address) hcpuText hcpuAccess
          have hswap2 := SwapBytesText_byte
            (SingleStep cpu (SetRegisters
              { p with tracee :=
                  { p.tracee with mem := Function.update p.tracee.mem bp.Address s } }
              (p.tracee.regs.SetPC bp.Address)).2).2 bp.Address (p.tracee.mem bp.Address)
            (by rw [f1]; exact hstop) hA
          rw [f3, f4] at hswap2
          simp only [hp, hq, if_true] at hswap2
          simp only [hg] at hswap2 f1 f2 f5
          rw [f5 bp.Address htext] at hswap2
          simp only [Function.update_same] at hswap2
          simp only [handleBreakpoint, beforeCallback, hk, GetRegisters, hg, if_true, hs, hswap,
            Run.bind_ret] at h
          split_ifs at h with hab
          rw [hswap2, Run.bind_ret] at h
          simp only [Run.ret.injEq, Prod.mk.injEq] at h
          have hp1 := h.1
          apply consistent_update text p0 p p1 k bp
            { bp with savedInstr := [s], HitCount := u64 (bp.HitCount + 1) } hinv hk
          · rw [← hp1]
            simp only [setBreakpoint]
            rw [f1]
            exact hstop
          · rw [← hp1]
            simp only [setBreakpoint]
            rw [f2]
          · rfl
          · have hm : p1.tracee.mem bp.Address = p.tracee.mem bp.Address := by
              rw [← hp1]
              simp [setBreakpoint]
            rw [hs] at hstate
            simp only [hm]
            exact hstate
          · intro x hx hne
            rw [← hp1]
            simp only [setBreakpoint, Function.update_noteq hne]
            rw [f5 x hx]
            simp [Function.update, hne]
        · -- both swaps fail: nothing is written
          rw [hp] at hswap
          simp only [hq, if_true, if_false, Bool.false_eq_true] at hswap
          obtain ⟨f1, f2, f3, f4, f5⟩ := stepped_facts cpu text p
            (p.tracee.regs.SetPC bp.Address) hcpuText hcpuAccess
          have hswap2 := SwapBytesText_byte
            (SingleStep cpu (SetRegisters p (p.tracee.regs.SetPC bp.Address)).2).2
            bp.Address s (by rw [f1]; exact hstop) hA
          rw [f3, f4] at hswap2
          simp only [hp, hq, if_true, if_false, Bool.false_eq_true] at hswap2
          simp only [handleBreakpoint, beforeCallback, hk, GetRegisters, hg, if_true, hs, hswap,
            Run.bind_ret] at h
          split_ifs at h with hab
          rw [hswap2, Run.bind_ret] at h
          simp only [Run.ret.injEq, Prod.mk.injEq] at h
          have hp1 := h.1
          have hmem : ∀ x, text x → p1.tracee.mem x = p.tracee.mem x := by
            intro x hx
            rw [← hp1]
            simp only [setBreakpoint]
            exact f5 x hx
          apply consistent_update text p0 p p1 k bp
            { bp with savedInstr := [s], HitCount := u64 (bp.HitCount + 1) } hinv hk
          · rw [← hp1]
            simp only [setBreakpoint]
            rw [f1]
            exact hstop
          · rw [← hp1]
            simp only [setBreakpoint]
            rw [f2]
          · rfl
          · rw [hs] at hstate
            simp only [hmem bp.Address htext]
            exact hstate
          · intro x hx _
            exact hmem x hx
      · rw [if_neg hp] at hswap
        simp [handleBreakpoint, beforeCallback, hk, GetRegisters, hg, hs, hswap, Run.bind] at h

/-- Every state reachable from a stopped process without breakpoints is
consistent, when the traced program neither writes the text nor changes what can
be read and written. -/
theorem consistent_of_reachable (cpu : Tracee → Tracee) (text : Nat → Prop) (p0 p : Process)
    (hfresh : p0.Breakpoints = []) (hstop : p0.isRunning = false)
    (hcpuText : ∀ t x, text x → (cpu t).mem x = t.mem x)
    (hcpuAccess : ∀ t a, (cpu t).canPeek a = t.canPeek a ∧ (cpu t).canPoke a = t.canPoke a)
    (hreach : Reachable cpu text p0 p) : consistent text p0 p := by
  induction hreach with
  | start =>
    refine ⟨hstop, ?_, ?_, ?_⟩
    · intro k bp hk
      rw [hfresh] at hk
      simp at hk
    · intro i j bi bj hi
      rw [hfresh] at hi
      simp at hi
    · intro x _ _
      rfl
  | add p p1 where_ fn ok _ hside h ih => exact consistent_add text p0 p p1 where_ fn ok ih hside h
  | toggle p p1 k ok _ h ih => exact consistent_toggle text p0 p p1 k ok ih h
  | hit p p1 k log _ h ih =>
    exact consistent_hit cpu text p0 p p1 k log hcpuText hcpuAccess ih h

/-- C21 (as amended): take a stopped process `p0` without breakpoints and a
traced program whose instructions neither write the text nor change which words
can be read and written. In every state reachable from `p0` by `AddBreakpoint`
at locations that resolve to a 64-bit text address holding no breakpoint yet, by
`ToggleBreakpoint` and by completed `handleBreakpoint` calls, every breakpoint
of the list whose `Active` flag is true has a saved-instruction buffer holding
exactly the byte that `p0` had at its address, and the byte of the target at its
address is `INT3`. -/
theorem Reachable_active_saves_original (cpu : Tracee → Tracee) (text : Nat → Prop)
    (p0 p : Process)
    (hfresh : p0.Breakpoints = []) (hstop : p0.isRunning = false)
    (hcpuText : ∀ t x, text x → (cpu t).mem x = t.mem x)
    (hcpuAccess : ∀ t a, (cpu t).canPeek a = t.canPeek a ∧ (cpu t).canPoke a = t.canPoke a)
    (hreach : Reachable cpu text p0 p) :
    ∀ bp ∈ p.Breakpoints, bp.Active = true →
      bp.savedInstr = [p0.tracee.mem bp.Address] ∧ p.tracee.mem bp.Address = INT3 := by
  intro bp hbp hact
  obtain ⟨_, hbps, _, _⟩ :=
    consistent_of_reachable cpu text p0 p hfresh hstop hcpuText hcpuAccess hreach
  obtain ⟨k, hk⟩ := List.getElem?_of_mem hbp
  obtain ⟨_, _, hstate⟩ := hbps k bp hk
  rcases hstate with ⟨_, h2, h3⟩ | ⟨h1, _, _⟩
  · exact ⟨h2, h3⟩
  · rw [h1] at hact
    cases hact

/-- Counterexample for C21 as stated: two calls of `AddBreakpoint` at address 19
(`0x13`) of the demo process, whose byte there is 20. Both succeed, and the
second breakpoint of the list is active with the trap byte `INT3` in its
saved-instruction buffer, not the byte 20. -/
theorem AddBreakpoint_twice_saves_trap :
    demoProcess.Breakpoints = [] ∧ demoProcess.isRunning = false
      ∧ demoProcess.tracee.mem 19 = 20
      ∧ ∃ p1 p2 bp,
          AddBreakpoint demoProcess "0x13".toList (fun _ => CONTINUE) = Run.ret (true, p1)
          ∧ AddBreakpoint p1 "0x13".toList (fun _ => CONTINUE) = Run.ret (true, p2)
          ∧ p2.Breakpoints[1]? = some bp
          ∧ bp.Address = 19 ∧ bp.Active = true
          ∧ bp.savedInstr = [INT3]
          ∧ bp.savedInstr ≠ [demoProcess.tracee.mem bp.Address] :=
  ⟨rfl, rfl, rfl, _, _, _, rfl, rfl, rfl, rfl, rfl, rfl, by decide⟩

/-- Witness for C21: the state after one `AddBreakpoint` at address 19 of the
demo process, the traced program being `demoCpu` and every address text. -/
theorem Reachable_active_saves_original_witness :
    ∃ p1, Reachable demoCpu (fun _ => True) demoProcess p1
      ∧ p1.Breakpoints.length = 1
      ∧ ∀ bp ∈ p1.Breakpoints, bp.Active = true →
          bp.savedInstr = [demoProcess.tracee.mem bp.Address]
            ∧ p1.tracee.mem bp.Address = INT3 :=
  have hreach : Reachable demoCpu (fun _ => True) demoProcess
      { demoProcess with
        tracee := { demoTracee with mem := Function.update demoTracee.mem 19 INT3 },
        Breakpoints :=
          [{ Address := 19, savedInstr := [20], Active := true,
             Callback := fun _ => CONTINUE, HitCount := 0 }] } :=
    Reachable.add demoProcess _ "0x13".toList (fun _ => CONTINUE) true Reachable.start
      (fun A hA => by
        have h19 : resolveSymbol demoProcess "0x13".toList = Run.ret (19, none) := by decide
        rw [h19] at hA
        simp only [Run.ret.injEq, Prod.mk.injEq, and_true] at hA
        subst hA
        exact ⟨by decide, trivial, fun bp hbp => by cases hbp⟩)
      (by rw [AddBreakpoint_eq demoProcess _ _ 19 (by decide) (by decide) rfl]; rfl)
  ⟨_, hreach, rfl,
    Reachable_active_saves_original demoCpu (fun _ => True) demoProcess _ rfl rfl
      (fun _ _ _ => rfl) (fun _ _ => ⟨rfl, rfl⟩) hreach⟩

end Grace
